import Mathlib

/-!
# Revision ingestion and reconciliation (`parse.go`)

A shallow embedding of the functions of `parse.go`: `readRevList`,
`resolveSvc`, `initSvcEntry`, `writeDeployStatus`, `writeServiceTagUat`,
`writeServiceTag`, `getServiceTag` and the merge loop of `getReplication`.

* A Go `string` is a byte sequence; it is modelled as a `List Char`, one list
  element per byte.
* A Go `map[string]V` is modelled as an association list with a lookup that
  yields the zero value of `V` for an absent key, and an assignment that
  replaces the value of a present key and adds an absent one.
* A run-time panic (slice bounds or index out of range) is modelled by `none`.
* A table of the database is the list of its rows in the order of the
  primary key. The calls of the mapping layer are modelled for the case that
  they succeed, with its documented conventions: `Find` returns all rows (the
  rows that meet the `Where` clause); `Get(bean)` returns the first row that
  agrees with the non-zero fields of the bean; `Insert` writes all fields
  under a new key; `ID(id).Update(bean)` writes the non-zero fields of the
  bean, and with `Cols(...)` the listed columns, zero values included.
-/

namespace GitDiffParser

/-! ## Strings -/

/-- Go strings, as byte sequences. -/
abbrev Str := List Char

/-- Search loop of `strings.Index`: the index of the first occurrence of `sub`
in the remaining text, counted from `n`, or `-1`. -/
def strIndexFrom (sub : Str) : Str → Nat → Int
  | [], n => if sub = [] then (n : Int) else -1
  | c :: cs, n => if sub.isPrefixOf (c :: cs) then (n : Int) else strIndexFrom sub cs (n + 1)

/-- Go `strings.Index(s, sub)`: index of the first occurrence of `sub` in `s`,
or `-1` when `sub` does not occur. -/
def strIndex (s sub : Str) : Int := strIndexFrom sub s 0

/-- Go `strings.Split(s, sep)` for a one-byte separator: the pieces of `s`
between the separators; never empty. -/
def strSplit (sep : Char) : Str → List Str
  | [] => [[]]
  | c :: cs =>
    if c = sep then [] :: strSplit sep cs
    else
      match strSplit sep cs with
      | [] => [[c]]
      | t :: ts => (c :: t) :: ts

/-- Go slice expression `s[lo:hi]` on a string: panics (here `none`) unless
`0 ≤ lo ≤ hi ≤ len(s)`. -/
def goSlice (s : Str) (lo hi : Int) : Option Str :=
  if 0 ≤ lo ∧ lo ≤ hi ∧ hi ≤ (s.length : Int) then
    some ((s.drop lo.toNat).take (hi - lo).toNat)
  else none

/-! ## Maps -/

/-- Go `map[string]V` as an association list. -/
abbrev GoMap (V : Type) := List (Str × V)

/-- Go `m[k]` read: the value stored for `k`, or the zero value `zero`. -/
def mapGet {V : Type} (zero : V) : GoMap V → Str → V
  | [], _ => zero
  | (a, v) :: m, k => if a = k then v else mapGet zero m k

/-- Go `m[k] = v`. -/
def mapSet {V : Type} : GoMap V → Str → V → GoMap V
  | [], k, v => [(k, v)]
  | (a, w) :: m, k, v => if a = k then (a, v) :: m else (a, w) :: mapSet m k v

/-! ## `readRevList` -/

/-- The header marker of line 161. -/
def markHeader : Str := "@@@".toList

/-- The footer marker of line 167. -/
def markFooter : Str := "###".toList

/-- The label of line 174. -/
def labelChangeId : Str := "Change-Id: ".toList

/-- The path marker of line 189. -/
def markSrc : Str := "/src".toList

/-- The path marker of line 195. -/
def markPom : Str := "/pom.xml".toList

/-- The path marker of line 202. -/
def markDocker : Str := "/Dockerfile".toList

/-- The change type of line 211. -/
def typeDelete : Str := "D".toList

/-- The package-level maps written by `readRevList` together with the local
variables of its loop. -/
structure ParseState where
  svcMap : GoMap (List Str)
  svcDelMap : GoMap Bool
  changIdCommitIdMap : GoMap Str
  currentId : Str
  currentCommitId : Str
  isHead : Bool
  deriving DecidableEq

/-- State at the entry of `readRevList`: empty maps, zero-valued locals. -/
def initState : ParseState :=
  { svcMap := [], svcDelMap := [], changIdCommitIdMap := [],
    currentId := [], currentCommitId := [], isHead := false }

/-- Lines 174-180: the `isHead` branch. -/
def headerLine (st : ParseState) (inputString : Str) : Option ParseState :=
  let chIdx := strIndex inputString labelChangeId
  if chIdx ≠ -1 then
    let chIdx := chIdx + 11
    match goSlice inputString chIdx (chIdx + 41) with
    | none => none
    | some currentId =>
      some { st with
        currentId := currentId
        changIdCommitIdMap := mapSet st.changIdCommitIdMap currentId st.currentCommitId }
  else some st

/-- Lines 187-206: the index of the first matching marker in `sourcePart`
and the `sourcePartType` of the marker (1 `/src`, 2 `/pom.xml`,
3 `/Dockerfile`); the index is `-1` when no marker occurs. -/
def classify (sourcePart : Str) : Int × Nat :=
  let idx := strIndex sourcePart markSrc
  let sourcePartType := 1
  let (idx, sourcePartType) :=
    if idx = -1 then (strIndex sourcePart markPom, 2) else (idx, sourcePartType)
  let (idx, sourcePartType) :=
    if idx = -1 then (strIndex sourcePart markDocker, 3) else (idx, sourcePartType)
  (idx, sourcePartType)

/-- Lines 184-240: the `else` branch (not `isHead`). -/
def bodyLine (st : ParseState) (inputString : Str) : ParseState :=
  let strTokens := strSplit '\t' inputString
  if strTokens.length > 0 then
    let sourcePart := strTokens.getLast?.getD []
    let (idx, sourcePartType) := classify sourcePart
    if idx ≠ -1 then
      let svcName := sourcePart.take idx.toNat
      if strTokens.head?.getD [] = typeDelete then
        if sourcePartType = 2 then
          { st with svcDelMap := mapSet st.svcDelMap svcName true }
        else st
      else if mapGet false st.svcDelMap svcName then st
      else
        let currRevList := mapGet [] st.svcMap svcName
        if currRevList.length > 0 then
          if currRevList.getLast? = some st.currentId then st
          else { st with svcMap := mapSet st.svcMap svcName (currRevList ++ [st.currentId]) }
        else { st with svcMap := mapSet st.svcMap svcName (currRevList ++ [st.currentId]) }
    else st
  else st

/-- One iteration of the loop of `readRevList` (lines 159-241) on a line whose
trailing newline has been trimmed; `none` when a slice expression panics. -/
def processLine (idLength : Int) (st : ParseState) (inputString : Str) : Option ParseState :=
  let afterMark : Option ParseState :=
    if strIndex inputString markHeader = 0 then
      match goSlice inputString 3 (3 + idLength) with
      | none => none
      | some c => some { st with isHead := true, currentCommitId := c }
    else some st
  match afterMark with
  | none => none
  | some st =>
    if strIndex inputString markFooter = 0 then some { st with isHead := false }
    else if st.isHead then headerLine st inputString
    else some (bodyLine st inputString)

/-- The loop of `readRevList` over the lines of the input, in order. -/
def runLines (idLength : Int) : ParseState → List Str → Option ParseState
  | st, [] => some st
  | st, l :: ls =>
    match processLine idLength st l with
    | none => none
    | some st1 => runLines idLength st1 ls

/-- Outcome of `readRevList`. -/
inductive ReadResult where
  | ioError
  | panicked
  | ok (st : ParseState)
  deriving DecidableEq

/-- Function `readRevList`: `file` is `none` when `os.Open` fails and the
content of the file otherwise. `ReadString` hands over the text up to each
newline and, with `io.EOF`, the text after the last one; the loop body runs
on every one of them, the last included. -/
def readRevList (idLength : Int) (file : Option Str) : ReadResult :=
  match file with
  | none => ReadResult.ioError
  | some content =>
    match runLines idLength initState (strSplit '\n' content) with
    | none => ReadResult.panicked
    | some st => ReadResult.ok st

/-! ## The `service_revision` table and `resolveSvc` -/

/-- Struct `ServiceRevision`: a row of the table. `Id` is the primary key
that the mapping layer assigns on insertion. -/
structure ServiceRevision where
  Id : Int
  ServiceName : Str
  RevId : Str
  CommitId : Str
  Deployed : Int
  deriving DecidableEq

/-- The write requests that `resolveSvc` sends to the table. -/
inductive StoreOp where
  /-- Line 290: `engine.ID(id).Cols("rev_id", "commit_id", "deployed").Update(bean)`. -/
  | update (id : Int) (bean : ServiceRevision)
  /-- Line 306: `engine.Insert(bean)`. -/
  | insert (bean : ServiceRevision)
  deriving DecidableEq

/-- The list `updateList` and the write requests sent so far. -/
structure RunState where
  updateList : List Str
  writes : List StoreOp
  deriving DecidableEq

/-- Lines 281-298: the inner loop over the rows read at the start; returns
the flag `existed` and the state after the loop. -/
def scanOld (changIdCommitIdMap : GoMap Str) (svc latestRevId : Str) (rs : RunState) :
    List ServiceRevision → Bool × RunState
  | [] => (false, rs)
  | oldSvc :: rest =>
    if svc = oldSvc.ServiceName then
      if latestRevId ≠ oldSvc.RevId then
        (true,
          { updateList := rs.updateList ++ [svc ++ "/pom.xml".toList]
            writes := rs.writes ++
              [StoreOp.update oldSvc.Id
                { oldSvc with
                  RevId := latestRevId
                  CommitId := mapGet [] changIdCommitIdMap latestRevId
                  Deployed := 0 }] })
      else if oldSvc.Deployed = 0 then
        (true, { rs with updateList := rs.updateList ++ [svc ++ "/pom.xml".toList] })
      else (true, rs)
    else scanOld changIdCommitIdMap svc latestRevId rs rest

/-- Lines 277-308: the body of the loop over `svcMap` for one entry. -/
def resolveEntry (oldService : List ServiceRevision) (changIdCommitIdMap : GoMap Str)
    (rs : RunState) (entry : Str × List Str) : RunState :=
  let svc := entry.1
  let svcRevList := entry.2
  if svcRevList.length > 0 then
    let latestRevId := svcRevList.head?.getD []
    let (existed, rs) := scanOld changIdCommitIdMap svc latestRevId rs oldService
    if !existed then
      { updateList := rs.updateList ++ [svc ++ "/pom.xml".toList]
        writes := rs.writes ++
          [StoreOp.insert
            { Id := 0, ServiceName := svc, RevId := latestRevId,
              CommitId := mapGet [] changIdCommitIdMap latestRevId, Deployed := 0 }] }
    else rs
  else rs

/-- Function `resolveSvc` (lines 265-310): `oldService` is the result of
`engine.Find`, the entries of `svcMap` are visited in the order of the list,
`updateList` is the list the entries are appended to. -/
def resolveSvc (oldService : List ServiceRevision) (svcMap : GoMap (List Str))
    (changIdCommitIdMap : GoMap Str) (updateList : List Str) : RunState :=
  svcMap.foldl (resolveEntry oldService changIdCommitIdMap)
    { updateList := updateList, writes := [] }

/-- The next value of the auto-increment key: above every key in the table. -/
def nextId (store : List ServiceRevision) : Int :=
  (store.map ServiceRevision.Id).foldr max 0 + 1

/-- Effect of one successful write request on the table: an update by id
overwrites the three listed columns of the rows with that id, an insert adds
a row under a new key. -/
def applyWrite (store : List ServiceRevision) : StoreOp → List ServiceRevision
  | StoreOp.update id bean =>
    store.map fun r =>
      if r.Id = id then
        { r with RevId := bean.RevId, CommitId := bean.CommitId, Deployed := bean.Deployed }
      else r
  | StoreOp.insert bean => store ++ [{ bean with Id := nextId store }]

/-- Effect of a sequence of successful write requests. -/
def applyWrites (store : List ServiceRevision) (ops : List StoreOp) : List ServiceRevision :=
  ops.foldl applyWrite store

/-- The table after a run of `resolveSvc` whose writes all succeed. -/
def storeAfterResolve (store : List ServiceRevision) (svcMap : GoMap (List Str))
    (changIdCommitIdMap : GoMap Str) : List ServiceRevision :=
  applyWrites store (resolveSvc store svcMap changIdCommitIdMap []).writes

/-- The row that the inner loop of `resolveSvc` reaches for `svc`: the first
one with that service name. -/
def recordOf (store : List ServiceRevision) (svc : Str) : Option ServiceRevision :=
  store.find? fun r => decide (r.ServiceName = svc)

/-- The condition of the rebuild list, in the words of the specification:
the service has a non-empty revision sequence and either no record, or a
record with another revision, or a record that is not deployed. -/
def needsRebuild (oldService : List ServiceRevision) (svcMap : GoMap (List Str))
    (svc : Str) : Bool :=
  match mapGet [] svcMap svc with
  | [] => false
  | latest :: _ =>
    match recordOf oldService svc with
    | none => true
    | some r => decide (r.RevId ≠ latest) || decide (r.Deployed = 0)

/-! ## Proof vocabulary: what one entry of the map contributes -/

/-- The rebuild-list entries that one map entry contributes. -/
def entryEmit (oldService : List ServiceRevision) (entry : Str × List Str) : List Str :=
  match entry.2 with
  | [] => []
  | latest :: _ =>
    match recordOf oldService entry.1 with
    | none => [entry.1 ++ "/pom.xml".toList]
    | some r =>
      if latest ≠ r.RevId ∨ r.Deployed = 0 then [entry.1 ++ "/pom.xml".toList] else []

/-- The write requests that one map entry contributes. -/
def entryWrite (oldService : List ServiceRevision) (changIdCommitIdMap : GoMap Str)
    (entry : Str × List Str) : List StoreOp :=
  match entry.2 with
  | [] => []
  | latest :: _ =>
    match recordOf oldService entry.1 with
    | none =>
      [StoreOp.insert
        { Id := 0, ServiceName := entry.1, RevId := latest,
          CommitId := mapGet [] changIdCommitIdMap latest, Deployed := 0 }]
    | some r =>
      if latest ≠ r.RevId then
        [StoreOp.update r.Id
          { r with RevId := latest, CommitId := mapGet [] changIdCommitIdMap latest,
                   Deployed := 0 }]
      else []

/-! ## Proof vocabulary: write requests -/

/-- The service that a write request is about. -/
def opName : StoreOp → Str
  | StoreOp.update _ bean => bean.ServiceName
  | StoreOp.insert bean => bean.ServiceName

/-- The column overwrite performed by an update request. -/
def setCols (bean r : ServiceRevision) : ServiceRevision :=
  { r with RevId := bean.RevId, CommitId := bean.CommitId, Deployed := bean.Deployed }

/-- The conditions under which a list of write requests acts on each service
separately: updates address the first row of their service, inserts are for
services without a row, and no two requests are about the same service. -/
def WritesFit (st : List ServiceRevision) (ops : List StoreOp) : Prop :=
  (st.map ServiceRevision.Id).Nodup ∧
  (∀ id b, StoreOp.update id b ∈ ops →
    (recordOf st b.ServiceName).map ServiceRevision.Id = some id) ∧
  (∀ b, StoreOp.insert b ∈ ops → recordOf st b.ServiceName = none) ∧
  (ops.map opName).Nodup

/-! ## Sample data -/

/-- A table with three rows. -/
def sampleStore : List ServiceRevision :=
  [ { Id := 1, ServiceName := "a".toList, RevId := "r1".toList, CommitId := "c1".toList,
      Deployed := 1 },
    { Id := 2, ServiceName := "b".toList, RevId := "r2".toList, CommitId := "c2".toList,
      Deployed := 0 },
    { Id := 5, ServiceName := "c".toList, RevId := "r3".toList, CommitId := "c3".toList,
      Deployed := 1 } ]

/-- A revision index over five services, one of them with an empty sequence. -/
def sampleIndex : GoMap (List Str) :=
  [ ("a".toList, ["r9".toList, "r1".toList]),
    ("b".toList, ["r2".toList]),
    ("c".toList, ["r3".toList]),
    ("d".toList, ["r4".toList]),
    ("e".toList, []) ]

/-- A change-to-commit map that knows `r9` only. -/
def sampleCommits : GoMap Str := [("r9".toList, "abcdef1".toList)]

/-! ## Vocabulary for the lines of the log -/

/-- The list that lines 223-237 leave for a service: `currentId` appended
to `currRevList` unless it is its last element. -/
def appendRev (currRevList : List Str) (currentId : Str) : List Str :=
  if currRevList.length > 0 ∧ currRevList.getLast? = some currentId then currRevList
  else currRevList ++ [currentId]

/-- Go test `strings.Index(line, marker) == 0`. -/
def startsWith (line marker : Str) : Bool := decide (strIndex line marker = 0)

/-- The last tab-delimited field of a line: `strTokens[len(strTokens)-1]`. -/
def lastField (line : Str) : Str := (strSplit '\t' line).getLast?.getD []

/-- The first tab-delimited field of a line: `strTokens[0]`. -/
def firstField (line : Str) : Str := (strSplit '\t' line).head?.getD []

/-- The service that a line names: the text of its path before the marker
found by `classify`, if any marker occurs. -/
def lineService (line : Str) : Option Str :=
  if (classify (lastField line)).1 ≠ -1 then
    some ((lastField line).take (classify (lastField line)).1.toNat)
  else none

/-- The `sourcePartType` of a line. -/
def lineMarker (line : Str) : Nat := (classify (lastField line)).2

/-- Whether the change type of the line is the delete type `"D"`. -/
def isDeleteLine (line : Str) : Bool := decide (firstField line = typeDelete)

/-! ## Sample log -/

/-- A change id of 41 bytes. -/
def sampleChangeId : Str := "I0123456789012345678901234567890123456789".toList

/-- The header of a log entry: marker line with the commit id `abcdef1`, the
line with the change id, the footer marker. -/
def sampleHeader : List Str :=
  [ "@@@abcdef1 fix the build".toList,
    "    Change-Id: I0123456789012345678901234567890123456789".toList,
    "###".toList ]

/-- The state after `sampleHeader`. -/
def sampleBodyState : ParseState :=
  { svcMap := [], svcDelMap := [],
    changIdCommitIdMap := [(sampleChangeId, "abcdef1".toList)],
    currentId := sampleChangeId, currentCommitId := "abcdef1".toList, isHead := false }

/-- The state after `sampleHeader` and lines that record service `a`. -/
def sampleStateA : ParseState :=
  { sampleBodyState with svcMap := [("a".toList, [sampleChangeId])] }

/-- The state after `sampleHeader` and the deletion of the build descriptor
of service `b`. -/
def sampleStateB : ParseState :=
  { sampleBodyState with svcDelMap := [("b".toList, true)] }

/-- Whether a line that is not read in header mode names `svc` and is not a
delete line: it starts with neither marker, its change type is not `"D"` and
its path is classified with service name `svc`. -/
def acceptedFor (line svc : Str) : Bool :=
  !startsWith line markHeader && !startsWith line markFooter && !isDeleteLine line &&
    decide (lineService line = some svc)

/-! ## The example log of the specification -/

/-- The body line of the example of the specification. -/
def exampleBody : Str := "M\tpath/to/svcA/src/Foo.java".toList

/-- The example log: header line, change-id line, footer, body line. -/
def exampleLog : Str :=
  ("@@@abcdef1 fix the build\n" ++ "Change-Id: I0123456789012345678901234567890123456789\n" ++
    "###\n" ++ "M\tpath/to/svcA/src/Foo.java").toList

/-- The state that the example log is parsed to, for a commit id `c` and a
change id `i`. -/
def exampleState (c i : Str) : ParseState :=
  { svcMap := [("path/to/svcA".toList, [i])], svcDelMap := [],
    changIdCommitIdMap := [(i, c)], currentId := i, currentCommitId := c, isHead := false }

/-! ## Out-of-range slices -/

/-- The slice `inputString[3:3+idLength]` of line 164 is out of range: the
line starts with `"@@@"` and `idLength` is negative or the line has fewer
than `3 + idLength` bytes. -/
def headerSliceFails (idLength : Int) (line : Str) : Bool :=
  startsWith line markHeader &&
    !(decide (0 ≤ idLength) && decide (3 + idLength ≤ (line.length : Int)))

/-- The slice `inputString[chIdx:chIdx+41]` of line 177 is out of range: the
line holds the label `"Change-Id: "` and fewer than 41 bytes follow its first
occurrence. -/
def changeIdSliceFails (line : Str) : Bool :=
  decide (strIndex line labelChangeId ≠ -1) &&
    decide ((line.length : Int) < strIndex line labelChangeId + 11 + 41)

/-- No slice of the loop body can be out of range on this line, whatever the
mode it is read in. -/
def lineFits (idLength : Int) (line : Str) : Bool :=
  !headerSliceFails idLength line && !changeIdSliceFails line

/-! ## The revision index as a trace of the stream -/

/-- A list of change ids with consecutive equal ids collapsed to one. -/
def collapse : List Str → List Str
  | [] => []
  | [a] => [a]
  | a :: b :: t => if a = b then collapse (b :: t) else a :: collapse (b :: t)

/-- The change ids in effect at the accepted body lines that name `s`, in
stream order, as the specification describes the revision index: a line
counts when it is read in body mode, is not a marker line, is not a delete
line, names `s`, and `s` is not in the deletion set at that point; the id it
contributes is the current change id at that point. -/
def acceptedIds (idLength : Int) (s : Str) : ParseState → List Str → List Str
  | _, [] => []
  | st, l :: ls =>
    match processLine idLength st l with
    | none => []
    | some st1 =>
      if st.isHead = false ∧ acceptedFor l s = true ∧ mapGet false st.svcDelMap s = false then
        st.currentId :: acceptedIds idLength s st1 ls
      else acceptedIds idLength s st1 ls

/-! ## A log with a second entry that has no change id -/

/-- The lines of a second log entry without a `Change-Id: ` line: marker
line, footer, one body line that names service `b`. -/
def sampleSecondEntry : List Str :=
  [ "@@@1234567 no change id here".toList, "###".toList, "M\tb/src/Y.java".toList ]

/-- The state after `sampleHeader` and `sampleSecondEntry`: the commit id is
the one of the second entry, the change id is still the one of the first. -/
def sampleStateSecond : ParseState :=
  { sampleBodyState with
    svcMap := [("b".toList, [sampleChangeId])]
    currentCommitId := "1234567".toList }

/-! ## `getReplication`: the map of the latest replication status -/

/-- Struct `ReplicationStatus`: a record of the replication feed. -/
structure ReplicationStatus where
  Id : Int
  Status : Str
  Repository : Str
  Policy_id : Int
  Operation : Str
  Tags : List Str
  Creation_time : Str
  Update_time : Str
  deriving DecidableEq

/-- The separator of line 505. -/
def sepSlash : Str := "/".toList

/-- The separator of lines 454, 458 and 506. -/
def sepColon : Str := ":".toList

/-- Go `v, ok := m[k]`: the value stored for `k`, if there is one. -/
def mapLookup {V : Type} : GoMap V → Str → Option V
  | [], _ => none
  | (a, v) :: m, k => if a = k then some v else mapLookup m k

/-- Lines 505-506: the key `svcName` of a record, the text of `Repository`
from index `idx+1` on, `":"` and the last tag; `none` when `Tags` is empty and
the index expression `v.Tags[len(v.Tags)-1]` panics. -/
def replicationKey (v : ReplicationStatus) : Option Str :=
  let idx := strIndex v.Repository sepSlash
  match v.Tags.getLast? with
  | none => none
  | some tag => some (v.Repository.drop (idx + 1).toNat ++ sepColon ++ tag)

/-- Lines 505-513: the body of the loop of `getReplication` for one record. -/
def mergeStatus (repliMap : GoMap ReplicationStatus) (v : ReplicationStatus) :
    Option (GoMap ReplicationStatus) :=
  match replicationKey v with
  | none => none
  | some svcName =>
    match mapLookup repliMap svcName with
    | some rs =>
      if rs.Id ≥ v.Id then some repliMap
      else some (mapSet repliMap svcName v)
    | none => some (mapSet repliMap svcName v)

/-- Function `getReplication`, lines 504-514: the loop over the records
`replicationStatus` decoded from the response of the feed. -/
def getReplication (repliMap : GoMap ReplicationStatus) :
    List ReplicationStatus → Option (GoMap ReplicationStatus)
  | [] => some repliMap
  | v :: rest =>
    match mergeStatus repliMap v with
    | none => none
    | some m => getReplication m rest

/-- The record kept when `v` meets the record `held` for its key: `v` unless
the id held is greater than or equal to the id of `v`. -/
def pick (held : Option ReplicationStatus) (v : ReplicationStatus) :
    Option ReplicationStatus :=
  match held with
  | none => some v
  | some rs => if rs.Id ≥ v.Id then some rs else some v

/-- Whether the key of the record is `k`. -/
def hasKey (k : Str) (v : ReplicationStatus) : Bool := decide (replicationKey v = some k)

/-- The greater of an optional id and an id. -/
def maxStep (acc : Option Int) (x : Int) : Option Int :=
  match acc with
  | none => some x
  | some a => if a ≥ x then some a else some x

/-- The maximum of a list of ids, `none` for the empty list. -/
def maxIdOf (ids : List Int) : Option Int := ids.foldl maxStep none

/-- The id that the map holds for a key. -/
def heldId (m : GoMap ReplicationStatus) (k : Str) : Option Int :=
  (mapLookup m k).map ReplicationStatus.Id

/-- The ids seen for a key: the id held before, then the ids of the records
of the page with that key, in page order. -/
def seenIds (m : GoMap ReplicationStatus) (page : List ReplicationStatus) (k : Str) :
    List Int :=
  (heldId m k).toList ++ (page.filter (hasKey k)).map ReplicationStatus.Id

/-- A record of the feed with the given id, status and repository, whose last
tag is `tag`. -/
def sampleStatus (id : Int) (status repo tag : String) : ReplicationStatus :=
  { Id := id, Status := status.toList, Repository := repo.toList, Policy_id := 1,
    Operation := "transfer".toList, Tags := ["old".toList, tag.toList],
    Creation_time := [], Update_time := [] }

/-- Two maps are the same Go map: they hold the same record, or none, for
every key. -/
def sameMap (m1 m2 : GoMap ReplicationStatus) : Prop :=
  ∀ k, mapLookup m1 k = mapLookup m2 k

/-- Whether `r` has the maximum id among the records of the page with its
key. -/
def isTop (page : List ReplicationStatus) (r : ReplicationStatus) : Bool :=
  page.all fun x => decide (replicationKey x ≠ replicationKey r) || decide (x.Id ≤ r.Id)

/-- The page reduced to the records with the maximum id of their key, in
page order. -/
def reducePage (page : List ReplicationStatus) : List ReplicationStatus :=
  page.filter (isTop page)

/-- No two different records of the page have the same key and the same
id. -/
def TieFree (page : List ReplicationStatus) : Prop :=
  ∀ a ∈ page, ∀ b ∈ page, replicationKey a = replicationKey b → a.Id = b.Id → a = b

/-! ## The `service_tag` table and `getServiceTag` -/

/-- Struct `ServiceTag`: a row of the table of tags. `UpdatedAt` is the time
stamp that the mapping layer writes on every insert and update, counted in
some unit of time; 0 is the zero time. -/
structure ServiceTag where
  Id : Int
  ServiceName : Str
  Tag : Str
  Uat : Int
  ProdBeta : Int
  ProdAlpha : Int
  UpdatedAt : Nat
  deriving DecidableEq

/-- The separator of line 465. -/
def sepComma : Str := ",".toList

/-- The first element of the list of line 434. -/
def labelAll : Str := "All".toList

/-- The status of line 457. -/
def statusFinished : Str := "finished".toList

/-- The environment name of lines 403, 418 and 473. -/
def envAlpha : Str := "alpha".toList

/-- The environment name of lines 405, 425 and 475. -/
def envBeta : Str := "beta".toList

/-- Go `strings.Join(elems, sep)`. -/
def strJoin (sep : Str) : List Str → Str
  | [] => []
  | [a] => a
  | a :: b :: t => a ++ sep ++ strJoin sep (b :: t)

/-- Lines 442-447: the loop over `excludeList`, left at the first element
equal to the service name. -/
def scanExclude (name : Str) : List Str → Bool
  | [] => false
  | ex :: rest => if name = ex then true else scanExclude name rest

/-- Lines 438-462: the body of the loop over `allTags` for one record. -/
def tagEntry (excludeSvc : Str) (repliMap : GoMap ReplicationStatus)
    (allSvcTags : List Str) (val : ServiceTag) : List Str :=
  if excludeSvc.length > 0 ∧ scanExclude val.ServiceName (strSplit '|' excludeSvc) = true then
    allSvcTags
  else
    let svcTag := val.ServiceName ++ sepColon ++ val.Tag
    let svcTag :=
      match mapLookup repliMap svcTag with
      | some v => if v.Status ≠ statusFinished then svcTag ++ sepColon ++ v.Status else svcTag
      | none => svcTag
    allSvcTags ++ [svcTag]

/-- Lines 433-465: the list that starts with `"All"`, one step of `tagEntry`
for every record, joined with commas. -/
def listTags (allTags : List ServiceTag) (excludeSvc : Str)
    (repliMap : GoMap ReplicationStatus) : Str :=
  strJoin sepComma (allTags.foldl (tagEntry excludeSvc repliMap) [labelAll])

/-- Lines 418-431: the rows that the query of the environment returns, in the
order of the table; none for another environment name. -/
def queryTags (env : Str) (store : List ServiceTag) : List ServiceTag :=
  if env = envAlpha then store.filter fun r => decide (r.Uat = 1) && decide (r.ProdAlpha = 0)
  else if env = envBeta then store.filter fun r => decide (r.Uat = 1) && decide (r.ProdBeta = 0)
  else []

/-- Function `getServiceTag`. -/
def getServiceTag (env : Str) (store : List ServiceTag) (excludeSvc : Str)
    (repliMap : GoMap ReplicationStatus) : Str :=
  listTags (queryTags env store) excludeSvc repliMap

/-- The elements of the exclusion string: its pieces between the `"|"`; the
empty exclusion string has none. -/
def exclusionList (excludeSvc : Str) : List Str :=
  if excludeSvc = [] then [] else strSplit '|' excludeSvc

/-- The entry of a record in the output, as the specification words it:
`service:tag`, followed by `:status` when the map holds a record for the key
`service:tag` whose status is not `"finished"`. -/
def entryOf (repliMap : GoMap ReplicationStatus) (r : ServiceTag) : Str :=
  match mapLookup repliMap (r.ServiceName ++ sepColon ++ r.Tag) with
  | some v =>
    if v.Status = statusFinished then r.ServiceName ++ sepColon ++ r.Tag
    else r.ServiceName ++ sepColon ++ r.Tag ++ sepColon ++ v.Status
  | none => r.ServiceName ++ sepColon ++ r.Tag

/-- A row of the table of tags. -/
def sampleTag (id : Int) (name tag : String) (uat beta alpha : Int) : ServiceTag :=
  { Id := id, ServiceName := name.toList, Tag := tag.toList, Uat := uat, ProdBeta := beta,
    ProdAlpha := alpha, UpdatedAt := 5 }

/-- A table of tags with four rows; `svcC` is promoted to alpha already. -/
def sampleTags : List ServiceTag :=
  [ sampleTag 1 "svcA" "v1" 1 0 0, sampleTag 2 "svcB" "v1" 1 0 0,
    sampleTag 3 "svcC" "v2" 1 0 1, sampleTag 4 "svcD" "v3" 1 0 0 ]

/-! ## Reads and writes on the `service_tag` table -/

/-- The condition that `engine.Get(bean)` builds from its bean: every field
of the bean that is not the zero value of its type must be equal in the row;
zero-valued fields add no condition. -/
def tagMatches (bean r : ServiceTag) : Bool :=
  (decide (bean.Id = 0) || decide (r.Id = bean.Id)) &&
  (decide (bean.ServiceName = []) || decide (r.ServiceName = bean.ServiceName)) &&
  (decide (bean.Tag = []) || decide (r.Tag = bean.Tag)) &&
  (decide (bean.Uat = 0) || decide (r.Uat = bean.Uat)) &&
  (decide (bean.ProdBeta = 0) || decide (r.ProdBeta = bean.ProdBeta)) &&
  (decide (bean.ProdAlpha = 0) || decide (r.ProdAlpha = bean.ProdAlpha)) &&
  (decide (bean.UpdatedAt = 0) || decide (r.UpdatedAt = bean.UpdatedAt))

/-- Call `engine.Get(bean)` on the table of tags: the first row that meets
the condition of the bean, if any (`has`), read into the bean. -/
def tagGet (store : List ServiceTag) (bean : ServiceTag) : Option ServiceTag :=
  store.find? (tagMatches bean)

/-- Call `engine.ID(id).Update(bean)` on the table of tags, writes succeeding:
in the rows with that id, the columns whose field in the bean is not the zero
value are overwritten (the key apart), and the time stamp is set. -/
def tagUpdate (now : Nat) (store : List ServiceTag) (id : Int) (bean : ServiceTag) :
    List ServiceTag :=
  store.map fun r =>
    if r.Id = id then
      { Id := r.Id
        ServiceName := if bean.ServiceName = [] then r.ServiceName else bean.ServiceName
        Tag := if bean.Tag = [] then r.Tag else bean.Tag
        Uat := if bean.Uat = 0 then r.Uat else bean.Uat
        ProdBeta := if bean.ProdBeta = 0 then r.ProdBeta else bean.ProdBeta
        ProdAlpha := if bean.ProdAlpha = 0 then r.ProdAlpha else bean.ProdAlpha
        UpdatedAt := now }
    else r

/-- Call `engine.ID(id).Cols("tag", "uat", "prod_beta", "prod_alpha").Update(bean)`,
writes succeeding: the four listed columns are overwritten, zero values
included, and the time stamp is set. -/
def tagUpdateCols (now : Nat) (store : List ServiceTag) (id : Int) (bean : ServiceTag) :
    List ServiceTag :=
  store.map fun r =>
    if r.Id = id then
      { r with Tag := bean.Tag, Uat := bean.Uat, ProdBeta := bean.ProdBeta,
               ProdAlpha := bean.ProdAlpha, UpdatedAt := now }
    else r

/-- The next value of the auto-increment key of the table of tags. -/
def tagNextId (store : List ServiceTag) : Int :=
  (store.map ServiceTag.Id).foldr max 0 + 1

/-- Call `engine.Insert(bean)` on the table of tags, for a bean without key:
a row with all the fields of the bean, a new key and the time stamp. -/
def tagInsert (now : Nat) (store : List ServiceTag) (bean : ServiceTag) : List ServiceTag :=
  store ++ [{ bean with Id := tagNextId store, UpdatedAt := now }]

/-- Function `writeServiceTag` (lines 390-410) at time `now`; `none` when the
input has fewer than three pieces between `":"` and an index expression
panics. -/
def writeServiceTag (now : Nat) (store : List ServiceTag) (svcTag : Str) :
    Option (List ServiceTag) :=
  let svcTagToken := strSplit ':' svcTag
  match svcTagToken with
  | env :: svc :: tag :: _ =>
    match tagGet store
        { Id := 0, ServiceName := svc, Tag := tag, Uat := 0, ProdBeta := 0, ProdAlpha := 0,
          UpdatedAt := 0 } with
    | some serviceTag =>
      let serviceTag : ServiceTag :=
        if env = envAlpha then { serviceTag with ProdAlpha := 1 }
        else if env = envBeta then { serviceTag with ProdBeta := 1 }
        else serviceTag
      some (tagUpdate now store serviceTag.Id serviceTag)
    | none => some store
  | _ => none

/-- The first row with the given service name and tag. -/
def tagRecordOf (store : List ServiceTag) (svc tag : Str) : Option ServiceTag :=
  store.find? fun r => decide (r.ServiceName = svc) && decide (r.Tag = tag)

/-- The row after its promotion to an environment at time `now`. -/
def promote (now : Nat) (env : Str) (r : ServiceTag) : ServiceTag :=
  if env = envAlpha then { r with ProdAlpha := 1, UpdatedAt := now }
  else { r with ProdBeta := 1, UpdatedAt := now }

/-! ## Proof vocabulary: rows of a table by name -/

/-- The first row of a table with the given name. -/
def firstOf {α : Type} (nameOf : α → Str) (st : List α) (n : Str) : Option α :=
  st.find? fun r => decide (nameOf r = n)

/-! ## `writeServiceTagUat` -/

/-- Lines 374-385: the body of the loop of `writeServiceTagUat` for one
element of `svcList`, at time `now`. -/
def uatStep (now : Nat) (imageTag : Str) (store : List ServiceTag) (svc : Str) :
    List ServiceTag :=
  match tagGet store
      { Id := 0, ServiceName := svc, Tag := [], Uat := 0, ProdBeta := 0, ProdAlpha := 0,
        UpdatedAt := 0 } with
  | some serviceTag =>
    let serviceTag : ServiceTag :=
      { serviceTag with Tag := imageTag, Uat := 1, ProdBeta := 0, ProdAlpha := 0 }
    tagUpdateCols now store serviceTag.Id serviceTag
  | none =>
    tagInsert now store
      { Id := 0, ServiceName := svc, Tag := imageTag, Uat := 1, ProdBeta := 0, ProdAlpha := 0,
        UpdatedAt := 0 }

/-- Function `writeServiceTagUat` (lines 366-388) at time `now`, writes
succeeding. -/
def writeServiceTagUat (now : Nat) (store : List ServiceTag) (harborSvcList imageTag : Str) :
    List ServiceTag :=
  (strSplit ' ' harborSvcList).foldl (uatStep now imageTag) store

/-! ## Reads and updates by bean on the `service_revision` table -/

/-- The condition that `engine.Get(bean)` builds from its bean: every field
of the bean that is not the zero value of its type must be equal in the row;
zero-valued fields add no condition. -/
def revMatches (bean r : ServiceRevision) : Bool :=
  (decide (bean.Id = 0) || decide (r.Id = bean.Id)) &&
  (decide (bean.ServiceName = []) || decide (r.ServiceName = bean.ServiceName)) &&
  (decide (bean.RevId = []) || decide (r.RevId = bean.RevId)) &&
  (decide (bean.CommitId = []) || decide (r.CommitId = bean.CommitId)) &&
  (decide (bean.Deployed = 0) || decide (r.Deployed = bean.Deployed))

/-- Call `engine.Get(bean)` on the table of revisions: the first row that
meets the condition of the bean, if any (`has`), read into the bean. -/
def engineGet (store : List ServiceRevision) (bean : ServiceRevision) :
    Option ServiceRevision :=
  store.find? (revMatches bean)

/-- Call `engine.ID(id).Update(bean)` on the table of revisions, writes
succeeding: in the rows with that id, the columns whose field in the bean is
not the zero value are overwritten (the key apart). -/
def engineUpdate (store : List ServiceRevision) (id : Int) (bean : ServiceRevision) :
    List ServiceRevision :=
  store.map fun r =>
    if r.Id = id then
      { Id := r.Id
        ServiceName := if bean.ServiceName = [] then r.ServiceName else bean.ServiceName
        RevId := if bean.RevId = [] then r.RevId else bean.RevId
        CommitId := if bean.CommitId = [] then r.CommitId else bean.CommitId
        Deployed := if bean.Deployed = 0 then r.Deployed else bean.Deployed }
    else r

/-! ## `writeDeployStatus` -/

/-- The separator of line 362. -/
def sepPipe : Str := "|".toList

/-- Lines 347-359: the body of the loop of `writeDeployStatus` for one element
of `svcList`; the state is the table and the list `revList`. -/
def deployStep (acc : List ServiceRevision × List Str) (svc : Str) :
    List ServiceRevision × List Str :=
  let idx := strIndex svc markPom
  if idx ≠ -1 then
    let svcName := svc.take idx.toNat
    match engineGet acc.1
        { Id := 0, ServiceName := svcName, RevId := [], CommitId := [], Deployed := 0 } with
    | some serviceRevision =>
      let serviceRevision : ServiceRevision := { serviceRevision with Deployed := 1 }
      (engineUpdate acc.1 serviceRevision.Id serviceRevision,
        acc.2 ++ [serviceRevision.CommitId])
    | none => acc
  else acc

/-- Function `writeDeployStatus` (lines 338-363), writes succeeding: the
table afterwards and the returned string. -/
def writeDeployStatus (store : List ServiceRevision) (deployList : Str) :
    List ServiceRevision × Str :=
  let r := (strSplit ',' deployList).foldl deployStep (store, [])
  (r.1, strJoin sepPipe r.2)

/-- The service name of an entry of the deploy list: the text before its
first `"/pom.xml"`, if it holds one. -/
def deployName (entry : Str) : Option Str :=
  if strIndex entry markPom ≠ -1 then some (entry.take (strIndex entry markPom).toNat)
  else none

/-- The commit id that an entry of the deploy list contributes on a table:
the one of the record of its service name, if both exist. -/
def deployCommit (store : List ServiceRevision) (entry : Str) : Option Str :=
  match deployName entry with
  | some n => (recordOf store n).map ServiceRevision.CommitId
  | none => none

/-- A table with one row, not deployed. -/
def sampleStoreB : List ServiceRevision :=
  [ { Id := 2, ServiceName := "b".toList, RevId := "r2".toList, CommitId := "c2".toList,
      Deployed := 0 } ]

/-! ## `initSvcEntry` -/

/-- Lines 318-333: the body of the loop of `initSvcEntry` for one entry of
`svcMap`. -/
def initStep (store : List ServiceRevision) (entry : Str × List Str) :
    List ServiceRevision :=
  let svc := entry.1
  let svcRevList := entry.2
  if svcRevList.length > 0 then
    let latestRevId := svcRevList.head?.getD []
    match engineGet store
        { Id := 0, ServiceName := svc, RevId := [], CommitId := [], Deployed := 0 } with
    | some serviceRevision =>
      let serviceRevision : ServiceRevision :=
        { serviceRevision with RevId := latestRevId, Deployed := 1 }
      engineUpdate store serviceRevision.Id serviceRevision
    | none =>
      applyWrite store
        (StoreOp.insert
          { Id := 0, ServiceName := svc, RevId := latestRevId, CommitId := [], Deployed := 1 })
  else store

/-- Function `initSvcEntry` (lines 313-335), writes succeeding; the entries
of `svcMap` are visited in the order of the list. -/
def initSvcEntry (store : List ServiceRevision) (svcMap : GoMap (List Str)) :
    List ServiceRevision :=
  svcMap.foldl initStep store

/-- A table with one row for service `a`, at revision `r1`. -/
def sampleStoreA : List ServiceRevision :=
  [ { Id := 1, ServiceName := "a".toList, RevId := "r1".toList, CommitId := "c1".toList,
      Deployed := 0 } ]

/-! ## Reconciliation, deployment, reconciliation -/

/-- The table after a run of `resolveSvc` and a run of `writeDeployStatus`
on the comma-joined rebuild list of that run, as `main` prints it. -/
def storeAfterDeploy (store : List ServiceRevision) (svcMap : GoMap (List Str))
    (changIdCommitIdMap : GoMap Str) : List ServiceRevision :=
  (writeDeployStatus (storeAfterResolve store svcMap changIdCommitIdMap)
    (strJoin sepComma (resolveSvc store svcMap changIdCommitIdMap []).updateList)).1

/-- A table with one deployed row for service `b`. -/
def sampleStoreDeployed : List ServiceRevision :=
  [ { Id := 1, ServiceName := "b".toList, RevId := "r0".toList, CommitId := [],
      Deployed := 1 } ]

/-! ## Lemmas on `resolveSvc` and on the table after the writes -/

theorem scanOld_eq (cmap : GoMap Str) (svc latest : Str) (rs : RunState)
    (old : List ServiceRevision) :
    scanOld cmap svc latest rs old =
      match recordOf old svc with
      | none => (false, rs)
      | some r =>
        if latest ≠ r.RevId then
          (true,
            { updateList := rs.updateList ++ [svc ++ "/pom.xml".toList]
              writes := rs.writes ++
                [StoreOp.update r.Id
                  { r with RevId := latest, CommitId := mapGet [] cmap latest,
                           Deployed := 0 }] })
        else if r.Deployed = 0 then
          (true, { rs with updateList := rs.updateList ++ [svc ++ "/pom.xml".toList] })
        else (true, rs) := by
  induction old with
  | nil => simp [scanOld, recordOf]
  | cons r rest ih =>
    unfold scanOld
    by_cases h : svc = r.ServiceName
    · subst h
      simp [recordOf]
    · have h2 : ¬ r.ServiceName = svc := fun e => h e.symm
      simp only [h, if_false, recordOf, List.find?, h2, decide_False]
      simpa [recordOf] using ih

theorem resolveEntry_eq (old : List ServiceRevision) (cmap : GoMap Str) (rs : RunState)
    (e : Str × List Str) :
    resolveEntry old cmap rs e =
      { updateList := rs.updateList ++ entryEmit old e
        writes := rs.writes ++ entryWrite old cmap e } := by
  obtain ⟨svc, revs⟩ := e
  cases revs with
  | nil => simp [resolveEntry, entryEmit, entryWrite]
  | cons latest t =>
    simp only [resolveEntry, entryEmit, entryWrite, scanOld_eq, List.length_cons,
      List.head?_cons, Option.getD_some]
    cases hrec : recordOf old svc with
    | none => simp
    | some r =>
      by_cases h1 : latest = r.RevId
      · by_cases h2 : r.Deployed = 0 <;> simp [h1, h2]
      · simp [h1]

theorem resolveSvc_fold (old : List ServiceRevision) (cmap : GoMap Str)
    (m : GoMap (List Str)) (rs : RunState) :
    m.foldl (resolveEntry old cmap) rs =
      { updateList := rs.updateList ++ (m.map (entryEmit old)).flatten
        writes := rs.writes ++ (m.map (entryWrite old cmap)).flatten } := by
  induction m generalizing rs with
  | nil => simp
  | cons e m ih => simp [List.foldl_cons, ih, resolveEntry_eq, List.append_assoc]

theorem resolveSvc_updateList (old : List ServiceRevision) (cmap : GoMap Str)
    (m : GoMap (List Str)) (ul : List Str) :
    (resolveSvc old m cmap ul).updateList = ul ++ (m.map (entryEmit old)).flatten := by
  simp [resolveSvc, resolveSvc_fold]

theorem resolveSvc_writes (old : List ServiceRevision) (cmap : GoMap Str)
    (m : GoMap (List Str)) (ul : List Str) :
    (resolveSvc old m cmap ul).writes = (m.map (entryWrite old cmap)).flatten := by
  simp [resolveSvc, resolveSvc_fold]

theorem mapGet_of_not_mem {V : Type} (zero : V) (m : GoMap V) (k : Str)
    (h : k ∉ m.map Prod.fst) : mapGet zero m k = zero := by
  induction m with
  | nil => rfl
  | cons e m ih =>
    obtain ⟨a, v⟩ := e
    simp only [List.map_cons, List.mem_cons, not_or] at h
    have ha : ¬ a = k := fun e => h.1 e.symm
    simp [mapGet, ha, ih h.2]

theorem entryEmit_count_ne (old : List ServiceRevision) (e : Str × List Str) (svc : Str)
    (h : e.1 ≠ svc) : (entryEmit old e).count (svc ++ "/pom.xml".toList) = 0 := by
  have hne : ¬ (e.1 ++ "/pom.xml".toList = svc ++ "/pom.xml".toList) := by
    intro h2
    exact h (List.append_cancel_right h2)
  unfold entryEmit
  split
  · simp
  · split
    · simp [List.count_cons, hne, h]
    · split <;> simp [List.count_cons, hne, h]

theorem emit_count (old : List ServiceRevision) (m : GoMap (List Str)) (svc : Str)
    (hk : (m.map Prod.fst).Nodup) :
    ((m.map (entryEmit old)).flatten).count (svc ++ "/pom.xml".toList) =
      if needsRebuild old m svc then 1 else 0 := by
  induction m with
  | nil => simp [needsRebuild, mapGet]
  | cons e m ih =>
    obtain ⟨a, revs⟩ := e
    simp only [List.map_cons, List.nodup_cons] at hk
    simp only [List.map_cons, List.flatten_cons, List.count_append]
    by_cases ha : a = svc
    · subst ha
      have hrest : ((m.map (entryEmit old)).flatten).count (a ++ "/pom.xml".toList) = 0 := by
        rw [ih hk.2]
        simp [needsRebuild, mapGet_of_not_mem [] m a hk.1]
      rw [hrest]
      simp only [needsRebuild, mapGet, if_true, entryEmit]
      cases revs with
      | nil => simp
      | cons latest t =>
        cases hrec : recordOf old a with
        | none => simp
        | some r =>
          by_cases h1 : latest = r.RevId
          · by_cases h2 : r.Deployed = 0 <;> simp [h1, h2]
          · have h1b : ¬ r.RevId = latest := fun e => h1 e.symm
            simp [h1, h1b]
    · rw [entryEmit_count_ne old (a, revs) svc ha, ih hk.2]
      simp [needsRebuild, mapGet, ha]

theorem emit_mem (old : List ServiceRevision) (m : GoMap (List Str)) (x : Str)
    (hx : x ∈ (m.map (entryEmit old)).flatten) :
    ∃ svc, x = svc ++ "/pom.xml".toList ∧ svc ∈ m.map Prod.fst := by
  simp only [List.mem_flatten, List.mem_map] at hx
  obtain ⟨l, ⟨e, he, rfl⟩, hxl⟩ := hx
  refine ⟨e.1, ?_, List.mem_map.2 ⟨e, he, rfl⟩⟩
  unfold entryEmit at hxl
  split at hxl
  · simp at hxl
  · split at hxl
    · simpa using hxl
    · split at hxl
      · simpa using hxl
      · simp at hxl

theorem recordOf_some {st : List ServiceRevision} {svc : Str} {r : ServiceRevision}
    (h : recordOf st svc = some r) : r ∈ st ∧ r.ServiceName = svc := by
  unfold recordOf at h
  refine ⟨List.mem_of_find?_eq_some h, ?_⟩
  have := List.find?_some h
  simpa using this

theorem recordOf_none {st : List ServiceRevision} {svc : Str} :
    recordOf st svc = none ↔ ∀ r ∈ st, r.ServiceName ≠ svc := by
  unfold recordOf
  simp [List.find?_eq_none]

theorem lt_nextId (st : List ServiceRevision) (r : ServiceRevision) (h : r ∈ st) :
    r.Id < nextId st := by
  unfold nextId
  induction st with
  | nil => simp at h
  | cons a st ih =>
    simp only [List.map_cons, List.foldr_cons]
    rcases List.mem_cons.1 h with rfl | h
    · have := le_max_left r.Id ((st.map ServiceRevision.Id).foldr max 0)
      omega
    · have h1 := ih h
      have := le_max_right a.Id ((st.map ServiceRevision.Id).foldr max 0)
      omega

theorem eq_of_id_eq {st : List ServiceRevision} (hid : (st.map ServiceRevision.Id).Nodup)
    {r r' : ServiceRevision} (hr : r ∈ st) (hr' : r' ∈ st) (h : r.Id = r'.Id) : r = r' :=
  List.inj_on_of_nodup_map hid hr hr' h

theorem applyWrite_update_ids (st : List ServiceRevision) (id : Int) (b : ServiceRevision) :
    (applyWrite st (StoreOp.update id b)).map ServiceRevision.Id =
      st.map ServiceRevision.Id := by
  simp only [applyWrite, List.map_map]
  apply List.map_congr_left
  intro r _
  simp only [Function.comp]
  split <;> rfl

theorem recordOf_update (st : List ServiceRevision) (id : Int) (b : ServiceRevision)
    (svc : Str) :
    recordOf (applyWrite st (StoreOp.update id b)) svc =
      (recordOf st svc).map fun r => if r.Id = id then setCols b r else r := by
  induction st with
  | nil => simp [applyWrite, recordOf]
  | cons a st ih =>
    simp only [applyWrite, recordOf, List.map_cons] at ih ⊢
    by_cases hn : a.ServiceName = svc
    · by_cases hi : a.Id = id <;> simp [List.find?, hn, hi, setCols]
    · by_cases hi : a.Id = id
      · simp only [List.find?, hi, if_true, hn, decide_False]
        exact ih
      · simp only [List.find?, hi, if_false, hn, decide_False]
        exact ih

theorem recordOf_insert (st : List ServiceRevision) (b : ServiceRevision) (svc : Str) :
    recordOf (applyWrite st (StoreOp.insert b)) svc =
      match recordOf st svc with
      | some r => some r
      | none => if b.ServiceName = svc then some { b with Id := nextId st } else none := by
  simp only [applyWrite, recordOf, List.find?_append]
  cases h : List.find? (fun r => decide (r.ServiceName = svc)) st with
  | some r => simp
  | none =>
    by_cases hb : b.ServiceName = svc <;> simp [List.find?, hb]

theorem writesFit_step (st : List ServiceRevision) (op : StoreOp) (ops : List StoreOp)
    (h : WritesFit st (op :: ops)) : WritesFit (applyWrite st op) ops := by
  obtain ⟨hid, hu, hi, hn⟩ := h
  simp only [List.map_cons, List.nodup_cons] at hn
  cases op with
  | update id b =>
    refine ⟨by rw [applyWrite_update_ids]; exact hid, ?_, ?_, hn.2⟩
    · intro id2 b2 hmem
      have := hu id2 b2 (List.mem_cons_of_mem _ hmem)
      rw [recordOf_update]
      cases hrec : recordOf st b2.ServiceName with
      | none => simp [hrec] at this
      | some r =>
        simp only [hrec, Option.map_some'] at this ⊢
        split <;> simpa [setCols] using this
    · intro b2 hmem
      have := hi b2 (List.mem_cons_of_mem _ hmem)
      rw [recordOf_update, this]
      rfl
  | insert b =>
    refine ⟨?_, ?_, ?_, hn.2⟩
    · simp only [applyWrite, List.map_append, List.map_cons, List.map_nil]
      rw [List.nodup_append]
      refine ⟨hid, by simp, ?_⟩
      rw [List.disjoint_singleton]
      intro hmem
      obtain ⟨r, hr, hre⟩ := List.mem_map.1 hmem
      have := lt_nextId st r hr
      omega
    · intro id2 b2 hmem
      have := hu id2 b2 (List.mem_cons_of_mem _ hmem)
      rw [recordOf_insert]
      cases hrec : recordOf st b2.ServiceName with
      | none => simp [hrec] at this
      | some r => simpa [hrec] using this
    · intro b2 hmem
      have h2 := hi b2 (List.mem_cons_of_mem _ hmem)
      rw [recordOf_insert, h2]
      have hne : b.ServiceName ≠ b2.ServiceName := by
        intro e
        apply hn.1
        exact List.mem_map.2 ⟨StoreOp.insert b2, hmem, by simp [opName, e]⟩
      simp [hne]

theorem recordOf_skip (st : List ServiceRevision) (op : StoreOp) (ops : List StoreOp)
    (h : WritesFit st (op :: ops)) (svc : Str) (hne : opName op ≠ svc) :
    recordOf (applyWrite st op) svc = recordOf st svc := by
  obtain ⟨hid, hu, hi, _⟩ := h
  cases op with
  | update id b =>
    rw [recordOf_update]
    cases hrec : recordOf st svc with
    | none => rfl
    | some r =>
      have hb := hu id b (List.mem_cons_self _ _)
      cases hrec2 : recordOf st b.ServiceName with
      | none => simp [hrec2] at hb
      | some r2 =>
        simp only [hrec2, Option.map_some', Option.some.injEq] at hb
        have hne2 : r.Id ≠ id := by
          intro e
          have := eq_of_id_eq hid (recordOf_some hrec).1 (recordOf_some hrec2).1 (e.trans hb.symm)
          apply hne
          rw [← (recordOf_some hrec).2, this]
          simp only [opName]
          exact ((recordOf_some hrec2).2).symm
        simp [hne2]
  | insert b =>
    rw [recordOf_insert]
    cases hrec : recordOf st svc with
    | some r => rfl
    | none =>
      have : ¬ b.ServiceName = svc := hne
      simp [this]

theorem recordOf_applyWrites_other (ops : List StoreOp) :
    ∀ st : List ServiceRevision, WritesFit st ops → ∀ svc : Str, svc ∉ ops.map opName →
      recordOf (applyWrites st ops) svc = recordOf st svc := by
  induction ops with
  | nil => intro st _ svc _; rfl
  | cons op ops ih =>
    intro st hfit svc hnot
    simp only [List.map_cons, List.mem_cons, not_or] at hnot
    simp only [applyWrites, List.foldl_cons]
    have := ih (applyWrite st op) (writesFit_step st op ops hfit) svc hnot.2
    simp only [applyWrites] at this
    rw [this]
    exact recordOf_skip st op ops hfit svc (fun e => hnot.1 e.symm)

theorem recordOf_applyWrites_update (ops : List StoreOp) :
    ∀ st : List ServiceRevision, WritesFit st ops → ∀ (id : Int) (b : ServiceRevision),
      StoreOp.update id b ∈ ops →
      recordOf (applyWrites st ops) b.ServiceName =
        (recordOf st b.ServiceName).map (setCols b) := by
  induction ops with
  | nil => intro st _ id b hmem; simp at hmem
  | cons op ops ih =>
    intro st hfit id b hmem
    have hstep := writesFit_step st op ops hfit
    have hn := hfit.2.2.2
    simp only [List.map_cons, List.nodup_cons] at hn
    simp only [applyWrites, List.foldl_cons]
    rcases List.mem_cons.1 hmem with rfl | hmem
    · have h1 := recordOf_applyWrites_other ops _ hstep b.ServiceName hn.1
      simp only [applyWrites] at h1
      rw [h1, recordOf_update]
      have hb := hfit.2.1 id b (List.mem_cons_self _ _)
      cases hrec : recordOf st b.ServiceName with
      | none => rfl
      | some r =>
        simp only [hrec, Option.map_some', Option.some.injEq] at hb
        simp [hb]
    · have h1 := ih (applyWrite st op) hstep id b hmem
      simp only [applyWrites] at h1
      rw [h1]
      have hne : opName op ≠ b.ServiceName := by
        intro e
        apply hn.1
        exact List.mem_map.2 ⟨StoreOp.update id b, hmem, by rw [e]; rfl⟩
      rw [recordOf_skip st op ops hfit b.ServiceName hne]

theorem recordOf_applyWrites_insert (ops : List StoreOp) :
    ∀ st : List ServiceRevision, WritesFit st ops → ∀ b : ServiceRevision,
      StoreOp.insert b ∈ ops →
      ∃ id : Int, (∀ r ∈ st, r.Id < id) ∧
        recordOf (applyWrites st ops) b.ServiceName = some { b with Id := id } := by
  induction ops with
  | nil => intro st _ b hmem; simp at hmem
  | cons op ops ih =>
    intro st hfit b hmem
    have hstep := writesFit_step st op ops hfit
    have hn := hfit.2.2.2
    simp only [List.map_cons, List.nodup_cons] at hn
    simp only [applyWrites, List.foldl_cons]
    rcases List.mem_cons.1 hmem with rfl | hmem
    · have h1 := recordOf_applyWrites_other ops _ hstep b.ServiceName hn.1
      simp only [applyWrites] at h1
      refine ⟨nextId st, fun r hr => lt_nextId st r hr, ?_⟩
      rw [h1, recordOf_insert, hfit.2.2.1 b (List.mem_cons_self _ _)]
      simp
    · obtain ⟨id, hlt, h1⟩ := ih (applyWrite st op) hstep b hmem
      simp only [applyWrites] at h1
      refine ⟨id, ?_, h1⟩
      intro r hr
      cases op with
      | update id2 b2 =>
        have hmem2 : r.Id ∈ (applyWrite st (StoreOp.update id2 b2)).map ServiceRevision.Id := by
          rw [applyWrite_update_ids]
          exact List.mem_map.2 ⟨r, hr, rfl⟩
        obtain ⟨r2, hr2, he⟩ := List.mem_map.1 hmem2
        rw [← he]
        exact hlt r2 hr2
      | insert b2 =>
        apply hlt r
        simp [applyWrite, hr]

theorem mapGet_mem (m : GoMap (List Str)) (k : Str) (h : Str) (t : List Str)
    (hg : mapGet [] m k = h :: t) : (k, h :: t) ∈ m := by
  induction m with
  | nil => simp [mapGet] at hg
  | cons e m ih =>
    obtain ⟨a, v⟩ := e
    by_cases ha : a = k
    · simp only [mapGet, ha, if_true] at hg
      simp [ha, hg]
    · simp only [mapGet, ha, if_false] at hg
      exact List.mem_cons_of_mem _ (ih hg)

theorem mapGet_of_mem {V : Type} (zero : V) (m : GoMap V) (k : Str) (v : V)
    (hk : (m.map Prod.fst).Nodup) (hmem : (k, v) ∈ m) : mapGet zero m k = v := by
  induction m with
  | nil => simp at hmem
  | cons e m ih =>
    obtain ⟨a, w⟩ := e
    simp only [List.map_cons, List.nodup_cons] at hk
    rcases List.mem_cons.1 hmem with he | hmem
    · simp only [Prod.mk.injEq] at he
      simp [mapGet, he.1, he.2]
    · have ha : ¬ a = k := by
        intro e
        apply hk.1
        rw [e]
        exact List.mem_map.2 ⟨(k, v), hmem, rfl⟩
      simp only [mapGet, ha, if_false]
      exact ih hk.2 hmem

theorem entryWrite_name (old : List ServiceRevision) (cmap : GoMap Str) (e : Str × List Str)
    (op : StoreOp) (h : op ∈ entryWrite old cmap e) : opName op = e.1 := by
  unfold entryWrite at h
  split at h
  · simp at h
  · split at h
    · simp only [List.mem_singleton] at h
      rw [h]
      rfl
    · rename_i r hrec
      split at h
      · simp only [List.mem_singleton] at h
        rw [h]
        exact (recordOf_some hrec).2
      · simp at h

theorem entryWrite_names_sublist (old : List ServiceRevision) (cmap : GoMap Str)
    (m : GoMap (List Str)) :
    List.Sublist (((m.map (entryWrite old cmap)).flatten).map opName) (m.map Prod.fst) := by
  induction m with
  | nil => simp
  | cons e m ih =>
    simp only [List.map_cons, List.flatten_cons, List.map_append]
    have hlen : (entryWrite old cmap e).map opName = [] ∨
        (entryWrite old cmap e).map opName = [e.1] := by
      unfold entryWrite
      split
      · simp
      · split
        · right; rfl
        · rename_i r hrec
          split
          · right
            simp [opName, (recordOf_some hrec).2]
          · left; rfl
    rcases hlen with h | h
    · rw [h]
      exact List.Sublist.cons _ ih
    · rw [h]
      exact List.Sublist.cons₂ _ ih

theorem resolve_writesFit (store : List ServiceRevision) (cmap : GoMap Str)
    (m : GoMap (List Str)) (hk : (m.map Prod.fst).Nodup)
    (hid : (store.map ServiceRevision.Id).Nodup) :
    WritesFit store ((m.map (entryWrite store cmap)).flatten) := by
  refine ⟨hid, ?_, ?_, (entryWrite_names_sublist store cmap m).nodup hk⟩
  · intro id b hmem
    simp only [List.mem_flatten, List.mem_map] at hmem
    obtain ⟨l, ⟨e, _, rfl⟩, hop⟩ := hmem
    unfold entryWrite at hop
    split at hop
    · simp at hop
    · split at hop
      · simp at hop
      · rename_i r hrec
        split at hop
        · simp only [List.mem_singleton, StoreOp.update.injEq] at hop
          obtain ⟨rfl, rfl⟩ := hop
          simp only [(recordOf_some hrec).2, hrec, Option.map_some']
        · simp at hop
  · intro b hmem
    simp only [List.mem_flatten, List.mem_map] at hmem
    obtain ⟨l, ⟨e, _, rfl⟩, hop⟩ := hmem
    unfold entryWrite at hop
    split at hop
    · simp at hop
    · split at hop
      · rename_i hrec
        simp only [List.mem_singleton, StoreOp.insert.injEq] at hop
        rw [hop]
        exact hrec
      · split at hop <;> simp at hop

theorem after_update (store : List ServiceRevision) (cmap : GoMap Str)
    (m : GoMap (List Str)) (hk : (m.map Prod.fst).Nodup)
    (hid : (store.map ServiceRevision.Id).Nodup) (svc h : Str) (t : List Str)
    (hm : mapGet [] m svc = h :: t) (r : ServiceRevision) (hrec : recordOf store svc = some r)
    (hne : r.RevId ≠ h) :
    recordOf (storeAfterResolve store m cmap) svc =
      some { r with RevId := h, CommitId := mapGet [] cmap h, Deployed := 0 } := by
  have hfit := resolve_writesFit store cmap m hk hid
  have hmem : StoreOp.update r.Id
      { r with RevId := h, CommitId := mapGet [] cmap h, Deployed := 0 } ∈
      (m.map (entryWrite store cmap)).flatten := by
    simp only [List.mem_flatten, List.mem_map]
    refine ⟨_, ⟨(svc, h :: t), mapGet_mem m svc h t hm, rfl⟩, ?_⟩
    have hne2 : ¬ h = r.RevId := fun e => hne e.symm
    simp [entryWrite, hrec, hne2]
  have := recordOf_applyWrites_update _ store hfit _ _ hmem
  simp only [(recordOf_some hrec).2, hrec, Option.map_some', setCols] at this
  simpa [storeAfterResolve, resolveSvc_writes, (recordOf_some hrec).2] using this

theorem after_insert (store : List ServiceRevision) (cmap : GoMap Str)
    (m : GoMap (List Str)) (hk : (m.map Prod.fst).Nodup)
    (hid : (store.map ServiceRevision.Id).Nodup) (svc h : Str) (t : List Str)
    (hm : mapGet [] m svc = h :: t) (hrec : recordOf store svc = none) :
    ∃ id : Int, (∀ r ∈ store, r.Id < id) ∧
      recordOf (storeAfterResolve store m cmap) svc =
        some { Id := id, ServiceName := svc, RevId := h,
               CommitId := mapGet [] cmap h, Deployed := 0 } := by
  have hfit := resolve_writesFit store cmap m hk hid
  have hmem : StoreOp.insert
      { Id := 0, ServiceName := svc, RevId := h, CommitId := mapGet [] cmap h,
        Deployed := 0 } ∈ (m.map (entryWrite store cmap)).flatten := by
    simp only [List.mem_flatten, List.mem_map]
    refine ⟨_, ⟨(svc, h :: t), mapGet_mem m svc h t hm, rfl⟩, ?_⟩
    simp [entryWrite, hrec]
  obtain ⟨id, hlt, hres⟩ := recordOf_applyWrites_insert _ store hfit _ hmem
  refine ⟨id, hlt, ?_⟩
  simpa [storeAfterResolve, resolveSvc_writes] using hres

theorem after_same (store : List ServiceRevision) (cmap : GoMap Str)
    (m : GoMap (List Str)) (hk : (m.map Prod.fst).Nodup)
    (hid : (store.map ServiceRevision.Id).Nodup) (svc : Str)
    (hm : ∀ h t, mapGet [] m svc = h :: t → ∃ r, recordOf store svc = some r ∧ r.RevId = h) :
    recordOf (storeAfterResolve store m cmap) svc = recordOf store svc := by
  have hfit := resolve_writesFit store cmap m hk hid
  have hnot : svc ∉ ((m.map (entryWrite store cmap)).flatten).map opName := by
    intro hmem
    simp only [List.mem_map, List.mem_flatten] at hmem
    obtain ⟨op, ⟨l, ⟨e, he, rfl⟩, hop⟩, hname⟩ := hmem
    have he1 : e.1 = svc := by rw [← entryWrite_name store cmap e op hop, hname]
    obtain ⟨a, v⟩ := e
    simp only at he1
    subst he1
    have hv := mapGet_of_mem [] m a v hk he
    unfold entryWrite at hop
    split at hop
    · simp at hop
    · rename_i latest t hv2
      simp only at hv2
      obtain ⟨r, hr, hrev⟩ := hm latest t (by rw [hv, hv2])
      simp [hr, hrev] at hop
  have := recordOf_applyWrites_other _ store hfit svc hnot
  simpa [storeAfterResolve, resolveSvc_writes] using this

theorem after_head (store : List ServiceRevision) (cmap : GoMap Str)
    (m : GoMap (List Str)) (hk : (m.map Prod.fst).Nodup)
    (hid : (store.map ServiceRevision.Id).Nodup) (svc h : Str) (t : List Str)
    (hmem : (svc, h :: t) ∈ m) :
    ∃ r, recordOf (storeAfterResolve store m cmap) svc = some r ∧ r.RevId = h := by
  have hm := mapGet_of_mem [] m svc (h :: t) hk hmem
  cases hrec : recordOf store svc with
  | none =>
    obtain ⟨id, _, hres⟩ := after_insert store cmap m hk hid svc h t hm hrec
    exact ⟨_, hres, rfl⟩
  | some r =>
    by_cases hr : r.RevId = h
    · refine ⟨r, ?_, hr⟩
      rw [after_same store cmap m hk hid svc, hrec]
      intro h2 t2 hm2
      rw [hm] at hm2
      simp only [List.cons.injEq] at hm2
      exact ⟨r, hrec, hm2.1 ▸ hr⟩
    · exact ⟨_, after_update store cmap m hk hid svc h t hm r hrec hr, rfl⟩

theorem second_run_entry (store : List ServiceRevision) (cmap : GoMap Str)
    (m : GoMap (List Str)) (hk : (m.map Prod.fst).Nodup)
    (hid : (store.map ServiceRevision.Id).Nodup) (e : Str × List Str) (he : e ∈ m) :
    entryWrite (storeAfterResolve store m cmap) cmap e = [] ∧
    ∀ x ∈ entryEmit (storeAfterResolve store m cmap) e,
      x = e.1 ++ "/pom.xml".toList ∧
      ∃ r, recordOf (storeAfterResolve store m cmap) e.1 = some r ∧ r.Deployed = 0 := by
  obtain ⟨svc, revs⟩ := e
  cases revs with
  | nil => simp [entryWrite, entryEmit]
  | cons h t =>
    obtain ⟨r, hr, hrev⟩ := after_head store cmap m hk hid svc h t he
    constructor
    · simp [entryWrite, hr, hrev]
    · intro x hx
      simp only [entryEmit, hr, hrev, ne_eq, not_true_eq_false, false_or] at hx
      split at hx
      · rename_i hd
        simp only [List.mem_singleton] at hx
        exact ⟨hx, r, hr, hd⟩
      · simp at hx

/-! ## Reconciliation: the claims -/

/-- C1: for every revision index (a Go map, so with each key once), every
change-to-commit map and every table content, the rebuild list that
`resolveSvc` builds from an empty `updateList` holds `svc + "/pom.xml"`
exactly once when `svc` has a non-empty sequence and has no record, or a
record with another revision than the head of the sequence, or a record with
`deployed = 0`, and not at all otherwise; and it holds nothing but such
entries. -/
theorem resolveSvc_rebuild_list (oldService : List ServiceRevision)
    (svcMap : GoMap (List Str)) (changIdCommitIdMap : GoMap Str)
    (hk : (svcMap.map Prod.fst).Nodup) :
    (∀ svc : Str,
      ((resolveSvc oldService svcMap changIdCommitIdMap []).updateList).count
          (svc ++ "/pom.xml".toList) =
        if needsRebuild oldService svcMap svc then 1 else 0) ∧
    (∀ x ∈ (resolveSvc oldService svcMap changIdCommitIdMap []).updateList,
      ∃ svc : Str, x = svc ++ "/pom.xml".toList ∧ needsRebuild oldService svcMap svc = true) := by
  have hcount : ∀ svc : Str,
      ((resolveSvc oldService svcMap changIdCommitIdMap []).updateList).count
          (svc ++ "/pom.xml".toList) =
        if needsRebuild oldService svcMap svc then 1 else 0 := by
    intro svc
    rw [resolveSvc_updateList, List.nil_append]
    exact emit_count oldService svcMap svc hk
  refine ⟨hcount, ?_⟩
  intro x hx
  have hx2 := hx
  rw [resolveSvc_updateList, List.nil_append] at hx2
  obtain ⟨svc, rfl, _⟩ := emit_mem oldService svcMap x hx2
  refine ⟨svc, rfl, ?_⟩
  have hpos := List.count_pos_iff.2 hx
  rw [hcount svc] at hpos
  by_contra hn
  simp [hn] at hpos

/-- Witness of C1 on the sample data: `a` (revision changed), `b` (not
deployed) and `d` (no record) are listed, `c` and `e` are not. -/
theorem resolveSvc_rebuild_list_witness :
    (sampleIndex.map Prod.fst).Nodup ∧
    (resolveSvc sampleStore sampleIndex sampleCommits []).updateList =
      ["a/pom.xml".toList, "b/pom.xml".toList, "d/pom.xml".toList] ∧
    ((resolveSvc sampleStore sampleIndex sampleCommits []).updateList).count
        ("c".toList ++ "/pom.xml".toList) =
      if needsRebuild sampleStore sampleIndex "c".toList then 1 else 0 :=
  ⟨by decide, by decide,
    (resolveSvc_rebuild_list sampleStore sampleIndex sampleCommits (by decide)).1 "c".toList⟩

/-- C2: let the table have a primary key (`hid`) and let service `svc` have
the non-empty sequence `h :: t` in the revision index. If the record of `svc`
has a revision other than `h`, then after `resolveSvc` (writes succeeding) it
is the same row with `rev_id = h`, `commit_id = changIdCommitIdMap[h]` (the
empty string for an absent key) and `deployed = 0`, whatever `deployed` was;
if `svc` has no record, then afterwards it has one, under a new key, with
`service_name = svc`, `rev_id = h`, that `commit_id` and `deployed = 0`. -/
theorem resolveSvc_store_effect (store : List ServiceRevision)
    (svcMap : GoMap (List Str)) (changIdCommitIdMap : GoMap Str)
    (hk : (svcMap.map Prod.fst).Nodup) (hid : (store.map ServiceRevision.Id).Nodup)
    (svc h : Str) (t : List Str) (hm : mapGet [] svcMap svc = h :: t) :
    (∀ r : ServiceRevision, recordOf store svc = some r → r.RevId ≠ h →
      recordOf (storeAfterResolve store svcMap changIdCommitIdMap) svc =
        some { r with RevId := h, CommitId := mapGet [] changIdCommitIdMap h,
                      Deployed := 0 }) ∧
    (recordOf store svc = none →
      ∃ id : Int, (∀ r ∈ store, r.Id < id) ∧
        recordOf (storeAfterResolve store svcMap changIdCommitIdMap) svc =
          some { Id := id, ServiceName := svc, RevId := h,
                 CommitId := mapGet [] changIdCommitIdMap h, Deployed := 0 }) :=
  ⟨fun r hrec hne => after_update store changIdCommitIdMap svcMap hk hid svc h t hm r hrec hne,
   fun hrec => after_insert store changIdCommitIdMap svcMap hk hid svc h t hm hrec⟩

/-- Witness of C2 on the sample data: the deployed record of `a` moves from
`r1` to `r9` with `deployed = 0`. -/
theorem resolveSvc_store_effect_witness :
    (sampleIndex.map Prod.fst).Nodup ∧ (sampleStore.map ServiceRevision.Id).Nodup ∧
    mapGet [] sampleIndex "a".toList = "r9".toList :: ["r1".toList] ∧
    recordOf (storeAfterResolve sampleStore sampleIndex sampleCommits) "a".toList =
      some { Id := 1, ServiceName := "a".toList, RevId := "r9".toList,
             CommitId := "abcdef1".toList, Deployed := 0 } :=
  ⟨by decide, by decide, by decide,
    (resolveSvc_store_effect sampleStore sampleIndex sampleCommits (by decide) (by decide)
      "a".toList "r9".toList ["r1".toList] (by decide)).1
      { Id := 1, ServiceName := "a".toList, RevId := "r1".toList, CommitId := "c1".toList,
        Deployed := 1 } (by decide) (by decide)⟩

/-- C3: let the table have a primary key (`hid`). After a run of `resolveSvc`
whose writes succeed, a second run over the same revision index (`svcMap2`
holds the same entries, visited in any order) sends no write to the table;
every service it lists has a record with `deployed = 0` in the table left by
the first run; and a service whose record was deployed with the revision at
the head of its sequence before the first run is not listed. The property
does not need the table to hold one record per service name: both runs read
the first record of a name. -/
theorem resolveSvc_second_run (store : List ServiceRevision)
    (svcMap svcMap2 : GoMap (List Str)) (changIdCommitIdMap : GoMap Str)
    (hk : (svcMap.map Prod.fst).Nodup) (hperm : svcMap2.Perm svcMap)
    (hid : (store.map ServiceRevision.Id).Nodup) :
    (resolveSvc (storeAfterResolve store svcMap changIdCommitIdMap) svcMap2
        changIdCommitIdMap []).writes = [] ∧
    (∀ svc : Str,
      svc ++ "/pom.xml".toList ∈
        (resolveSvc (storeAfterResolve store svcMap changIdCommitIdMap) svcMap2
          changIdCommitIdMap []).updateList →
      ∃ r, recordOf (storeAfterResolve store svcMap changIdCommitIdMap) svc = some r ∧
        r.Deployed = 0) ∧
    (∀ (svc h : Str) (t : List Str) (r : ServiceRevision),
      mapGet [] svcMap svc = h :: t → recordOf store svc = some r → r.RevId = h →
      r.Deployed ≠ 0 →
      svc ++ "/pom.xml".toList ∉
        (resolveSvc (storeAfterResolve store svcMap changIdCommitIdMap) svcMap2
          changIdCommitIdMap []).updateList) := by
  have hentry := fun e (he : e ∈ svcMap2) =>
    second_run_entry store changIdCommitIdMap svcMap hk hid e (hperm.mem_iff.1 he)
  have hlisted : ∀ svc : Str,
      svc ++ "/pom.xml".toList ∈
        (resolveSvc (storeAfterResolve store svcMap changIdCommitIdMap) svcMap2
          changIdCommitIdMap []).updateList →
      ∃ r, recordOf (storeAfterResolve store svcMap changIdCommitIdMap) svc = some r ∧
        r.Deployed = 0 := by
    intro svc hx
    rw [resolveSvc_updateList, List.nil_append] at hx
    simp only [List.mem_flatten, List.mem_map] at hx
    obtain ⟨l, ⟨e, he, rfl⟩, hxl⟩ := hx
    obtain ⟨heq, r, hr, hd⟩ := (hentry e he).2 _ hxl
    have : svc = e.1 := List.append_cancel_right heq
    exact ⟨r, this ▸ hr, hd⟩
  refine ⟨?_, hlisted, ?_⟩
  · rw [resolveSvc_writes, List.flatten_eq_nil_iff]
    intro l hl
    obtain ⟨e, he, rfl⟩ := List.mem_map.1 hl
    exact (hentry e he).1
  · intro svc h t r hm hrec hrev hdep hx
    obtain ⟨r1, hr1, hd1⟩ := hlisted svc hx
    have hsame := after_same store changIdCommitIdMap svcMap hk hid svc (by
      intro h2 t2 hm2
      rw [hm] at hm2
      simp only [List.cons.injEq] at hm2
      exact ⟨r, hrec, hm2.1 ▸ hrev⟩)
    rw [hsame, hrec] at hr1
    simp only [Option.some.injEq] at hr1
    exact hdep (hr1 ▸ hd1)

/-- Witness of C3 on the sample data, the second run visiting the services
in reverse order: no write, and the list is `d`, `b`, `a`. -/
theorem resolveSvc_second_run_witness :
    (sampleIndex.map Prod.fst).Nodup ∧ sampleIndex.reverse.Perm sampleIndex ∧
    (sampleStore.map ServiceRevision.Id).Nodup ∧
    (resolveSvc (storeAfterResolve sampleStore sampleIndex sampleCommits) sampleIndex.reverse
        sampleCommits []).updateList =
      ["d/pom.xml".toList, "b/pom.xml".toList, "a/pom.xml".toList] ∧
    (resolveSvc (storeAfterResolve sampleStore sampleIndex sampleCommits) sampleIndex.reverse
        sampleCommits []).writes = [] :=
  ⟨by decide, List.reverse_perm _, by decide, by decide,
    (resolveSvc_second_run sampleStore sampleIndex sampleIndex.reverse sampleCommits
      (by decide) (List.reverse_perm _) (by decide)).1⟩

/-! ## Lemmas on maps and lines -/

theorem mapGet_mapSet {V : Type} (zero : V) (m : GoMap V) (k k' : Str) (v : V) :
    mapGet zero (mapSet m k v) k' = if k = k' then v else mapGet zero m k' := by
  induction m with
  | nil => simp [mapSet, mapGet]
  | cons e m ih =>
    obtain ⟨a, w⟩ := e
    by_cases ha : a = k
    · subst ha
      by_cases hk : a = k' <;> simp [mapSet, mapGet, hk]
    · simp only [mapSet, ha, if_false, mapGet, ih]
      by_cases hk : k = k'
      · subst hk
        simp [ha]
      · simp [hk]

theorem mapSet_keys {V : Type} (m : GoMap V) (k : Str) (v : V) :
    (mapSet m k v).map Prod.fst =
      if k ∈ m.map Prod.fst then m.map Prod.fst else m.map Prod.fst ++ [k] := by
  induction m with
  | nil => rfl
  | cons e m ih =>
    obtain ⟨a, w⟩ := e
    by_cases ha : a = k
    · simp only [mapSet, ha, if_true, List.map_cons, List.mem_cons, true_or]
    · have hk : ¬ k = a := fun e => ha e.symm
      simp only [mapSet, ha, if_false, List.map_cons, ih, List.mem_cons, hk, false_or]
      split <;> simp

theorem mapSet_keys_nodup {V : Type} (m : GoMap V) (k : Str) (v : V)
    (h : (m.map Prod.fst).Nodup) : ((mapSet m k v).map Prod.fst).Nodup := by
  rw [mapSet_keys]
  split
  · exact h
  · rename_i hk
    rw [List.nodup_append]
    refine ⟨h, by simp, ?_⟩
    rw [List.disjoint_singleton]
    exact hk

theorem strSplit_ne_nil (sep : Char) (s : Str) : strSplit sep s ≠ [] := by
  cases s with
  | nil => simp [strSplit]
  | cons c cs =>
    unfold strSplit
    split
    · simp
    · split <;> simp

theorem mapSet_same (m : GoMap (List Str)) (k : Str) (h : mapGet [] m k ≠ []) :
    mapSet m k (mapGet [] m k) = m := by
  induction m with
  | nil => simp [mapGet] at h
  | cons e m ih =>
    obtain ⟨a, w⟩ := e
    by_cases ha : a = k
    · simp [mapSet, mapGet, ha]
    · simp only [mapGet, ha, if_false] at h
      simp [mapSet, mapGet, ha, ih h]

theorem bodyLine_eq (st : ParseState) (line : Str) :
    bodyLine st line =
      match lineService line with
      | none => st
      | some svcName =>
        if isDeleteLine line then
          if lineMarker line = 2 then
            { st with svcDelMap := mapSet st.svcDelMap svcName true }
          else st
        else if mapGet false st.svcDelMap svcName then st
        else
          { st with svcMap := mapSet st.svcMap svcName
                      (appendRev (mapGet [] st.svcMap svcName) st.currentId) } := by
  have hlen : (strSplit '\t' line).length > 0 :=
    List.length_pos.2 (strSplit_ne_nil '\t' line)
  unfold bodyLine lineService lineMarker isDeleteLine firstField lastField
  simp only [hlen, if_true]
  by_cases hidx : (classify ((strSplit '\t' line).getLast?.getD [])).1 = -1
  · simp [hidx]
  · simp only [ne_eq, hidx, not_false_eq_true, if_true, decide_eq_true_eq]
    split
    · rfl
    · split
      · rfl
      · unfold appendRev
        split
        · rename_i hpos
          split
          · rename_i hlast
            rw [if_pos ⟨hpos, hlast⟩, mapSet_same _ _ (List.ne_nil_of_length_pos hpos)]
          · rename_i hlast
            rw [if_neg (fun h => hlast h.2)]
        · rename_i hpos
          rw [if_neg (fun h => hpos h.1)]

theorem headerLine_keeps (st st' : ParseState) (line : Str)
    (h : headerLine st line = some st') :
    st'.svcMap = st.svcMap ∧ st'.svcDelMap = st.svcDelMap ∧ st'.isHead = st.isHead ∧
      st'.currentCommitId = st.currentCommitId := by
  unfold headerLine at h
  simp only at h
  split at h
  · split at h
    · simp at h
    · simp only [Option.some.injEq] at h
      subst h
      simp
  · simp only [Option.some.injEq] at h
    subst h
    simp

theorem processLine_cases (idLength : Int) (st st' : ParseState) (line : Str)
    (h : processLine idLength st line = some st') :
    (st'.svcMap = st.svcMap ∧ st'.svcDelMap = st.svcDelMap ∧
        (startsWith line markHeader = true ∨ startsWith line markFooter = true ∨
          st.isHead = true)) ∨
    (st' = bodyLine st line ∧ st.isHead = false ∧ startsWith line markHeader = false ∧
      startsWith line markFooter = false) := by
  unfold processLine at h
  simp only at h
  by_cases h1 : strIndex line markHeader = 0
  · left
    simp only [h1, if_true] at h
    cases hs : goSlice line 3 (3 + idLength) with
    | none => simp [hs] at h
    | some c =>
      simp only [hs] at h
      split at h
      · simp only [Option.some.injEq] at h
        subst h
        simp [startsWith, h1]
      · simp only [if_true] at h
        obtain ⟨ha, hb, _, _⟩ := headerLine_keeps _ _ _ h
        simp [ha, hb, startsWith, h1]
  · simp only [h1, if_false] at h
    by_cases h2 : strIndex line markFooter = 0
    · left
      simp only [h2, if_true, Option.some.injEq] at h
      subst h
      simp [startsWith, h2]
    · simp only [h2, if_false] at h
      cases hh : st.isHead with
      | true =>
        left
        simp only [hh, if_true] at h
        obtain ⟨ha, hb, _, _⟩ := headerLine_keeps _ _ _ h
        simp [ha, hb]
      | false =>
        right
        simp only [hh, Bool.false_eq_true, if_false, Option.some.injEq] at h
        simp [h, startsWith, h1, h2]

theorem processLine_body (idLength : Int) (st : ParseState) (line : Str)
    (hh : st.isHead = false) (h1 : startsWith line markHeader = false)
    (h2 : startsWith line markFooter = false) :
    processLine idLength st line = some (bodyLine st line) := by
  simp only [startsWith, decide_eq_false_iff_not] at h1 h2
  simp [processLine, h1, h2, hh]

/-! ## Lemmas on `strIndex` -/

theorem strIndexFrom_spec (sub : Str) : ∀ (s : Str) (n : Nat),
    (strIndexFrom sub s n = -1 ∧ ∀ j, j ≤ s.length → ¬ sub <+: s.drop j) ∨
    (∃ k : Nat, strIndexFrom sub s n = ((n + k : Nat) : Int) ∧ k ≤ s.length ∧
      sub <+: s.drop k ∧ ∀ j, j < k → ¬ sub <+: s.drop j) := by
  intro s
  induction s with
  | nil =>
    intro n
    by_cases hs : sub = []
    · right
      exact ⟨0, by simp [strIndexFrom, hs], by simp, by simp [hs], by simp⟩
    · left
      refine ⟨by simp [strIndexFrom, hs], ?_⟩
      intro j _
      simpa using hs
  | cons c cs ih =>
    intro n
    by_cases hp : sub.isPrefixOf (c :: cs) = true
    · right
      refine ⟨0, by simp [strIndexFrom, hp], by simp, ?_, by simp⟩
      simpa using List.isPrefixOf_iff_prefix.1 hp
    · have hnp : ¬ sub <+: c :: cs := fun h => hp (List.isPrefixOf_iff_prefix.2 h)
      have hval : strIndexFrom sub (c :: cs) n = strIndexFrom sub cs (n + 1) := by
        simp [strIndexFrom, hp]
      rcases ih (n + 1) with ⟨hv, hall⟩ | ⟨k, hv, hk, hpre, hall⟩
      · left
        refine ⟨by rw [hval, hv], ?_⟩
        intro j hj
        cases j with
        | zero => simpa using hnp
        | succ j =>
          simp only [List.drop_succ_cons]
          exact hall j (by simpa using hj)
      · right
        refine ⟨k + 1, ?_, by simpa using hk, by simpa using hpre, ?_⟩
        · rw [hval, hv]
          push_cast
          ring
        · intro j hj
          cases j with
          | zero => simpa using hnp
          | succ j =>
            simp only [List.drop_succ_cons]
            exact hall j (by omega)

theorem strIndex_neg_iff (s sub : Str) : strIndex s sub = -1 ↔ ¬ sub <:+: s := by
  unfold strIndex
  rcases strIndexFrom_spec sub s 0 with ⟨hv, hall⟩ | ⟨k, hv, hk, hpre, _⟩
  · refine ⟨fun _ => ?_, fun _ => hv⟩
    rintro ⟨a, b, hab⟩
    apply hall a.length (by rw [← hab]; simp)
    rw [← hab]
    simp [List.append_assoc]
  · constructor
    · intro h
      rw [hv] at h
      omega
    · intro h
      exfalso
      apply h
      exact List.IsInfix.trans hpre.isInfix (List.drop_suffix k s).isInfix

theorem strIndex_first (s sub : Str) (h : strIndex s sub ≠ -1) :
    ∃ k : Nat, strIndex s sub = (k : Int) ∧ k ≤ s.length ∧ sub <+: s.drop k ∧
      ∀ j, j < k → ¬ sub <+: s.drop j := by
  unfold strIndex at h ⊢
  rcases strIndexFrom_spec sub s 0 with ⟨hv, _⟩ | ⟨k, hv, hk, hpre, hall⟩
  · exact absurd hv h
  · exact ⟨k, by simpa using hv, hk, hpre, hall⟩

theorem strIndex_zero_iff (s sub : Str) : strIndex s sub = 0 ↔ sub <+: s := by
  constructor
  · intro h
    obtain ⟨k, hv, _, hpre, _⟩ := strIndex_first s sub (by rw [h]; decide)
    rw [h] at hv
    have : k = 0 := by omega
    subst this
    simpa using hpre
  · intro h
    have hne : strIndex s sub ≠ -1 := by
      rw [Ne, strIndex_neg_iff, not_not]
      exact h.isInfix
    obtain ⟨k, hv, _, _, hall⟩ := strIndex_first s sub hne
    rw [hv]
    cases k with
    | zero => rfl
    | succ k => exact absurd (by simpa using h) (hall 0 (by omega))

theorem firstField_delete (line : Str) (h : isDeleteLine line = true) :
    ∃ cs, line = 'D' :: cs := by
  simp only [isDeleteLine, firstField, decide_eq_true_eq] at h
  cases line with
  | nil => simp [strSplit, typeDelete] at h
  | cons c cs =>
    refine ⟨cs, ?_⟩
    unfold strSplit at h
    split at h
    · simp [typeDelete] at h
    · split at h
      · simp only [List.head?_cons, Option.getD_some, typeDelete] at h
        have := List.head_eq_of_cons_eq h
        rw [this]
      · simp only [List.head?_cons, Option.getD_some, typeDelete] at h
        have := List.head_eq_of_cons_eq h
        rw [this]

theorem delete_not_marker (line : Str) (h : isDeleteLine line = true) :
    startsWith line markHeader = false ∧ startsWith line markFooter = false := by
  obtain ⟨cs, rfl⟩ := firstField_delete line h
  simp only [startsWith, decide_eq_false_iff_not, strIndex_zero_iff]
  constructor
  · rintro ⟨t, ht⟩
    simp [markHeader] at ht
  · rintro ⟨t, ht⟩
    simp [markFooter] at ht

/-! ## Lemmas on the body lines -/

theorem appendRev_chain (l : List Str) (id : Str) (h : List.Chain' (· ≠ ·) l) :
    List.Chain' (· ≠ ·) (appendRev l id) := by
  unfold appendRev
  split
  · exact h
  · rename_i hne
    rw [List.chain'_append]
    refine ⟨h, List.chain'_singleton id, ?_⟩
    intro x hx y hy
    simp only [List.head?_cons, Option.mem_def, Option.some.injEq] at hy
    subst hy
    intro hxy
    apply hne
    simp only [Option.mem_def] at hx
    refine ⟨?_, by rw [hx, hxy]⟩
    cases l with
    | nil => simp at hx
    | cons a l => simp

theorem bodyLine_svcMap (st : ParseState) (line X : Str) :
    mapGet [] (bodyLine st line).svcMap X =
      if lineService line = some X ∧ isDeleteLine line = false ∧
          mapGet false st.svcDelMap X = false then
        appendRev (mapGet [] st.svcMap X) st.currentId
      else mapGet [] st.svcMap X := by
  rw [bodyLine_eq]
  cases hs : lineService line with
  | none => simp
  | some svc =>
    simp only [Option.some.injEq]
    cases hd : isDeleteLine line with
    | true =>
      simp only [if_true, Bool.true_eq_false, false_and, and_false, if_false]
      split <;> rfl
    | false =>
      simp only [Bool.false_eq_true, if_false, true_and]
      cases hdel : mapGet false st.svcDelMap svc with
      | true =>
        simp only [if_true]
        by_cases hx : svc = X
        · subst hx
          simp [hdel]
        · simp [hx]
      | false =>
        simp only [Bool.false_eq_true, if_false, mapGet_mapSet]
        by_cases hx : svc = X
        · subst hx
          simp [hdel]
        · simp [hx]

theorem bodyLine_svcDelMap (st : ParseState) (line X : Str) :
    mapGet false (bodyLine st line).svcDelMap X =
      if lineService line = some X ∧ isDeleteLine line = true ∧ lineMarker line = 2 then true
      else mapGet false st.svcDelMap X := by
  rw [bodyLine_eq]
  cases hs : lineService line with
  | none => simp
  | some svc =>
    simp only [Option.some.injEq]
    cases hd : isDeleteLine line with
    | true =>
      simp only [if_true, true_and]
      by_cases hm : lineMarker line = 2
      · simp only [hm, if_true, mapGet_mapSet, and_true]
      · simp [hm]
    | false =>
      simp only [Bool.false_eq_true, if_false, false_and, and_false]
      split <;> rfl

theorem bodyLine_keeps (st : ParseState) (line : Str) :
    (bodyLine st line).currentId = st.currentId ∧ (bodyLine st line).isHead = st.isHead ∧
      (bodyLine st line).changIdCommitIdMap = st.changIdCommitIdMap ∧
      (bodyLine st line).currentCommitId = st.currentCommitId := by
  rw [bodyLine_eq]
  split
  · simp
  · split
    · split <;> simp
    · split <;> simp

theorem bodyLine_keys_nodup (st : ParseState) (line : Str)
    (h : (st.svcMap.map Prod.fst).Nodup) : ((bodyLine st line).svcMap.map Prod.fst).Nodup := by
  rw [bodyLine_eq]
  split
  · exact h
  · split
    · split <;> exact h
    · split
      · exact h
      · exact mapSet_keys_nodup _ _ _ h

theorem processLine_chain (idLength : Int) (st st' : ParseState) (line : Str)
    (h : processLine idLength st line = some st')
    (hinv : ∀ svc, List.Chain' (· ≠ ·) (mapGet [] st.svcMap svc)) :
    ∀ svc, List.Chain' (· ≠ ·) (mapGet [] st'.svcMap svc) := by
  intro svc
  rcases processLine_cases idLength st st' line h with ⟨hm, _, _⟩ | ⟨rfl, _, _, _⟩
  · rw [hm]
    exact hinv svc
  · rw [bodyLine_svcMap]
    split
    · exact appendRev_chain _ _ (hinv svc)
    · exact hinv svc

theorem runLines_chain (idLength : Int) (lines : List Str) :
    ∀ st st' : ParseState, runLines idLength st lines = some st' →
      (∀ svc, List.Chain' (· ≠ ·) (mapGet [] st.svcMap svc)) →
      ∀ svc, List.Chain' (· ≠ ·) (mapGet [] st'.svcMap svc) := by
  induction lines with
  | nil =>
    intro st st' h hinv
    simp only [runLines, Option.some.injEq] at h
    subst h
    exact hinv
  | cons l ls ih =>
    intro st st' h hinv
    simp only [runLines] at h
    cases hp : processLine idLength st l with
    | none => simp [hp] at h
    | some st1 =>
      simp only [hp] at h
      exact ih st1 st' h (processLine_chain idLength st st1 l hp hinv)

theorem processLine_deleted (idLength : Int) (st st' : ParseState) (line X : Str)
    (h : processLine idLength st line = some st')
    (hdel : mapGet false st.svcDelMap X = true) :
    mapGet [] st'.svcMap X = mapGet [] st.svcMap X ∧ mapGet false st'.svcDelMap X = true := by
  rcases processLine_cases idLength st st' line h with ⟨hm, hd, _⟩ | ⟨rfl, _, _, _⟩
  · rw [hm, hd]
    exact ⟨rfl, hdel⟩
  · rw [bodyLine_svcMap, bodyLine_svcDelMap]
    simp [hdel]

theorem runLines_deleted (idLength : Int) (lines : List Str) (X : Str) :
    ∀ st st' : ParseState, runLines idLength st lines = some st' →
      mapGet false st.svcDelMap X = true →
      mapGet [] st'.svcMap X = mapGet [] st.svcMap X ∧
        mapGet false st'.svcDelMap X = true := by
  induction lines with
  | nil =>
    intro st st' h hdel
    simp only [runLines, Option.some.injEq] at h
    subst h
    exact ⟨rfl, hdel⟩
  | cons l ls ih =>
    intro st st' h hdel
    simp only [runLines] at h
    cases hp : processLine idLength st l with
    | none => simp [hp] at h
    | some st1 =>
      simp only [hp] at h
      obtain ⟨h1, h2⟩ := processLine_deleted idLength st st1 l X hp hdel
      obtain ⟨h3, h4⟩ := ih st1 st' h h2
      exact ⟨h3.trans h1, h4⟩

/-! ## The parser: claims on the body lines -/

/-- C4: in a parse that starts from the empty state, after every line (the
state `st` reached on the first `k` lines, for every `k`) no service has two
equal identifiers at adjacent positions of its sequence; and two consecutive
accepted body lines that name the same service, read under one change id
when the service has no entry yet, leave it with the one-element sequence of
that change id. -/
theorem readRevList_no_adjacent_duplicates (idLength : Int) :
    (∀ (lines : List Str) (k : Nat) (st : ParseState),
      runLines idLength initState (lines.take k) = some st →
      ∀ svc, List.Chain' (· ≠ ·) (mapGet [] st.svcMap svc)) ∧
    (∀ (st : ParseState) (l1 l2 svc : Str),
      st.isHead = false → acceptedFor l1 svc = true → acceptedFor l2 svc = true →
      mapGet false st.svcDelMap svc = false → mapGet [] st.svcMap svc = [] →
      ∃ st', runLines idLength st [l1, l2] = some st' ∧
        mapGet [] st'.svcMap svc = [st.currentId] ∧
        (mapGet [] st'.svcMap svc).length = 1) := by
  constructor
  · intro lines k st h svc
    exact runLines_chain idLength _ initState st h (fun _ => by simp [initState, mapGet]) svc
  · intro st l1 l2 svc hh h1 h2 hdel hemp
    simp only [acceptedFor, Bool.and_eq_true, Bool.not_eq_true', decide_eq_true_eq] at h1 h2
    obtain ⟨⟨⟨h1a, h1b⟩, h1c⟩, h1d⟩ := h1
    obtain ⟨⟨⟨h2a, h2b⟩, h2c⟩, h2d⟩ := h2
    have hk1 := bodyLine_keeps st l1
    have hp1 := processLine_body idLength st l1 hh h1a h1b
    have hp2 := processLine_body idLength (bodyLine st l1) l2 (hk1.2.1.trans hh) h2a h2b
    refine ⟨bodyLine (bodyLine st l1) l2, by simp [runLines, hp1, hp2], ?_⟩
    have hd1 : mapGet false (bodyLine st l1).svcDelMap svc = false := by
      rw [bodyLine_svcDelMap]
      simp [h1c, hdel]
    have hm1 : mapGet [] (bodyLine st l1).svcMap svc = [st.currentId] := by
      rw [bodyLine_svcMap]
      simp [h1c, h1d, hdel, hemp, appendRev]
    have hm2 : mapGet [] (bodyLine (bodyLine st l1) l2).svcMap svc = [st.currentId] := by
      rw [bodyLine_svcMap]
      simp [h2c, h2d, hd1, hm1, hk1.1, appendRev]
    exact ⟨hm2, by rw [hm2]; rfl⟩

/-- Witness of C4: after the sample header and two lines that name service
`a`, the sequence of `a` is the change id once. -/
theorem readRevList_no_adjacent_duplicates_witness :
    runLines 7 initState
        ((sampleHeader ++ ["M\ta/src/Foo.java".toList, "M\ta/pom.xml".toList]).take 5) =
      some sampleStateA ∧
    List.Chain' (· ≠ ·) (mapGet [] sampleStateA.svcMap "a".toList) :=
  ⟨by decide,
    (readRevList_no_adjacent_duplicates 7).1
      (sampleHeader ++ ["M\ta/src/Foo.java".toList, "M\ta/pom.xml".toList]) 5 sampleStateA
      (by decide) "a".toList⟩

/-- C5: when a line read in body mode has the delete change type `"D"` and a
path classified by the build-descriptor marker with service name `X`, then
whatever lines follow, the sequence of `X` at the end of the parse is the one
it had when that line was read, and `X` is still in the deletion set; so a
service without entries at that point has none at the end. -/
theorem readRevList_deletion_sticky (idLength : Int) (st st' : ParseState)
    (dline X : Str) (rest : List Str)
    (hbody : st.isHead = false) (hdel : isDeleteLine dline = true)
    (hsvc : lineService dline = some X) (hmark : lineMarker dline = 2)
    (hrun : runLines idLength st (dline :: rest) = some st') :
    mapGet [] st'.svcMap X = mapGet [] st.svcMap X ∧
    mapGet false st'.svcDelMap X = true ∧
    (mapGet [] st.svcMap X = [] → mapGet [] st'.svcMap X = []) := by
  obtain ⟨hn1, hn2⟩ := delete_not_marker dline hdel
  have hp := processLine_body idLength st dline hbody hn1 hn2
  simp only [runLines, hp] at hrun
  have hd : mapGet false (bodyLine st dline).svcDelMap X = true := by
    rw [bodyLine_svcDelMap]
    simp [hsvc, hdel, hmark]
  have hm : mapGet [] (bodyLine st dline).svcMap X = mapGet [] st.svcMap X := by
    rw [bodyLine_svcMap]
    simp [hdel]
  obtain ⟨h1, h2⟩ := runLines_deleted idLength rest X _ st' hrun hd
  exact ⟨h1.trans hm, h2, fun he => by rw [h1.trans hm, he]⟩

/-- Witness of C5: after `D<TAB>b/pom.xml`, lines that name `b` under the
src and the build-descriptor marker leave `b` without entries. -/
theorem readRevList_deletion_sticky_witness :
    sampleBodyState.isHead = false ∧ isDeleteLine "D\tb/pom.xml".toList = true ∧
    lineService "D\tb/pom.xml".toList = some "b".toList ∧
    lineMarker "D\tb/pom.xml".toList = 2 ∧
    runLines 7 sampleBodyState
        ["D\tb/pom.xml".toList, "M\tb/src/X.java".toList, "A\tb/pom.xml".toList] =
      some sampleStateB ∧
    mapGet [] sampleStateB.svcMap "b".toList = [] :=
  ⟨by decide, by decide, by decide, by decide, by decide,
    (readRevList_deletion_sticky 7 sampleBodyState sampleStateB "D\tb/pom.xml".toList
      "b".toList ["M\tb/src/X.java".toList, "A\tb/pom.xml".toList]
      (by decide) (by decide) (by decide) (by decide) (by decide)).2.2 (by decide)⟩

/-- C6, refuted as stated: the line `D<TAB>c/src/Y.java` is read in body mode,
has the delete change type, is classified by the src marker with service name
`c`, and `c` is not in the deletion set; the claim has the change id appended
to the sequence of `c`, and the code leaves the sequence empty. -/
theorem delete_src_line_not_recorded :
    sampleBodyState.isHead = false ∧ isDeleteLine "D\tc/src/Y.java".toList = true ∧
    lineMarker "D\tc/src/Y.java".toList = 1 ∧
    lineService "D\tc/src/Y.java".toList = some "c".toList ∧
    mapGet false sampleBodyState.svcDelMap "c".toList = false ∧
    appendRev (mapGet [] sampleBodyState.svcMap "c".toList) sampleBodyState.currentId =
      [sampleChangeId] ∧
    (runLines 7 initState (sampleHeader ++ ["D\tc/src/Y.java".toList])).map
        (fun st => mapGet [] st.svcMap "c".toList) = some [] := by
  decide

/-- C6, amended: a line read in body mode whose change type is the delete
type `"D"` appends nothing to the revision index, whichever marker classifies
its path; it puts its service into the deletion set when the marker is the
build-descriptor marker and leaves the deletion set as it is otherwise. -/
theorem delete_line_effect (idLength : Int) (st : ParseState) (line : Str)
    (hbody : st.isHead = false) (hdel : isDeleteLine line = true) :
    ∃ st', processLine idLength st line = some st' ∧ st'.svcMap = st.svcMap ∧
      (lineMarker line ≠ 2 → st'.svcDelMap = st.svcDelMap) ∧
      (∀ svc, lineService line = some svc → lineMarker line = 2 →
        st'.svcDelMap = mapSet st.svcDelMap svc true) := by
  obtain ⟨hn1, hn2⟩ := delete_not_marker line hdel
  refine ⟨bodyLine st line, processLine_body idLength st line hbody hn1 hn2, ?_, ?_, ?_⟩
  · rw [bodyLine_eq]
    split
    · rfl
    · simp only [hdel, if_true]
      split <;> rfl
  · intro hm
    rw [bodyLine_eq]
    split
    · rfl
    · simp [hdel, hm]
  · intro svc hs hm
    rw [bodyLine_eq]
    simp [hs, hdel, hm]

/-- Witness of the amended C6 on the delete line of a source file. -/
theorem delete_line_effect_witness :
    sampleBodyState.isHead = false ∧ isDeleteLine "D\tc/src/Y.java".toList = true ∧
    ∃ st', processLine 7 sampleBodyState "D\tc/src/Y.java".toList = some st' ∧
      st'.svcMap = sampleBodyState.svcMap ∧
      (lineMarker "D\tc/src/Y.java".toList ≠ 2 → st'.svcDelMap = sampleBodyState.svcDelMap) ∧
      (∀ svc, lineService "D\tc/src/Y.java".toList = some svc →
        lineMarker "D\tc/src/Y.java".toList = 2 →
        st'.svcDelMap = mapSet sampleBodyState.svcDelMap svc true) :=
  ⟨by decide, by decide,
    delete_line_effect 7 sampleBodyState "D\tc/src/Y.java".toList (by decide) (by decide)⟩

theorem classify_src (path : Str) (h : markSrc <:+: path) :
    ∃ k : Nat, classify path = ((k : Int), 1) ∧ markSrc <+: path.drop k ∧
      ∀ j, j < k → ¬ markSrc <+: path.drop j := by
  have hne : strIndex path markSrc ≠ -1 := by
    rw [Ne, strIndex_neg_iff, not_not]
    exact h
  obtain ⟨k, hv, _, hpre, hall⟩ := strIndex_first path markSrc hne
  refine ⟨k, ?_, hpre, hall⟩
  have hk : ¬ ((k : Int) = -1) := by omega
  simp [classify, hv, hk]

theorem classify_pom (path : Str) (h1 : ¬ markSrc <:+: path) (h2 : markPom <:+: path) :
    ∃ k : Nat, classify path = ((k : Int), 2) ∧ markPom <+: path.drop k ∧
      ∀ j, j < k → ¬ markPom <+: path.drop j := by
  have hs : strIndex path markSrc = -1 := (strIndex_neg_iff _ _).2 h1
  have hne : strIndex path markPom ≠ -1 := by
    rw [Ne, strIndex_neg_iff, not_not]
    exact h2
  obtain ⟨k, hv, _, hpre, hall⟩ := strIndex_first path markPom hne
  refine ⟨k, ?_, hpre, hall⟩
  have hk : ¬ ((k : Int) = -1) := by omega
  simp [classify, hs, hv, hk]

theorem classify_none (path : Str) (h1 : ¬ markSrc <:+: path) (h2 : ¬ markPom <:+: path)
    (h3 : ¬ markDocker <:+: path) : (classify path).1 = -1 := by
  have hs : strIndex path markSrc = -1 := (strIndex_neg_iff _ _).2 h1
  have hp : strIndex path markPom = -1 := (strIndex_neg_iff _ _).2 h2
  have hd : strIndex path markDocker = -1 := (strIndex_neg_iff _ _).2 h3
  simp [classify, hs, hp, hd]

/-- C8: for every line, with `path` its last tab-delimited field.
(1) If `path` contains `/src`, the service name of the line is the text of
`path` before the first occurrence of `/src` and the marker type is 1,
whatever else `path` contains; read in body mode, the line writes under that
name and under no other: it sets the sequence of that name in the revision
index to the old sequence with the current change id appended, unless it is a
delete line or the name is in the deletion set, and then it leaves the whole
state as it is. (2) A delete line with such a path, read in body mode, leaves
the whole state, the deletion set included, as it is. (3) If `path` has no
`/src` and contains `/pom.xml`, the service name is the text before the first
`/pom.xml` and the marker type is 2; read in body mode, a delete line puts
that name into the deletion set, and another line sets the sequence of that
name to the old one with the current change id appended, unless the name is
in the deletion set. (4) If `path` contains none of the three markers, the
line has no service name, and read in body mode it leaves the state, the
revision index and the deletion set included, as it is. -/
theorem marker_priority (idLength : Int) (st : ParseState) (line : Str) :
    (markSrc <:+: lastField line →
      ∃ k : Nat, classify (lastField line) = ((k : Int), 1) ∧
        lineService line = some ((lastField line).take k) ∧
        markSrc <+: (lastField line).drop k ∧
        (∀ j, j < k → ¬ markSrc <+: (lastField line).drop j) ∧
        (st.isHead = false → startsWith line markHeader = false →
          startsWith line markFooter = false →
          processLine idLength st line = some
            (if isDeleteLine line = true ∨
                mapGet false st.svcDelMap ((lastField line).take k) = true then st
             else
              { st with svcMap := mapSet st.svcMap ((lastField line).take k)
                          (appendRev (mapGet [] st.svcMap ((lastField line).take k))
                            st.currentId) }))) ∧
    (markSrc <:+: lastField line → st.isHead = false → isDeleteLine line = true →
      processLine idLength st line = some st) ∧
    (¬ markSrc <:+: lastField line → markPom <:+: lastField line →
      ∃ k : Nat, classify (lastField line) = ((k : Int), 2) ∧
        lineService line = some ((lastField line).take k) ∧
        markPom <+: (lastField line).drop k ∧
        (∀ j, j < k → ¬ markPom <+: (lastField line).drop j) ∧
        (st.isHead = false → startsWith line markHeader = false →
          startsWith line markFooter = false →
          processLine idLength st line = some
            (if isDeleteLine line = true then
              { st with svcDelMap := mapSet st.svcDelMap ((lastField line).take k) true }
             else if mapGet false st.svcDelMap ((lastField line).take k) = true then st
             else
              { st with svcMap := mapSet st.svcMap ((lastField line).take k)
                          (appendRev (mapGet [] st.svcMap ((lastField line).take k))
                            st.currentId) }))) ∧
    (¬ markSrc <:+: lastField line → ¬ markPom <:+: lastField line →
      ¬ markDocker <:+: lastField line →
      lineService line = none ∧
      (st.isHead = false → startsWith line markHeader = false →
        startsWith line markFooter = false → processLine idLength st line = some st)) := by
  refine ⟨?_, ?_, ?_, ?_⟩
  · intro h
    obtain ⟨k, hc, hpre, hall⟩ := classify_src (lastField line) h
    have hk : ¬ ((k : Int) = -1) := by omega
    have hs : lineService line = some ((lastField line).take k) := by
      simp [lineService, hc, hk]
    have hm : lineMarker line = 1 := by simp [lineMarker, hc]
    refine ⟨k, hc, hs, hpre, hall, ?_⟩
    intro hbody hn1 hn2
    rw [processLine_body idLength st line hbody hn1 hn2, bodyLine_eq, hs]
    cases hd : isDeleteLine line with
    | true => simp [hm]
    | false =>
      cases hx : mapGet false st.svcDelMap ((lastField line).take k) with
      | true => simp [hx]
      | false => simp [hx]
  · intro h hbody hdel
    obtain ⟨k, hc, _, _⟩ := classify_src (lastField line) h
    obtain ⟨hn1, hn2⟩ := delete_not_marker line hdel
    rw [processLine_body idLength st line hbody hn1 hn2, bodyLine_eq]
    have hm : lineMarker line = 1 := by simp [lineMarker, hc]
    split
    · rfl
    · simp [hdel, hm]
  · intro h1 h2
    obtain ⟨k, hc, hpre, hall⟩ := classify_pom (lastField line) h1 h2
    have hk : ¬ ((k : Int) = -1) := by omega
    have hs : lineService line = some ((lastField line).take k) := by
      simp [lineService, hc, hk]
    have hm : lineMarker line = 2 := by simp [lineMarker, hc]
    refine ⟨k, hc, hs, hpre, hall, ?_⟩
    intro hbody hn1 hn2
    rw [processLine_body idLength st line hbody hn1 hn2, bodyLine_eq, hs]
    cases hd : isDeleteLine line with
    | true => simp [hm]
    | false =>
      cases hx : mapGet false st.svcDelMap ((lastField line).take k) with
      | true => simp [hx]
      | false => simp [hx]
  · intro h1 h2 h3
    have hc := classify_none (lastField line) h1 h2 h3
    have hs : lineService line = none := by simp [lineService, hc]
    refine ⟨hs, ?_⟩
    intro hbody hn1 hn2
    rw [processLine_body idLength st line hbody hn1 hn2, bodyLine_eq, hs]

/-- Witness of C8: read after the sample header, the line
`M<TAB>d/pom.xml/src/Dockerfile` records the change id under `d/pom.xml`, the
text before `/src`; the delete line `D<TAB>x/pom.xml/Dockerfile` puts `x`, the
text before `/pom.xml`, into the deletion set; and the delete line
`D<TAB>d/pom.xml/src/Dockerfile` changes nothing. -/
theorem marker_priority_witness :
    markSrc <:+: lastField "M\td/pom.xml/src/Dockerfile".toList ∧
    sampleBodyState.isHead = false ∧
    startsWith "M\td/pom.xml/src/Dockerfile".toList markHeader = false ∧
    startsWith "M\td/pom.xml/src/Dockerfile".toList markFooter = false ∧
    processLine 7 sampleBodyState "M\td/pom.xml/src/Dockerfile".toList =
      some { sampleBodyState with svcMap := [("d/pom.xml".toList, [sampleChangeId])] } ∧
    (¬ markSrc <:+: lastField "D\tx/pom.xml/Dockerfile".toList ∧
      markPom <:+: lastField "D\tx/pom.xml/Dockerfile".toList) ∧
    processLine 7 sampleBodyState "D\tx/pom.xml/Dockerfile".toList =
      some { sampleBodyState with svcDelMap := [("x".toList, true)] } ∧
    isDeleteLine "D\td/pom.xml/src/Dockerfile".toList = true ∧
    processLine 7 sampleBodyState "D\td/pom.xml/src/Dockerfile".toList =
      some sampleBodyState := by
  have hsrc : markSrc <:+: lastField "M\td/pom.xml/src/Dockerfile".toList := by decide
  have hpom : ¬ markSrc <:+: lastField "D\tx/pom.xml/Dockerfile".toList ∧
      markPom <:+: lastField "D\tx/pom.xml/Dockerfile".toList := by decide
  obtain ⟨k, hk, _, _, _, hw⟩ :=
    (marker_priority 7 sampleBodyState "M\td/pom.xml/src/Dockerfile".toList).1 hsrc
  have hk9 : k = 9 := by
    have e : classify (lastField "M\td/pom.xml/src/Dockerfile".toList) = ((9 : Int), 1) := by
      decide
    rw [e] at hk
    have := congrArg Prod.fst hk
    simp only at this
    omega
  subst hk9
  obtain ⟨j, hj, _, _, _, hv⟩ :=
    (marker_priority 7 sampleBodyState "D\tx/pom.xml/Dockerfile".toList).2.2.1 hpom.1 hpom.2
  have hj1 : j = 1 := by
    have e : classify (lastField "D\tx/pom.xml/Dockerfile".toList) = ((1 : Int), 2) := by
      decide
    rw [e] at hj
    have := congrArg Prod.fst hj
    simp only at this
    omega
  subst hj1
  exact ⟨hsrc, by decide, by decide, by decide,
    (hw (by decide) (by decide) (by decide)).trans (by decide), hpom,
    (hv (by decide) (by decide) (by decide)).trans (by decide), by decide,
    (marker_priority 7 sampleBodyState "D\td/pom.xml/src/Dockerfile".toList).2.1
      (by decide) (by decide) (by decide)⟩

/-! ## Lemmas on the header lines -/

theorem goSlice_mid (a b d : Str) (lo hi : Int) (hlo : lo = (a.length : Int))
    (hhi : hi = (a.length : Int) + (b.length : Int)) :
    goSlice (a ++ b ++ d) lo hi = some b := by
  subst hlo hhi
  have hcond : (0 : Int) ≤ (a.length : Int) ∧
      (a.length : Int) ≤ (a.length : Int) + (b.length : Int) ∧
      (a.length : Int) + (b.length : Int) ≤ ((a ++ b ++ d).length : Int) := by
    simp only [List.length_append]
    push_cast
    omega
  unfold goSlice
  rw [if_pos hcond]
  have h1 : ((a.length : Int)).toNat = a.length := Int.toNat_natCast _
  have h2 : ((a.length : Int) + (b.length : Int) - (a.length : Int)).toNat = b.length := by
    omega
  rw [h1, h2, List.append_assoc, List.drop_left, List.take_left]

theorem strIndex_at (pre sub tail : Str)
    (hfirst : ∀ j, j < pre.length → ¬ sub <+: (pre ++ sub ++ tail).drop j) :
    strIndex (pre ++ sub ++ tail) sub = (pre.length : Int) := by
  have hat : sub <+: (pre ++ sub ++ tail).drop pre.length := by
    rw [List.append_assoc, List.drop_left]
    exact List.prefix_append _ _
  have hne : strIndex (pre ++ sub ++ tail) sub ≠ -1 := by
    rw [Ne, strIndex_neg_iff, not_not]
    exact ⟨pre, tail, rfl⟩
  obtain ⟨k, hv, _, hpre, hall⟩ := strIndex_first _ sub hne
  rw [hv]
  rcases Nat.lt_trichotomy k pre.length with hlt | heq | hgt
  · exact absurd hpre (hfirst k hlt)
  · rw [heq]
  · exact absurd hat (hall pre.length hgt)

theorem processLine_footer (idLength : Int) (st : ParseState) (foot : Str) :
    processLine idLength st (markFooter ++ foot) = some { st with isHead := false } := by
  have h1 : ¬ strIndex (markFooter ++ foot) markHeader = 0 := by
    rw [strIndex_zero_iff]
    rintro ⟨t, ht⟩
    simp [markHeader, markFooter] at ht
  have h2 : strIndex (markFooter ++ foot) markFooter = 0 := by
    rw [strIndex_zero_iff]
    exact List.prefix_append _ _
  simp [processLine, h1, h2]

theorem processLine_header (idLength : Int) (st : ParseState) (c rest : Str)
    (hc : (c.length : Int) = idLength)
    (hno : ¬ labelChangeId <:+: markHeader ++ c ++ rest) :
    processLine idLength st (markHeader ++ c ++ rest) =
      some { st with isHead := true, currentCommitId := c } := by
  have h1 : strIndex (markHeader ++ c ++ rest) markHeader = 0 := by
    rw [strIndex_zero_iff, List.append_assoc]
    exact List.prefix_append _ _
  have h2 : ¬ strIndex (markHeader ++ c ++ rest) markFooter = 0 := by
    rw [strIndex_zero_iff]
    rintro ⟨t, ht⟩
    simp [markHeader, markFooter] at ht
  have h3 : goSlice (markHeader ++ c ++ rest) 3 (3 + idLength) = some c :=
    goSlice_mid markHeader c rest 3 (3 + idLength) rfl (by rw [← hc]; rfl)
  have h4 : strIndex (markHeader ++ c ++ rest) labelChangeId = -1 :=
    (strIndex_neg_iff _ _).2 hno
  simp only [processLine, h1, if_true, h3, h2, if_false, headerLine, h4, ne_eq,
    not_true_eq_false]

theorem processLine_changeId (idLength : Int) (st : ParseState) (pre i post : Str)
    (hh : st.isHead = true) (hi : i.length = 41)
    (hm1 : ¬ markHeader <+: pre ++ labelChangeId ++ (i ++ post))
    (hm2 : ¬ markFooter <+: pre ++ labelChangeId ++ (i ++ post))
    (hfirst : ∀ j, j < pre.length →
      ¬ labelChangeId <+: (pre ++ labelChangeId ++ (i ++ post)).drop j) :
    processLine idLength st (pre ++ labelChangeId ++ (i ++ post)) =
      some { st with
        currentId := i
        changIdCommitIdMap := mapSet st.changIdCommitIdMap i st.currentCommitId } := by
  have h1 : ¬ strIndex (pre ++ labelChangeId ++ (i ++ post)) markHeader = 0 := by
    rw [strIndex_zero_iff]
    exact hm1
  have h2 : ¬ strIndex (pre ++ labelChangeId ++ (i ++ post)) markFooter = 0 := by
    rw [strIndex_zero_iff]
    exact hm2
  have h3 := strIndex_at pre labelChangeId (i ++ post) hfirst
  have h4 : goSlice (pre ++ labelChangeId ++ (i ++ post)) ((pre.length : Int) + 11)
      ((pre.length : Int) + 11 + 41) = some i := by
    have := goSlice_mid (pre ++ labelChangeId) i post ((pre.length : Int) + 11)
      ((pre.length : Int) + 11 + 41) (by simp [labelChangeId]) (by simp [labelChangeId, hi])
    rw [List.append_assoc] at this
    exact this
  have h5 : ¬ ((pre.length : Int) = -1) := by omega
  simp only [processLine, h1, if_false, h2, hh, if_true, headerLine, h3, ne_eq, h5,
    not_false_eq_true, h4]

theorem strSplit_nosep (sep : Char) (a : Str) (h : sep ∉ a) : strSplit sep a = [a] := by
  induction a with
  | nil => rfl
  | cons c a ih =>
    simp only [List.mem_cons, not_or] at h
    have hc : ¬ c = sep := fun e => h.1 e.symm
    simp [strSplit, hc, ih h.2]

theorem strSplit_append_sep (sep : Char) (a b : Str) (h : sep ∉ a) :
    strSplit sep (a ++ sep :: b) = a :: strSplit sep b := by
  induction a with
  | nil => simp [strSplit]
  | cons c a ih =>
    simp only [List.mem_cons, not_or] at h
    have hc : ¬ c = sep := fun e => h.1 e.symm
    simp [strSplit, hc, ih h.2]

/-! ## The parser: the example log -/

/-- C7, refuted as stated: on the example log, with the default length 7,
the parse succeeds and the revision index has no entry for `svcA`; the change
id is recorded under the service name `path/to/svcA`. -/
theorem example_log_svcA_empty :
    readRevList 7 (some exampleLog) =
      ReadResult.ok (exampleState "abcdef1".toList sampleChangeId) ∧
    mapGet [] (exampleState "abcdef1".toList sampleChangeId).svcMap "svcA".toList = [] ∧
    mapGet [] (exampleState "abcdef1".toList sampleChangeId).svcMap "svcA".toList ≠
      [sampleChangeId] := by
  decide

/-- C7, amended: take a log of four lines (with or without a final newline):
`"@@@"`, a commit token `c` of the configured length and further text without
the label `"Change-Id: "`; a line that starts with neither marker and whose
first `"Change-Id: "` is followed by the 41-byte token `i`; a line that starts
with `"###"`; the body line `M<TAB>path/to/svcA/src/Foo.java`. Parsing it from
the empty state succeeds with `RevisionIndex["path/to/svcA"] = [i]` (the
service name is the path up to the first `/src`) and
`ChangeToCommitMap[i] = c`. -/
theorem example_log_parsed (idLength : Int) (c rest pre i post foot trail : Str)
    (hc : (c.length : Int) = idLength) (hi : i.length = 41)
    (hno : ¬ labelChangeId <:+: markHeader ++ c ++ rest)
    (hm1 : ¬ markHeader <+: pre ++ labelChangeId ++ (i ++ post))
    (hm2 : ¬ markFooter <+: pre ++ labelChangeId ++ (i ++ post))
    (hfirst : ∀ j, j < pre.length →
      ¬ labelChangeId <+: (pre ++ labelChangeId ++ (i ++ post)).drop j)
    (hn1 : '\n' ∉ markHeader ++ c ++ rest)
    (hn2 : '\n' ∉ pre ++ labelChangeId ++ (i ++ post))
    (hn3 : '\n' ∉ markFooter ++ foot)
    (htrail : trail = [] ∨ trail = ['\n']) :
    readRevList idLength
        (some ((markHeader ++ c ++ rest) ++ '\n' ::
          ((pre ++ labelChangeId ++ (i ++ post)) ++ '\n' ::
            ((markFooter ++ foot) ++ '\n' :: (exampleBody ++ trail))))) =
      ReadResult.ok (exampleState c i) ∧
    mapGet [] (exampleState c i).svcMap "path/to/svcA".toList = [i] ∧
    mapGet [] (exampleState c i).changIdCommitIdMap i = c := by
  have hp1 := processLine_header idLength initState c rest hc hno
  have hp2 := processLine_changeId idLength
    { initState with isHead := true, currentCommitId := c } pre i post rfl hi hm1 hm2 hfirst
  have hp3 := processLine_footer idLength
    { initState with isHead := true, currentCommitId := c, currentId := i,
                     changIdCommitIdMap := mapSet [] i c } foot
  have hs : lineService exampleBody = some "path/to/svcA".toList := by decide
  have hd : isDeleteLine exampleBody = false := by decide
  have ha : startsWith exampleBody markHeader = false := by decide
  have hb : startsWith exampleBody markFooter = false := by decide
  have hp4 : processLine idLength
      { initState with isHead := false, currentCommitId := c, currentId := i,
                       changIdCommitIdMap := mapSet [] i c } exampleBody =
      some (exampleState c i) := by
    rw [processLine_body idLength _ exampleBody rfl ha hb, bodyLine_eq, hs]
    simp [hd, initState, mapGet, mapSet, appendRev, exampleState]
  have hp5 : processLine idLength (exampleState c i) [] = some (exampleState c i) := by
    have hs5 : lineService [] = none := by decide
    rw [processLine_body idLength _ [] rfl (by decide) (by decide), bodyLine_eq, hs5]
  have hrun4 : runLines idLength initState
      [markHeader ++ c ++ rest, pre ++ labelChangeId ++ (i ++ post), markFooter ++ foot,
        exampleBody] = some (exampleState c i) := by
    simp only [runLines, hp1]
    simp only [initState] at hp2 hp3 hp4 ⊢
    simp only [hp2, hp3, hp4]
  have hrun5 : runLines idLength initState
      [markHeader ++ c ++ rest, pre ++ labelChangeId ++ (i ++ post), markFooter ++ foot,
        exampleBody, []] = some (exampleState c i) := by
    simp only [runLines, hp1]
    simp only [initState] at hp2 hp3 hp4 ⊢
    simp only [hp2, hp3, hp4, hp5]
  refine ⟨?_, by simp [exampleState, mapGet], by simp [exampleState, mapGet]⟩
  unfold readRevList
  simp only
  rw [strSplit_append_sep _ _ _ hn1, strSplit_append_sep _ _ _ hn2,
    strSplit_append_sep _ _ _ hn3]
  rcases htrail with rfl | rfl
  · rw [List.append_nil, strSplit_nosep _ exampleBody (by decide), hrun4]
  · rw [strSplit_append_sep _ _ _ (by decide)]
    have : strSplit '\n' [] = [[]] := rfl
    rw [this, hrun5]

/-- Witness of the amended C7 on the example log. -/
theorem example_log_parsed_witness :
    readRevList 7
        (some ((markHeader ++ "abcdef1".toList ++ " fix the build".toList) ++ '\n' ::
          (([] ++ labelChangeId ++ (sampleChangeId ++ [])) ++ '\n' ::
            ((markFooter ++ []) ++ '\n' :: (exampleBody ++ []))))) =
      ReadResult.ok (exampleState "abcdef1".toList sampleChangeId) ∧
    mapGet [] (exampleState "abcdef1".toList sampleChangeId).svcMap "path/to/svcA".toList =
      [sampleChangeId] ∧
    mapGet [] (exampleState "abcdef1".toList sampleChangeId).changIdCommitIdMap
      sampleChangeId = "abcdef1".toList :=
  example_log_parsed 7 "abcdef1".toList " fix the build".toList [] sampleChangeId [] [] []
    (by decide) (by decide) (by decide) (by decide) (by decide)
    (fun j hj => absurd hj (Nat.not_lt_zero j)) (by decide) (by decide) (by decide)
    (Or.inl rfl)

/-! ## The parser: out-of-range slices -/

theorem goSlice_eq_none_iff (s : Str) (lo hi : Int) :
    goSlice s lo hi = none ↔ ¬ (0 ≤ lo ∧ lo ≤ hi ∧ hi ≤ (s.length : Int)) := by
  unfold goSlice
  split <;> simp_all

theorem strIndex_nonneg (s sub : Str) (h : strIndex s sub ≠ -1) : 0 ≤ strIndex s sub := by
  obtain ⟨k, hv, _, _, _⟩ := strIndex_first s sub h
  rw [hv]
  exact Int.natCast_nonneg k

theorem headerLine_eq_none_iff (st : ParseState) (line : Str) :
    headerLine st line = none ↔ changeIdSliceFails line = true := by
  unfold headerLine changeIdSliceFails
  simp only
  by_cases hk : strIndex line labelChangeId = -1
  · simp [hk]
  · have hnn := strIndex_nonneg line labelChangeId hk
    simp only [ne_eq, hk, not_false_eq_true, if_true, decide_True, Bool.true_and,
      decide_eq_true_eq]
    cases hs : goSlice line (strIndex line labelChangeId + 11)
        (strIndex line labelChangeId + 11 + 41) with
    | none =>
      have := (goSlice_eq_none_iff _ _ _).1 hs
      simp only [true_iff]
      omega
    | some c =>
      have hne : goSlice line (strIndex line labelChangeId + 11)
          (strIndex line labelChangeId + 11 + 41) ≠ none := by simp [hs]
      rw [Ne, goSlice_eq_none_iff, not_not] at hne
      simp only [reduceCtorEq, false_iff]
      omega

theorem processLine_eq_none_iff (idLength : Int) (st : ParseState) (line : Str) :
    processLine idLength st line = none ↔
      headerSliceFails idLength line = true ∨
      ((st.isHead = true ∨ startsWith line markHeader = true) ∧
        startsWith line markFooter = false ∧ changeIdSliceFails line = true) := by
  unfold processLine
  simp only
  by_cases h1 : strIndex line markHeader = 0
  · have hsw : startsWith line markHeader = true := by simp [startsWith, h1]
    simp only [h1, if_true, hsw, or_true, true_and]
    cases hs : goSlice line 3 (3 + idLength) with
    | none =>
      have := (goSlice_eq_none_iff _ _ _).1 hs
      have hf : headerSliceFails idLength line = true := by
        simp only [headerSliceFails, hsw, Bool.true_and, Bool.not_eq_true',
          Bool.and_eq_false_imp, decide_eq_true_eq, decide_eq_false_iff_not]
        intro h0
        omega
      simp [hf]
    | some c =>
      have hne : goSlice line 3 (3 + idLength) ≠ none := by simp [hs]
      rw [Ne, goSlice_eq_none_iff, not_not] at hne
      have hf : headerSliceFails idLength line = false := by
        simp only [headerSliceFails, hsw, Bool.true_and, Bool.not_eq_false',
          Bool.and_eq_true, decide_eq_true_eq]
        omega
      simp only [hf, Bool.false_eq_true, false_or]
      by_cases h2 : strIndex line markFooter = 0
      · simp [h2, startsWith]
      · simp only [h2, if_false, if_true, headerLine_eq_none_iff, startsWith,
          decide_False, true_and]
  · have hsw : startsWith line markHeader = false := by simp [startsWith, h1]
    have hf : headerSliceFails idLength line = false := by simp [headerSliceFails, hsw]
    simp only [h1, if_false, hsw, hf, Bool.false_eq_true, false_or, or_false]
    by_cases h2 : strIndex line markFooter = 0
    · simp [h2, startsWith]
    · simp only [h2, if_false, startsWith, decide_False, true_and]
      cases hh : st.isHead with
      | true => simp [headerLine_eq_none_iff]
      | false => simp

theorem runLines_fits (idLength : Int) (lines : List Str)
    (h : ∀ l ∈ lines, lineFits idLength l = true) :
    ∀ st : ParseState, ∃ st', runLines idLength st lines = some st' := by
  induction lines with
  | nil => intro st; exact ⟨st, rfl⟩
  | cons l ls ih =>
    intro st
    have hl := h l (List.mem_cons_self _ _)
    simp only [lineFits, Bool.and_eq_true, Bool.not_eq_true'] at hl
    cases hp : processLine idLength st l with
    | none =>
      rw [processLine_eq_none_iff] at hp
      rcases hp with hp | ⟨_, _, hp⟩
      · rw [hl.1] at hp
        exact absurd hp (by decide)
      · rw [hl.2] at hp
        exact absurd hp (by decide)
    | some st1 =>
      obtain ⟨st', hst'⟩ := ih (fun l' hl' => h l' (List.mem_cons_of_mem _ hl')) st1
      exact ⟨st', by simp [runLines, hp, hst']⟩

/-- C9, the code at the failing inputs: with the default length 7, a log
whose `"@@@"` line has fewer than 10 bytes, and a log whose header-mode line
has fewer than 41 bytes after the label `"Change-Id: "`, are not read to the
end: the slice expression of line 164, respectively of line 177, is out of
range, the run stops there and no success is returned, where the claim has
the line skipped. -/
theorem short_lines_panic :
    readRevList 7 (some "@@@abc\nChange-Id: I0123456789012345678901234567890123456789".toList) =
      ReadResult.panicked ∧
    readRevList 7 (some "@@@abcdef1 fix\nChange-Id: I0123\n###\nM\ta/src/x".toList) =
      ReadResult.panicked := by
  decide

/-- The lines on which the loop body of `readRevList` fails. (1) When no
line of the input can take a slice out of range, that is every line that
starts with `"@@@"` has at least `3 + idLength` bytes (`idLength` not
negative) and every line that holds `"Change-Id: "` has at least 41 bytes
after its first occurrence, `readRevList` runs to the end of the stream and
returns success, whatever mode the stream ends in. (2) The loop body fails on
a line exactly when the line starts with `"@@@"` and is shorter than
`3 + idLength` bytes (or `idLength` is negative), or when it is read in
header mode, does not start with `"###"`, and fewer than 41 bytes follow its
first `"Change-Id: "`. -/
theorem readRevList_success (idLength : Int) :
    (∀ content : Str, (∀ l ∈ strSplit '\n' content, lineFits idLength l = true) →
      ∃ st, readRevList idLength (some content) = ReadResult.ok st) ∧
    (∀ (st : ParseState) (line : Str),
      processLine idLength st line = none ↔
        headerSliceFails idLength line = true ∨
        ((st.isHead = true ∨ startsWith line markHeader = true) ∧
          startsWith line markFooter = false ∧ changeIdSliceFails line = true)) := by
  refine ⟨?_, processLine_eq_none_iff idLength⟩
  intro content h
  obtain ⟨st, hst⟩ := runLines_fits idLength _ h initState
  exact ⟨st, by simp [readRevList, hst]⟩

/-- Example of `readRevList_success`: a stream that ends in header mode,
right after the change-id line, returns success. -/
theorem readRevList_success_witness :
    (∀ l ∈ strSplit '\n'
        "@@@abcdef1 fix\nChange-Id: I0123456789012345678901234567890123456789".toList,
      lineFits 7 l = true) ∧
    (∃ st, readRevList 7
        (some "@@@abcdef1 fix\nChange-Id: I0123456789012345678901234567890123456789".toList) =
      ReadResult.ok st) ∧
    (runLines 7 initState (strSplit '\n'
        "@@@abcdef1 fix\nChange-Id: I0123456789012345678901234567890123456789".toList)).map
      (fun st => st.isHead) = some true :=
  ⟨by decide,
    (readRevList_success 7).1
      "@@@abcdef1 fix\nChange-Id: I0123456789012345678901234567890123456789".toList
      (by decide),
    by decide⟩

/-! ## The parser: the revision index as a trace of the stream -/

theorem collapse_cons_cons (a b : Str) (t : List Str) :
    collapse (a :: b :: t) = if a = b then collapse (b :: t) else a :: collapse (b :: t) := by
  simp only [collapse]

theorem collapse_of_chain (l : List Str) (h : List.Chain' (· ≠ ·) l) : collapse l = l := by
  induction l with
  | nil => rfl
  | cons a l ih =>
    cases l with
    | nil => rfl
    | cons b t =>
      rw [List.chain'_cons] at h
      rw [collapse_cons_cons, if_neg h.1, ih h.2]

theorem collapse_dup (p : List Str) (a : Str) (t : List Str) :
    collapse (p ++ a :: a :: t) = collapse (p ++ a :: t) := by
  induction p with
  | nil =>
    simp only [List.nil_append]
    rw [collapse_cons_cons, if_pos rfl]
  | cons x p ih =>
    cases p with
    | nil =>
      simp only [List.cons_append, List.nil_append] at ih ⊢
      rw [collapse_cons_cons x a (a :: t), collapse_cons_cons x a t, ih]
    | cons y q =>
      simp only [List.cons_append] at ih ⊢
      rw [collapse_cons_cons x y, collapse_cons_cons x y, ih]

theorem collapse_head (l : List Str) : (collapse l).head? = l.head? := by
  induction l with
  | nil => rfl
  | cons a l ih =>
    cases l with
    | nil => rfl
    | cons b t =>
      rw [collapse_cons_cons]
      split
      · rename_i hab
        rw [ih, hab]
        rfl
      · rfl

theorem collapse_appendRev (l : List Str) (id : Str) (rest : List Str) :
    collapse (appendRev l id ++ rest) = collapse (l ++ id :: rest) := by
  unfold appendRev
  split
  · rename_i h
    obtain ⟨_, hlast⟩ := h
    obtain ⟨p, rfl⟩ : ∃ p, l = p ++ [id] := by
      rcases List.eq_nil_or_concat l with rfl | ⟨p, b, rfl⟩
      · simp at hlast
      · simp only [List.concat_eq_append, List.getLast?_append, List.getLast?_singleton,
          Option.or, Option.some.injEq] at hlast
        exact ⟨p, by rw [hlast]; simp⟩
    have := collapse_dup p id rest
    simpa [List.append_assoc] using this.symm
  · simp [List.append_assoc]

theorem foldl_appendRev (ids : List Str) :
    ∀ l : List Str, List.Chain' (· ≠ ·) l →
      ids.foldl appendRev l = collapse (l ++ ids) := by
  induction ids with
  | nil =>
    intro l h
    simp [collapse_of_chain l h]
  | cons a ids ih =>
    intro l h
    rw [List.foldl_cons, ih _ (appendRev_chain l a h), collapse_appendRev]

theorem runLines_trace (idLength : Int) (s : Str) (lines : List Str) :
    ∀ st st' : ParseState, runLines idLength st lines = some st' →
      mapGet [] st'.svcMap s =
        (acceptedIds idLength s st lines).foldl appendRev (mapGet [] st.svcMap s) := by
  induction lines with
  | nil =>
    intro st st' h
    simp only [runLines, Option.some.injEq] at h
    subst h
    rfl
  | cons l ls ih =>
    intro st st' h
    simp only [runLines] at h
    cases hp : processLine idLength st l with
    | none => simp [hp] at h
    | some st1 =>
      simp only [hp] at h
      rw [ih st1 st' h]
      simp only [acceptedIds, hp]
      rcases processLine_cases idLength st st1 l hp with ⟨hm, _, hmode⟩ | ⟨rfl, hh, ha, hb⟩
      · have hnot : ¬ (st.isHead = false ∧ acceptedFor l s = true ∧
            mapGet false st.svcDelMap s = false) := by
          rintro ⟨hh, hacc, _⟩
          simp only [acceptedFor, Bool.and_eq_true, Bool.not_eq_true',
            decide_eq_true_eq] at hacc
          rcases hmode with h1 | h1 | h1
          · rw [hacc.1.1.1] at h1
            exact absurd h1 (by decide)
          · rw [hacc.1.1.2] at h1
            exact absurd h1 (by decide)
          · rw [hh] at h1
            exact absurd h1 (by decide)
        rw [if_neg hnot, hm]
      · have hiff : (st.isHead = false ∧ acceptedFor l s = true ∧
            mapGet false st.svcDelMap s = false) ↔
            (lineService l = some s ∧ isDeleteLine l = false ∧
              mapGet false st.svcDelMap s = false) := by
          simp only [acceptedFor, ha, hb, hh, Bool.not_false, Bool.true_and,
            Bool.and_eq_true, Bool.not_eq_true', decide_eq_true_eq, true_and]
          tauto
        rw [bodyLine_svcMap]
        by_cases hc : lineService l = some s ∧ isDeleteLine l = false ∧
            mapGet false st.svcDelMap s = false
        · rw [if_pos hc, if_pos (hiff.2 hc), List.foldl_cons]
        · rw [if_neg hc, if_neg (fun h => hc (hiff.1 h))]

/-- C10: for every stream parsed from the empty state and every service `s`,
the sequence of `s` in the revision index is the list, in stream order, of
the change ids in effect at the accepted body lines that name `s`, with
consecutive equal ids collapsed to one; so its element at index 0 (the one
`resolveSvc` reads as `latestRevId`) is the change id of the first accepted
line that names `s`. -/
theorem readRevList_index_trace (idLength : Int) (lines : List Str) (st : ParseState)
    (s : Str) (h : runLines idLength initState lines = some st) :
    mapGet [] st.svcMap s = collapse (acceptedIds idLength s initState lines) ∧
    (mapGet [] st.svcMap s).head? = (acceptedIds idLength s initState lines).head? := by
  have h1 := runLines_trace idLength s lines initState st h
  have h2 : mapGet [] st.svcMap s = collapse (acceptedIds idLength s initState lines) := by
    rw [h1, foldl_appendRev _ _ (by simp [initState, mapGet])]
    simp [initState, mapGet]
  exact ⟨h2, by rw [h2, collapse_head]⟩

/-- Witness of C10: two entries; service `a` is named twice under the first
change id and once under the second. -/
theorem readRevList_index_trace_witness :
    runLines 7 initState
        (sampleHeader ++ ["M\ta/src/Foo.java".toList, "M\ta/pom.xml".toList]) =
      some sampleStateA ∧
    acceptedIds 7 "a".toList initState
        (sampleHeader ++ ["M\ta/src/Foo.java".toList, "M\ta/pom.xml".toList]) =
      [sampleChangeId, sampleChangeId] ∧
    mapGet [] sampleStateA.svcMap "a".toList =
      collapse (acceptedIds 7 "a".toList initState
        (sampleHeader ++ ["M\ta/src/Foo.java".toList, "M\ta/pom.xml".toList])) :=
  ⟨by decide, by decide,
    (readRevList_index_trace 7
      (sampleHeader ++ ["M\ta/src/Foo.java".toList, "M\ta/pom.xml".toList]) sampleStateA
      "a".toList (by decide)).1⟩

/-! ## The parser: the change id across log entries -/

theorem runLines_append (idLength : Int) (a b : List Str) :
    ∀ st : ParseState, runLines idLength st (a ++ b) =
      match runLines idLength st a with
      | none => none
      | some st1 => runLines idLength st1 b := by
  induction a with
  | nil => intro st; rfl
  | cons l a ih =>
    intro st
    simp only [List.cons_append, runLines]
    cases processLine idLength st l with
    | none => rfl
    | some st1 => exact ih st1

theorem acceptedIds_append (idLength : Int) (s : Str) (a b : List Str) :
    ∀ st st1 : ParseState, runLines idLength st a = some st1 →
      acceptedIds idLength s st (a ++ b) =
        acceptedIds idLength s st a ++ acceptedIds idLength s st1 b := by
  induction a with
  | nil =>
    intro st st1 h
    simp only [runLines, Option.some.injEq] at h
    subst h
    rfl
  | cons l a ih =>
    intro st st1 h
    simp only [runLines] at h
    cases hp : processLine idLength st l with
    | none => simp [hp] at h
    | some st2 =>
      simp only [hp] at h
      have hih := ih st2 st1 h
      simp only [List.cons_append, acceptedIds, hp]
      split
      · exact congrArg (st.currentId :: ·) hih
      · exact hih

theorem processLine_currentId (idLength : Int) (st st' : ParseState) (line : Str)
    (h : processLine idLength st line = some st') :
    st'.currentId = st.currentId ∨
      (labelChangeId <:+: line ∧
        (st.isHead = true ∨ startsWith line markHeader = true)) := by
  by_cases hl : labelChangeId <:+: line
  · by_cases hm : st.isHead = true ∨ startsWith line markHeader = true
    · exact Or.inr ⟨hl, hm⟩
    · left
      simp only [not_or, Bool.not_eq_true] at hm
      rcases processLine_cases idLength st st' line h with ⟨_, _, h1 | h1 | h1⟩ | ⟨rfl, _, _, _⟩
      · rw [hm.2] at h1
        exact absurd h1 (by decide)
      · unfold processLine at h
        have ha : ¬ strIndex line markHeader = 0 := by
          simpa [startsWith] using hm.2
        have hb : strIndex line markFooter = 0 := by
          simpa [startsWith] using h1
        simp only [ha, if_false, hb, if_true, Option.some.injEq] at h
        rw [← h]
      · rw [hm.1] at h1
        exact absurd h1 (by decide)
      · exact (bodyLine_keeps st line).1
  · left
    have hidx : strIndex line labelChangeId = -1 := (strIndex_neg_iff _ _).2 hl
    unfold processLine at h
    simp only [headerLine, hidx, ne_eq, not_true_eq_false, if_false] at h
    split at h
    · simp at h
    · rename_i st1 hst1
      have h1 : st1.currentId = st.currentId := by
        split at hst1
        · split at hst1
          · simp at hst1
          · simp only [Option.some.injEq] at hst1
            rw [← hst1]
        · simp only [Option.some.injEq] at hst1
          rw [← hst1]
      split at h
      · simp only [Option.some.injEq] at h
        rw [← h]
        exact h1
      · split at h
        · simp only [Option.some.injEq] at h
          rw [← h]
          exact h1
        · simp only [Option.some.injEq] at h
          rw [← h, (bodyLine_keeps st1 line).1]
          exact h1

theorem processLine_isHead_false (idLength : Int) (st st' : ParseState) (line : Str)
    (h : processLine idLength st line = some st') (hh : st.isHead = false)
    (hm : startsWith line markHeader = false) : st'.isHead = false := by
  have ha : ¬ strIndex line markHeader = 0 := by simpa [startsWith] using hm
  unfold processLine at h
  simp only [ha, if_false, hh, Bool.false_eq_true] at h
  split at h
  · simp only [Option.some.injEq] at h
    rw [← h]
  · simp only [Option.some.injEq] at h
    rw [← h, (bodyLine_keeps st line).2.1, hh]

theorem acceptedIds_nolabel (idLength : Int) (s : Str) (lines : List Str) :
    ∀ st st' : ParseState, (∀ l ∈ lines, ¬ labelChangeId <:+: l) →
      runLines idLength st lines = some st' →
      st'.currentId = st.currentId ∧
        ∀ x ∈ acceptedIds idLength s st lines, x = st.currentId := by
  induction lines with
  | nil =>
    intro st st' _ h
    simp only [runLines, Option.some.injEq] at h
    subst h
    exact ⟨rfl, by simp [acceptedIds]⟩
  | cons l ls ih =>
    intro st st' hno h
    simp only [runLines] at h
    cases hp : processLine idLength st l with
    | none => simp [hp] at h
    | some st1 =>
      simp only [hp] at h
      have hid : st1.currentId = st.currentId := by
        rcases processLine_currentId idLength st st1 l hp with h1 | ⟨h1, _⟩
        · exact h1
        · exact absurd h1 (hno l (List.mem_cons_self _ _))
      obtain ⟨h1, h2⟩ := ih st1 st' (fun l' hl' => hno l' (List.mem_cons_of_mem _ hl')) h
      refine ⟨h1.trans hid, ?_⟩
      intro x hx
      simp only [acceptedIds, hp] at hx
      split at hx
      · rcases List.mem_cons.1 hx with rfl | hx
        · rfl
        · exact (h2 x hx).trans hid
      · exact (h2 x hx).trans hid

theorem acceptedIds_bodymode (idLength : Int) (s : Str) (lines : List Str) :
    ∀ st st' : ParseState, st.isHead = false →
      (∀ l ∈ lines, startsWith l markHeader = false) →
      runLines idLength st lines = some st' →
      st'.currentId = st.currentId ∧
        ∀ x ∈ acceptedIds idLength s st lines, x = st.currentId := by
  induction lines with
  | nil =>
    intro st st' _ _ h
    simp only [runLines, Option.some.injEq] at h
    subst h
    exact ⟨rfl, by simp [acceptedIds]⟩
  | cons l ls ih =>
    intro st st' hh hno h
    simp only [runLines] at h
    cases hp : processLine idLength st l with
    | none => simp [hp] at h
    | some st1 =>
      simp only [hp] at h
      have hl := hno l (List.mem_cons_self _ _)
      have hid : st1.currentId = st.currentId := by
        rcases processLine_currentId idLength st st1 l hp with h1 | ⟨_, h1 | h1⟩
        · exact h1
        · rw [hh] at h1
          exact absurd h1 (by decide)
        · rw [hl] at h1
          exact absurd h1 (by decide)
      have hh1 := processLine_isHead_false idLength st st1 l hp hh hl
      obtain ⟨h1, h2⟩ :=
        ih st1 st' hh1 (fun l' hl' => hno l' (List.mem_cons_of_mem _ hl')) h
      refine ⟨h1.trans hid, ?_⟩
      intro x hx
      simp only [acceptedIds, hp] at hx
      split at hx
      · rcases List.mem_cons.1 hx with rfl | hx
        · rfl
        · exact (h2 x hx).trans hid
      · exact (h2 x hx).trans hid

theorem appendRev_idem (l : List Str) (a : Str) :
    appendRev (appendRev l a) a = appendRev l a := by
  by_cases h : l.length > 0 ∧ l.getLast? = some a
  · have e : appendRev l a = l := by simp only [appendRev, if_pos h]
    rw [e, e]
  · have e : appendRev l a = l ++ [a] := by simp only [appendRev, if_neg h]
    rw [e]
    simp only [appendRev]
    rw [if_pos ⟨by simp, by simp⟩]

theorem foldl_appendRev_const (c : Str) (ids : List Str) (h : ∀ x ∈ ids, x = c) :
    ∀ l : List Str, ids.foldl appendRev l = l ∨ ids.foldl appendRev l = appendRev l c := by
  induction ids with
  | nil => intro l; exact Or.inl rfl
  | cons a ids ih =>
    intro l
    have ha : a = c := h a (List.mem_cons_self _ _)
    subst ha
    right
    rw [List.foldl_cons]
    rcases ih (fun x hx => h x (List.mem_cons_of_mem _ hx)) (appendRev l a) with h1 | h1
    · exact h1
    · rw [h1, appendRev_idem]

/-- A log entry without change id, read from any state: header lines without
the label, a footer line, body lines; the change id after it is the one
before it and every accepted line is recorded under it. -/
theorem entry_without_label (idLength : Int) (st st' : ParseState) (hdr body : List Str)
    (foot : Str) (hno : ∀ l ∈ hdr, ¬ labelChangeId <:+: l)
    (hbody : ∀ l ∈ body, startsWith l markHeader = false)
    (hrun : runLines idLength st (hdr ++ (markFooter ++ foot) :: body) = some st') :
    st'.currentId = st.currentId ∧
    ∀ s : Str,
      (∀ x ∈ acceptedIds idLength s st (hdr ++ (markFooter ++ foot) :: body),
        x = st.currentId) ∧
      mapGet [] st'.svcMap s =
        (acceptedIds idLength s st (hdr ++ (markFooter ++ foot) :: body)).foldl appendRev
          (mapGet [] st.svcMap s) := by
  have hsplit := runLines_append idLength hdr ((markFooter ++ foot) :: body) st
  rw [hrun] at hsplit
  cases h1 : runLines idLength st hdr with
  | none => simp [h1] at hsplit
  | some st1 =>
    simp only [h1, runLines, processLine_footer] at hsplit
    obtain ⟨hid1, hacc1⟩ := acceptedIds_nolabel idLength [] hdr st st1 hno h1
    have hbm : ∀ s, st'.currentId = st1.currentId ∧
        ∀ x ∈ acceptedIds idLength s { st1 with isHead := false } body,
          x = st1.currentId := fun s =>
      acceptedIds_bodymode idLength s body { st1 with isHead := false } st' rfl hbody
        hsplit.symm
    refine ⟨((hbm []).1).trans hid1, ?_⟩
    intro s
    refine ⟨?_, runLines_trace idLength s _ st st' hrun⟩
    intro x hx
    rw [acceptedIds_append idLength s hdr _ st st1 h1] at hx
    rcases List.mem_append.1 hx with hx | hx
    · exact (acceptedIds_nolabel idLength s hdr st st1 hno h1).2 x hx
    · simp only [acceptedIds, processLine_footer] at hx
      have hfoot : acceptedFor (markFooter ++ foot) s = false := by
        have : startsWith (markFooter ++ foot) markFooter = true := by
          simp only [startsWith, decide_eq_true_eq, strIndex_zero_iff]
          exact List.prefix_append _ _
        simp [acceptedFor, this]
      simp only [hfoot, Bool.false_eq_true, false_and, and_false, if_false] at hx
      exact ((hbm s).2 x hx).trans hid1

/-- C20: the current change id is not reset by a new log entry. (1) Take a
stream, read from any state, made of: an entry whose header is the line
`"@@@"`, commit token `c`, further text without the label `"Change-Id: "`,
followed by a line whose first `"Change-Id: "` is followed by the 41-byte
token `i`; any further lines `rest1` without the label (the rest of that
entry, and whole entries without change id); then an entry whose header, the
line `"@@@" c2 ...` and the lines `hdr2`, holds no label, its footer line and
its body lines. Then the change id at the end is `i`, it is `i` where the
last entry starts, every accepted body line of the last entry is recorded
under `i`, and the sequence of every service at the end is its sequence at
the start of the last entry with these ids appended. (2) For every state and
every entry made of header lines without the label, a line that starts with
`"###"`, and body lines (none of which starts with `"@@@"`), the change id
after the entry is the one before it, every accepted body line is recorded
under that id, and the sequence of every service is its old sequence with
these ids appended. (3) In a stream parsed from the empty state in which no
line holds the label, every accepted line is recorded under the empty string.
(4) A first line that is an accepted body line is read in body mode, before
any `"@@@"` header, and recorded under the empty string. -/
theorem currentId_not_reset (idLength : Int) :
    (∀ (st st' : ParseState) (c rest pre i post : Str) (rest1 : List Str) (c2 rest2 : Str)
        (hdr2 : List Str) (foot : Str) (body2 : List Str),
      (c.length : Int) = idLength → ¬ labelChangeId <:+: markHeader ++ c ++ rest →
      i.length = 41 →
      ¬ markHeader <+: pre ++ labelChangeId ++ (i ++ post) →
      ¬ markFooter <+: pre ++ labelChangeId ++ (i ++ post) →
      (∀ j, j < pre.length →
        ¬ labelChangeId <+: (pre ++ labelChangeId ++ (i ++ post)).drop j) →
      (∀ l ∈ rest1, ¬ labelChangeId <:+: l) →
      ¬ labelChangeId <:+: markHeader ++ c2 ++ rest2 →
      (∀ l ∈ hdr2, ¬ labelChangeId <:+: l) →
      (∀ l ∈ body2, startsWith l markHeader = false) →
      runLines idLength st
          ((markHeader ++ c ++ rest) :: (pre ++ labelChangeId ++ (i ++ post)) ::
            (rest1 ++ (markHeader ++ c2 ++ rest2) ::
              (hdr2 ++ (markFooter ++ foot) :: body2))) = some st' →
      st'.currentId = i ∧
      ∃ st2 : ParseState,
        runLines idLength st
            ((markHeader ++ c ++ rest) :: (pre ++ labelChangeId ++ (i ++ post)) :: rest1) =
          some st2 ∧
        st2.currentId = i ∧
        ∀ s : Str,
          (∀ x ∈ acceptedIds idLength s st2
              ((markHeader ++ c2 ++ rest2) :: (hdr2 ++ (markFooter ++ foot) :: body2)),
            x = i) ∧
          mapGet [] st'.svcMap s =
            (acceptedIds idLength s st2
              ((markHeader ++ c2 ++ rest2) :: (hdr2 ++ (markFooter ++ foot) :: body2))).foldl
              appendRev (mapGet [] st2.svcMap s)) ∧
    (∀ (st st' : ParseState) (hdr body : List Str) (foot : Str),
      (∀ l ∈ hdr, ¬ labelChangeId <:+: l) →
      (∀ l ∈ body, startsWith l markHeader = false) →
      runLines idLength st (hdr ++ (markFooter ++ foot) :: body) = some st' →
      st'.currentId = st.currentId ∧
      ∀ s : Str,
        (∀ x ∈ acceptedIds idLength s st (hdr ++ (markFooter ++ foot) :: body),
          x = st.currentId) ∧
        mapGet [] st'.svcMap s =
          (acceptedIds idLength s st (hdr ++ (markFooter ++ foot) :: body)).foldl appendRev
            (mapGet [] st.svcMap s)) ∧
    (∀ (lines : List Str) (st' : ParseState),
      (∀ l ∈ lines, ¬ labelChangeId <:+: l) →
      runLines idLength initState lines = some st' →
      ∀ s : Str,
        (∀ x ∈ acceptedIds idLength s initState lines, x = []) ∧
        (mapGet [] st'.svcMap s = [] ∨ mapGet [] st'.svcMap s = [[]])) ∧
    (∀ l s : Str, acceptedFor l s = true →
      ∃ st', runLines idLength initState [l] = some st' ∧
        mapGet [] st'.svcMap s = [[]]) := by
  refine ⟨?_, ?_, ?_, ?_⟩
  · intro st st' c rest pre i post rest1 c2 rest2 hdr2 foot body2 hc hno hi hm1 hm2 hfirst
      hrest1 hno2 hhdr2 hbody2 hrun
    have hp1 := processLine_header idLength st c rest hc hno
    have hp2 := processLine_changeId idLength
      { st with isHead := true, currentCommitId := c } pre i post rfl hi hm1 hm2 hfirst
    simp only [runLines, hp1, hp2] at hrun
    have hsplit := runLines_append idLength rest1
      ((markHeader ++ c2 ++ rest2) :: (hdr2 ++ (markFooter ++ foot) :: body2))
      { st with isHead := true, currentCommitId := c, currentId := i,
                changIdCommitIdMap := mapSet st.changIdCommitIdMap i c }
    rw [hrun] at hsplit
    cases h1 : runLines idLength
        { st with isHead := true, currentCommitId := c, currentId := i,
                  changIdCommitIdMap := mapSet st.changIdCommitIdMap i c } rest1 with
    | none => simp [h1] at hsplit
    | some st2 =>
      simp only [h1] at hsplit
      have hid2 : st2.currentId = i :=
        (acceptedIds_nolabel idLength [] rest1 _ st2 hrest1 h1).1
      have hhdr : ∀ l ∈ (markHeader ++ c2 ++ rest2) :: hdr2, ¬ labelChangeId <:+: l := by
        intro l hl
        rcases List.mem_cons.1 hl with rfl | hl
        · exact hno2
        · exact hhdr2 l hl
      obtain ⟨hid, hall⟩ := entry_without_label idLength st2 st'
        ((markHeader ++ c2 ++ rest2) :: hdr2) body2 foot hhdr hbody2 hsplit.symm
      refine ⟨hid.trans hid2, st2, ?_, hid2, ?_⟩
      · simp only [runLines, hp1, hp2, h1]
      · intro s
        obtain ⟨ha, hb⟩ := hall s
        exact ⟨fun x hx => (ha x hx).trans hid2, hb⟩
  · intro st st' hdr body foot hno hbody hrun
    exact entry_without_label idLength st st' hdr body foot hno hbody hrun
  · intro lines st' hno hrun s
    obtain ⟨_, hacc⟩ := acceptedIds_nolabel idLength s lines initState st' hno hrun
    have hacc2 : ∀ x ∈ acceptedIds idLength s initState lines, x = [] := hacc
    refine ⟨hacc2, ?_⟩
    rw [runLines_trace idLength s lines initState st' hrun]
    rcases foldl_appendRev_const [] _ hacc2 (mapGet [] initState.svcMap s) with h1 | h1
    · left
      rw [h1]
      rfl
    · right
      rw [h1]
      rfl
  · intro l s hacc
    simp only [acceptedFor, Bool.and_eq_true, Bool.not_eq_true', decide_eq_true_eq] at hacc
    obtain ⟨⟨⟨ha, hb⟩, hc⟩, hd⟩ := hacc
    refine ⟨bodyLine initState l, ?_, ?_⟩
    · simp [runLines, processLine_body idLength initState l rfl ha hb]
    · rw [bodyLine_svcMap]
      simp [hd, hc, initState, mapGet, appendRev]

/-- Witness of C20, from the empty state: the sample header with its
change-id line, then the second sample entry, which has no change-id line;
the body line of the second entry is recorded under the change id that the
change-id line of the first entry gave. -/
theorem currentId_not_reset_witness :
    runLines 7 initState (sampleHeader ++ sampleSecondEntry) = some sampleStateSecond ∧
    runLines 7 initState sampleHeader = some sampleBodyState ∧
    sampleStateSecond.currentId = sampleChangeId ∧
    (∀ x ∈ acceptedIds 7 "b".toList sampleBodyState sampleSecondEntry, x = sampleChangeId) ∧
    acceptedIds 7 "b".toList sampleBodyState sampleSecondEntry = [sampleChangeId] ∧
    mapGet [] sampleStateSecond.svcMap "b".toList = [sampleChangeId] := by
  obtain ⟨hid, st2, hst2, _, hall⟩ :=
    (currentId_not_reset 7).1 initState sampleStateSecond "abcdef1".toList
      " fix the build".toList "    ".toList sampleChangeId [] ["###".toList] "1234567".toList
      " no change id here".toList [] [] ["M\tb/src/Y.java".toList]
      (by decide) (by decide) (by decide) (by decide) (by decide) (by decide) (by decide)
      (by decide) (by decide) (by decide) (by decide)
  have hrun : runLines 7 initState sampleHeader = some sampleBodyState := by decide
  have he : st2 = sampleBodyState := Option.some.inj (hst2.symm.trans hrun)
  subst he
  obtain ⟨ha, hb⟩ := hall "b".toList
  exact ⟨by decide, hrun, hid, ha, by decide, hb.trans (by decide)⟩

/-! ## Reconciliation: the records that stay as they are -/

theorem applyWrite_row (st : List ServiceRevision) (op : StoreOp) (k : Nat)
    (r : ServiceRevision) (h : st[k]? = some r) :
    (applyWrite st op)[k]? =
      some (match op with
        | StoreOp.update id b => if r.Id = id then setCols b r else r
        | StoreOp.insert _ => r) := by
  cases op with
  | update id b =>
    simp only [applyWrite, List.getElem?_map, h, Option.map_some', setCols]
  | insert b =>
    have hk : k < st.length := by
      obtain ⟨hk, _⟩ := List.getElem?_eq_some.1 h
      exact hk
    simp only [applyWrite, List.getElem?_append_left hk, h]

theorem applyWrites_row (ops : List StoreOp) :
    ∀ (st : List ServiceRevision) (k : Nat) (r : ServiceRevision), st[k]? = some r →
      ∃ r', (applyWrites st ops)[k]? = some r' ∧ r'.Id = r.Id ∧
        r'.ServiceName = r.ServiceName ∧
        ((∀ id b, StoreOp.update id b ∈ ops → id ≠ r.Id) → r' = r) := by
  induction ops with
  | nil =>
    intro st k r h
    exact ⟨r, h, rfl, rfl, fun _ => rfl⟩
  | cons op ops ih =>
    intro st k r h
    have hrow := applyWrite_row st op k r h
    obtain ⟨r', h1, h2, h3, h4⟩ := ih (applyWrite st op) k _ hrow
    simp only [applyWrites, List.foldl_cons]
    simp only [applyWrites] at h1
    refine ⟨r', h1, ?_, ?_, ?_⟩
    · rw [h2]
      cases op with
      | update id b =>
        simp only
        split <;> rfl
      | insert b => rfl
    · rw [h3]
      cases op with
      | update id b =>
        simp only
        split <;> rfl
      | insert b => rfl
    · intro hno
      have hrest : ∀ id b, StoreOp.update id b ∈ ops → id ≠ r.Id :=
        fun id b hmem => hno id b (List.mem_cons_of_mem _ hmem)
      cases op with
      | update id b =>
        have hne : ¬ r.Id = id := fun e => hno id b (List.mem_cons_self _ _) e.symm
        simp only [hne, if_false] at h2 h3 h4
        exact h4 hrest
      | insert b =>
        simp only at h2 h3 h4
        exact h4 hrest

theorem resolve_update_mem (store : List ServiceRevision) (cmap : GoMap Str)
    (m : GoMap (List Str)) (hk : (m.map Prod.fst).Nodup) (id : Int) (b : ServiceRevision)
    (hmem : StoreOp.update id b ∈ (m.map (entryWrite store cmap)).flatten) :
    ∃ (r0 : ServiceRevision) (h : Str) (t : List Str),
      recordOf store r0.ServiceName = some r0 ∧ r0.Id = id ∧
      mapGet [] m r0.ServiceName = h :: t ∧ h ≠ r0.RevId := by
  simp only [List.mem_flatten, List.mem_map] at hmem
  obtain ⟨l, ⟨e, he, rfl⟩, hop⟩ := hmem
  obtain ⟨svc, revs⟩ := e
  unfold entryWrite at hop
  split at hop
  · simp at hop
  · rename_i latest t hrevs
    simp only at hrevs
    split at hop
    · simp at hop
    · rename_i r0 hrec
      simp only at hrec
      split at hop
      · rename_i hne
        simp only [List.mem_singleton, StoreOp.update.injEq] at hop
        have hname := (recordOf_some hrec).2
        refine ⟨r0, latest, t, by rw [hname]; exact hrec, hop.1.symm, ?_, hne⟩
        rw [hname, mapGet_of_mem [] m svc revs hk he, hrevs]
      · simp at hop

/-- C18: let the table have a primary key (`hid`) and let `resolveSvc` run on
the maps of a parse state (a Go map holds each key once, `hk`), its writes
succeeding. (1) No record is removed: every row is still at its place, with
its key and its service name. (2) A row whose service has no entry or an
empty sequence in the revision index, or whose `rev_id` is the head of the
sequence of its service, is unchanged, whatever its `deployed` flag. (3) In
particular the rows of a service that is in the deletion set are still
there. -/
theorem resolveSvc_keeps_records (store : List ServiceRevision) (st : ParseState)
    (hk : (st.svcMap.map Prod.fst).Nodup) (hid : (store.map ServiceRevision.Id).Nodup) :
    (∀ (k : Nat) (r : ServiceRevision), store[k]? = some r →
      ∃ r', (storeAfterResolve store st.svcMap st.changIdCommitIdMap)[k]? = some r' ∧
        r'.Id = r.Id ∧ r'.ServiceName = r.ServiceName) ∧
    (∀ (k : Nat) (r : ServiceRevision), store[k]? = some r →
      (mapGet [] st.svcMap r.ServiceName = [] ∨
        (mapGet [] st.svcMap r.ServiceName).head? = some r.RevId) →
      (storeAfterResolve store st.svcMap st.changIdCommitIdMap)[k]? = some r) ∧
    (∀ (X : Str) (k : Nat) (r : ServiceRevision), mapGet false st.svcDelMap X = true →
      store[k]? = some r → r.ServiceName = X →
      ∃ r', (storeAfterResolve store st.svcMap st.changIdCommitIdMap)[k]? = some r' ∧
        r'.Id = r.Id ∧ r'.ServiceName = X) := by
  have hrow := fun k r (h : store[k]? = some r) =>
    applyWrites_row ((st.svcMap.map (entryWrite store st.changIdCommitIdMap)).flatten)
      store k r h
  simp only [storeAfterResolve, resolveSvc_writes]
  refine ⟨?_, ?_, ?_⟩
  · intro k r h
    obtain ⟨r', h1, h2, h3, _⟩ := hrow k r h
    exact ⟨r', h1, h2, h3⟩
  · intro k r h hcond
    obtain ⟨r', h1, _, _, h4⟩ := hrow k r h
    rw [h1, h4]
    intro id b hmem hidr
    obtain ⟨r0, hd, t, hrec, hr0, hm, hne⟩ :=
      resolve_update_mem store st.changIdCommitIdMap st.svcMap hk id b hmem
    have hr : r ∈ store := List.getElem?_mem h
    have heq : r0 = r := eq_of_id_eq hid (recordOf_some hrec).1 hr (hr0.trans hidr)
    subst heq
    rcases hcond with hc | hc
    · rw [hm] at hc
      exact absurd hc (by simp)
    · rw [hm] at hc
      simp only [List.head?_cons, Option.some.injEq] at hc
      exact hne hc
  · intro X k r _ h hname
    obtain ⟨r', h1, h2, h3, _⟩ := hrow k r h
    exact ⟨r', h1, h2, h3.trans hname⟩

/-- Witness of C18 on the sample data: the row of `c`, deployed and at the
head of its sequence, is unchanged. -/
theorem resolveSvc_keeps_records_witness :
    ((({ initState with svcMap := sampleIndex, changIdCommitIdMap := sampleCommits } :
      ParseState).svcMap).map Prod.fst).Nodup ∧
    (sampleStore.map ServiceRevision.Id).Nodup ∧
    (storeAfterResolve sampleStore sampleIndex sampleCommits)[2]? =
      some { Id := 5, ServiceName := "c".toList, RevId := "r3".toList,
             CommitId := "c3".toList, Deployed := 1 } :=
  ⟨by decide, by decide,
    (resolveSvc_keeps_records sampleStore
      { initState with svcMap := sampleIndex, changIdCommitIdMap := sampleCommits }
      (by decide) (by decide)).2.1 2
      { Id := 5, ServiceName := "c".toList, RevId := "r3".toList, CommitId := "c3".toList,
        Deployed := 1 } (by decide) (by decide)⟩

/-! ## The replication status map: lemmas -/

theorem mapLookup_mapSet {V : Type} (m : GoMap V) (k k' : Str) (v : V) :
    mapLookup (mapSet m k v) k' = if k = k' then some v else mapLookup m k' := by
  induction m with
  | nil => simp [mapSet, mapLookup]
  | cons e m ih =>
    obtain ⟨a, w⟩ := e
    by_cases ha : a = k
    · subst ha
      by_cases hk : a = k' <;> simp [mapSet, mapLookup, hk]
    · simp only [mapSet, ha, if_false, mapLookup, ih]
      by_cases hk : k = k'
      · subst hk
        simp [ha]
      · simp [hk]

theorem mergeStatus_lookup (m : GoMap ReplicationStatus) (v : ReplicationStatus) (k0 : Str)
    (hk : replicationKey v = some k0) :
    ∃ m', mergeStatus m v = some m' ∧
      ∀ k, mapLookup m' k = if k0 = k then pick (mapLookup m k) v else mapLookup m k := by
  unfold mergeStatus
  simp only [hk]
  cases hl : mapLookup m k0 with
  | none =>
    refine ⟨_, rfl, ?_⟩
    intro k
    rw [mapLookup_mapSet]
    by_cases hkk : k0 = k
    · subst hkk
      simp [hl, pick]
    · simp [hkk]
  | some rs =>
    by_cases hge : rs.Id ≥ v.Id
    · refine ⟨m, by simp [hge], ?_⟩
      intro k
      by_cases hkk : k0 = k
      · subst hkk
        simp [hl, pick, hge]
      · simp [hkk]
    · refine ⟨mapSet m k0 v, by simp [hge], ?_⟩
      intro k
      rw [mapLookup_mapSet]
      by_cases hkk : k0 = k
      · subst hkk
        simp [hl, pick, hge]
      · simp [hkk]

theorem replicationKey_isSome (v : ReplicationStatus) (h : v.Tags ≠ []) :
    ∃ k, replicationKey v = some k := by
  unfold replicationKey
  cases ht : v.Tags.getLast? with
  | none => exact absurd (List.getLast?_eq_none_iff.1 ht) h
  | some tag => exact ⟨_, rfl⟩

theorem getReplication_lookup (page : List ReplicationStatus) :
    ∀ m : GoMap ReplicationStatus, (∀ v ∈ page, v.Tags ≠ []) →
      ∃ m', getReplication m page = some m' ∧
        ∀ k, mapLookup m' k = (page.filter (hasKey k)).foldl pick (mapLookup m k) := by
  induction page with
  | nil =>
    intro m _
    exact ⟨m, rfl, fun _ => rfl⟩
  | cons v page ih =>
    intro m hne
    obtain ⟨k0, hk0⟩ := replicationKey_isSome v (hne v (List.mem_cons_self _ _))
    obtain ⟨m1, hm1, hl1⟩ := mergeStatus_lookup m v k0 hk0
    obtain ⟨m', hm', hl'⟩ := ih m1 (fun x hx => hne x (List.mem_cons_of_mem _ hx))
    refine ⟨m', by simp [getReplication, hm1, hm'], ?_⟩
    intro k
    rw [hl' k, hl1 k]
    by_cases hkk : k0 = k
    · subst hkk
      simp [List.filter_cons, hasKey, hk0]
    · have : ¬ replicationKey v = some k := by
        rw [hk0]
        simpa using hkk
      simp [List.filter_cons, hasKey, this, hkk]

theorem pick_map_id (acc : Option ReplicationStatus) (L : List ReplicationStatus) :
    (L.foldl pick acc).map ReplicationStatus.Id =
      (L.map ReplicationStatus.Id).foldl maxStep (acc.map ReplicationStatus.Id) := by
  induction L generalizing acc with
  | nil => rfl
  | cons v L ih =>
    simp only [List.foldl_cons, List.map_cons]
    rw [ih]
    congr 1
    cases acc with
    | none => rfl
    | some rs =>
      simp only [pick, Option.map_some', maxStep]
      split <;> rfl

theorem maxStep_ge (ids : List Int) :
    ∀ (a : Int), ∃ j, ids.foldl maxStep (some a) = some j ∧ a ≤ j := by
  induction ids with
  | nil => intro a; exact ⟨a, rfl, le_refl a⟩
  | cons x ids ih =>
    intro a
    simp only [List.foldl_cons, maxStep]
    split
    · exact ih a
    · obtain ⟨j, hj, hle⟩ := ih x
      exact ⟨j, hj, by omega⟩

/-! ## The replication status map: the merge step -/

/-- C11: (1) the key of a record with a last tag `tag` is the text of its
repository after the first `"/"`, then `":"` and `tag`. (2) When the map
holds for that key a record with an id greater than or equal to the id of the
incoming record, the merge step returns the map as it is. (3) Otherwise the
map afterwards holds the incoming record for the key and what it held before
for every other key. (4) Hence, over a page of records with non-empty tag
lists merged into any map, the id held for a key never decreases and ends as
the maximum of the id held before and the ids of the records of the page with
that key. -/
theorem getReplication_merge_step :
    (∀ (r : ReplicationStatus) (tag a b : Str),
      r.Tags.getLast? = some tag → r.Repository = a ++ sepSlash ++ b → ¬ sepSlash <:+: a →
      replicationKey r = some (b ++ sepColon ++ tag)) ∧
    (∀ (m : GoMap ReplicationStatus) (r rs : ReplicationStatus) (k : Str),
      replicationKey r = some k → mapLookup m k = some rs → rs.Id ≥ r.Id →
      mergeStatus m r = some m) ∧
    (∀ (m : GoMap ReplicationStatus) (r : ReplicationStatus) (k : Str),
      replicationKey r = some k → (∀ rs, mapLookup m k = some rs → rs.Id < r.Id) →
      ∃ m', mergeStatus m r = some m' ∧ mapLookup m' k = some r ∧
        ∀ k', k' ≠ k → mapLookup m' k' = mapLookup m k') ∧
    (∀ (m : GoMap ReplicationStatus) (page : List ReplicationStatus),
      (∀ v ∈ page, v.Tags ≠ []) →
      ∃ m', getReplication m page = some m' ∧
        ∀ k, (∀ i, heldId m k = some i → ∃ j, heldId m' k = some j ∧ i ≤ j) ∧
          heldId m' k = maxIdOf (seenIds m page k)) := by
  refine ⟨?_, ?_, ?_, ?_⟩
  · intro r tag a b ht hrepo hno
    have hidx : strIndex r.Repository sepSlash = (a.length : Int) := by
      rw [hrepo]
      apply strIndex_at
      intro j hj hpre
      apply hno
      have h1 : (a ++ sepSlash ++ b).drop j = a.drop j ++ (sepSlash ++ b) := by
        rw [List.append_assoc, List.drop_append_of_le_length (le_of_lt hj)]
      rw [h1] at hpre
      have h2 : (a.drop j).length ≥ 1 := by
        rw [List.length_drop]
        omega
      obtain ⟨t, ht⟩ := hpre
      have h3 : sepSlash <+: a.drop j := by
        cases hd : a.drop j with
        | nil => rw [hd] at h2; simp at h2
        | cons c cs =>
          rw [hd] at ht
          simp only [sepSlash, String.toList, List.cons_append, List.nil_append,
            List.cons.injEq] at ht
          refine ⟨cs, ?_⟩
          simp only [sepSlash, String.toList, List.cons_append, List.nil_append]
          rw [ht.1]
      exact List.IsInfix.trans h3.isInfix (List.drop_suffix j a).isInfix
    unfold replicationKey
    simp only [ht, hidx]
    have h4 : ((a.length : Int) + 1).toNat = (a ++ sepSlash).length := by
      simp [sepSlash]
    rw [h4, hrepo, List.drop_left]
  · intro m r rs k hk hl hge
    simp [mergeStatus, hk, hl, hge]
  · intro m r k hk hlt
    obtain ⟨m', hm', hl'⟩ := mergeStatus_lookup m r k hk
    refine ⟨m', hm', ?_, ?_⟩
    · rw [hl' k, if_pos rfl]
      cases hl : mapLookup m k with
      | none => rfl
      | some rs =>
        have := hlt rs hl
        have hnge : ¬ rs.Id ≥ r.Id := by omega
        simp [pick, hnge]
    · intro k' hne
      rw [hl' k', if_neg (fun e => hne e.symm)]
  · intro m page hne
    obtain ⟨m', hm', hl'⟩ := getReplication_lookup page m hne
    refine ⟨m', hm', ?_⟩
    intro k
    have hheld : heldId m' k =
        ((page.filter (hasKey k)).map ReplicationStatus.Id).foldl maxStep (heldId m k) := by
      simp only [heldId, hl' k, pick_map_id]
    constructor
    · intro i hi
      rw [hheld, hi]
      exact maxStep_ge _ i
    · rw [hheld]
      unfold maxIdOf seenIds
      cases heldId m k with
      | none => simp
      | some i => simp [List.foldl_cons, maxStep]

/-- Witness of C11: a record with a smaller id leaves the map as it is, and
the key of `library/a` with last tag `v1` is `a:v1`. -/
theorem getReplication_merge_step_witness :
    replicationKey (sampleStatus 3 "running" "library/a" "v1") = some "a:v1".toList ∧
    mapLookup [("a:v1".toList, sampleStatus 7 "finished" "library/a" "v1")] "a:v1".toList =
      some (sampleStatus 7 "finished" "library/a" "v1") ∧
    mergeStatus [("a:v1".toList, sampleStatus 7 "finished" "library/a" "v1")]
        (sampleStatus 3 "running" "library/a" "v1") =
      some [("a:v1".toList, sampleStatus 7 "finished" "library/a" "v1")] :=
  ⟨by decide, by decide,
    getReplication_merge_step.2.1 [("a:v1".toList, sampleStatus 7 "finished" "library/a" "v1")]
      (sampleStatus 3 "running" "library/a" "v1")
      (sampleStatus 7 "finished" "library/a" "v1") "a:v1".toList
      (by decide) (by decide) (by decide)⟩

/-! ## The replication status map: a page, its reorderings and its reduction -/

theorem pick_some_const (L : List ReplicationStatus) :
    ∀ a : ReplicationStatus, (∀ y ∈ L, y.Id ≤ a.Id) → L.foldl pick (some a) = some a := by
  induction L with
  | nil => intro a _; rfl
  | cons v L ih =>
    intro a h
    have hv : a.Id ≥ v.Id := h v (List.mem_cons_self _ _)
    simp only [List.foldl_cons, pick, hv, if_true]
    exact ih a (fun y hy => h y (List.mem_cons_of_mem _ hy))

theorem pick_some_decomp (L : List ReplicationStatus) :
    ∀ a x : ReplicationStatus, L.foldl pick (some a) = some x →
      (x = a ∧ ∀ y ∈ L, y.Id ≤ a.Id) ∨
      (∃ pre post, L = pre ++ x :: post ∧ a.Id < x.Id ∧ (∀ y ∈ pre, y.Id < x.Id) ∧
        ∀ y ∈ post, y.Id ≤ x.Id) := by
  induction L with
  | nil =>
    intro a x h
    simp only [List.foldl_nil, Option.some.injEq] at h
    exact Or.inl ⟨h.symm, by simp⟩
  | cons v L ih =>
    intro a x h
    simp only [List.foldl_cons, pick] at h
    by_cases hge : a.Id ≥ v.Id
    · simp only [hge, if_true] at h
      rcases ih a x h with ⟨rfl, hall⟩ | ⟨pre, post, rfl, hlt, hpre, hpost⟩
      · left
        refine ⟨rfl, ?_⟩
        intro y hy
        rcases List.mem_cons.1 hy with rfl | hy
        · exact hge
        · exact hall y hy
      · right
        refine ⟨v :: pre, post, rfl, hlt, ?_, hpost⟩
        intro y hy
        rcases List.mem_cons.1 hy with rfl | hy
        · omega
        · exact hpre y hy
    · simp only [hge, if_false] at h
      rcases ih v x h with ⟨rfl, hall⟩ | ⟨pre, post, rfl, hlt, hpre, hpost⟩
      · right
        exact ⟨[], L, rfl, by omega, by simp, hall⟩
      · right
        refine ⟨v :: pre, post, rfl, by omega, ?_, hpost⟩
        intro y hy
        rcases List.mem_cons.1 hy with rfl | hy
        · exact hlt
        · exact hpre y hy

theorem pick_none_decomp (L : List ReplicationStatus) (x : ReplicationStatus)
    (h : L.foldl pick none = some x) :
    ∃ pre post, L = pre ++ x :: post ∧ (∀ y ∈ pre, y.Id < x.Id) ∧
      ∀ y ∈ post, y.Id ≤ x.Id := by
  cases L with
  | nil => simp at h
  | cons v L =>
    simp only [List.foldl_cons, pick] at h
    rcases pick_some_decomp L v x h with ⟨rfl, hall⟩ | ⟨pre, post, rfl, hlt, hpre, hpost⟩
    · exact ⟨[], L, rfl, by simp, hall⟩
    · refine ⟨v :: pre, post, rfl, ?_, hpost⟩
      intro y hy
      rcases List.mem_cons.1 hy with rfl | hy
      · exact hlt
      · exact hpre y hy

theorem pick_none_isSome (L : List ReplicationStatus) (h : L ≠ []) :
    ∃ x, L.foldl pick none = some x := by
  cases L with
  | nil => exact absurd rfl h
  | cons v L =>
    simp only [List.foldl_cons, pick]
    have : ∀ (L : List ReplicationStatus) (a : ReplicationStatus),
        ∃ x, L.foldl pick (some a) = some x := by
      intro L
      induction L with
      | nil => intro a; exact ⟨a, rfl⟩
      | cons w L ih =>
        intro a
        simp only [List.foldl_cons, pick]
        split
        · exact ih a
        · exact ih w
    exact this L v

theorem pick_none_max (L : List ReplicationStatus) (x : ReplicationStatus)
    (h : L.foldl pick none = some x) : x ∈ L ∧ ∀ y ∈ L, y.Id ≤ x.Id := by
  obtain ⟨pre, post, rfl, hpre, hpost⟩ := pick_none_decomp L x h
  refine ⟨by simp, ?_⟩
  intro y hy
  rcases List.mem_append.1 hy with hy | hy
  · exact le_of_lt (hpre y hy)
  · rcases List.mem_cons.1 hy with rfl | hy
    · exact le_refl _
    · exact hpost y hy

theorem filter_first_top (p : ReplicationStatus → Bool) (pre post : List ReplicationStatus)
    (x : ReplicationStatus) (h1 : ∀ y ∈ pre, p y = false) (h2 : p x = true) :
    (pre ++ x :: post).filter p = x :: post.filter p := by
  have hpre : pre.filter p = [] := by
    rw [List.filter_eq_nil_iff]
    intro y hy
    rw [h1 y hy]
    decide
  rw [List.filter_append, hpre, List.nil_append, List.filter_cons, if_pos h2]

theorem pick_filter_top (L : List ReplicationStatus) :
    (L.filter fun v => L.all fun x => decide (x.Id ≤ v.Id)).foldl pick none =
      L.foldl pick none := by
  by_cases hL : L = []
  · subst hL
    rfl
  · obtain ⟨x, hx⟩ := pick_none_isSome L hL
    rw [hx]
    obtain ⟨pre, post, hdec, hpre, hpost⟩ := pick_none_decomp L x hx
    have hmax := (pick_none_max L x hx).2
    have hxmem := (pick_none_max L x hx).1
    have hxtop : (L.all fun y => decide (y.Id ≤ x.Id)) = true := by
      rw [List.all_eq_true]
      intro y hy
      simpa using hmax y hy
    have hprefalse : ∀ y ∈ pre, (L.all fun z => decide (z.Id ≤ y.Id)) = false := by
      intro y hy
      rw [List.all_eq_false]
      exact ⟨x, hxmem, by simpa using hpre y hy⟩
    have hfil := filter_first_top (fun v => L.all fun z => decide (z.Id ≤ v.Id)) pre post x
      hprefalse hxtop
    rw [← hdec] at hfil
    rw [hfil, List.foldl_cons]
    simp only [pick]
    apply pick_some_const
    intro y hy
    exact hpost y (List.mem_of_mem_filter hy)

theorem reducePage_filter (page : List ReplicationStatus) (k : Str) :
    (reducePage page).filter (hasKey k) =
      (page.filter (hasKey k)).filter fun v =>
        (page.filter (hasKey k)).all fun x => decide (x.Id ≤ v.Id) := by
  unfold reducePage
  rw [List.filter_filter, List.filter_filter]
  apply List.filter_congr
  intro v _
  by_cases hv : hasKey k v = true
  · have hkv : replicationKey v = some k := by simpa [hasKey] using hv
    simp only [hv, Bool.true_and, Bool.and_true]
    simp only [isTop, hkv]
    rw [Bool.eq_iff_iff, List.all_eq_true, List.all_eq_true]
    constructor
    · intro h x hx
      have hx1 := List.mem_filter.1 hx
      have := h x hx1.1
      have hkx : replicationKey x = some k := by simpa [hasKey] using hx1.2
      simpa [hkx] using this
    · intro h x hx
      by_cases hkx : replicationKey x = some k
      · have := h x (List.mem_filter.2 ⟨hx, by simpa [hasKey] using hkx⟩)
        simpa [hkx] using this
      · simp [hkx]
  · simp only [Bool.not_eq_true] at hv
    simp [hv]

theorem getReplication_again (page : List ReplicationStatus) :
    ∀ m : GoMap ReplicationStatus,
      (∀ v ∈ page, ∃ k rs, replicationKey v = some k ∧ mapLookup m k = some rs ∧
        rs.Id ≥ v.Id) →
      getReplication m page = some m := by
  induction page with
  | nil => intro m _; rfl
  | cons v page ih =>
    intro m h
    obtain ⟨k, rs, hk, hl, hge⟩ := h v (List.mem_cons_self _ _)
    have : mergeStatus m v = some m := by simp [mergeStatus, hk, hl, hge]
    simp only [getReplication, this]
    exact ih m (fun x hx => h x (List.mem_cons_of_mem _ hx))

/-- C12, refuted as stated: two records with the same key `a:v1` and the
same id 7 but another status; the page in one order leaves the map with the
first of them, the reordered page leaves it with the other, so the two
results cannot both be identical to the map of one reduced page. -/
theorem reordered_tie_differs :
    List.Perm [sampleStatus 7 "finished" "library/a" "v1",
        sampleStatus 7 "running" "library/a" "v1"]
      [sampleStatus 7 "running" "library/a" "v1",
        sampleStatus 7 "finished" "library/a" "v1"] ∧
    (getReplication []
        [sampleStatus 7 "running" "library/a" "v1",
          sampleStatus 7 "finished" "library/a" "v1"]).map
      (fun m => (mapLookup m "a:v1".toList).map ReplicationStatus.Status) =
        some (some "running".toList) ∧
    (getReplication []
        [sampleStatus 7 "finished" "library/a" "v1",
          sampleStatus 7 "running" "library/a" "v1"]).map
      (fun m => (mapLookup m "a:v1".toList).map ReplicationStatus.Status) =
        some (some "finished".toList) :=
  ⟨List.Perm.swap _ _ _, by decide, by decide⟩

/-- C12, amended: for every page of records with non-empty tag lists, merged
into an empty map: merging the page a second time leaves the map as it is;
the map is the same as the one of the page reduced to the maximum-id records
of each key; and when no two different records of the page have the same key
and the same id, every reordering of the page gives that same map. -/
theorem getReplication_page_reduced (page : List ReplicationStatus)
    (hne : ∀ v ∈ page, v.Tags ≠ []) :
    ∃ m1 m2, getReplication [] page = some m1 ∧
      getReplication [] (reducePage page) = some m2 ∧
      getReplication m1 page = some m1 ∧
      sameMap m1 m2 ∧
      (TieFree page → ∀ page' : List ReplicationStatus, page'.Perm page →
        ∃ m3, getReplication [] page' = some m3 ∧ sameMap m3 m2) := by
  obtain ⟨m1, hm1, hl1⟩ := getReplication_lookup page [] hne
  have hne2 : ∀ v ∈ reducePage page, v.Tags ≠ [] :=
    fun v hv => hne v (List.mem_of_mem_filter hv)
  obtain ⟨m2, hm2, hl2⟩ := getReplication_lookup (reducePage page) [] hne2
  have hsame : sameMap m1 m2 := by
    intro k
    have e : mapLookup ([] : GoMap ReplicationStatus) k = none := rfl
    rw [hl1 k, hl2 k, e, reducePage_filter, pick_filter_top]
  refine ⟨m1, m2, hm1, hm2, ?_, hsame, ?_⟩
  · apply getReplication_again
    intro v hv
    obtain ⟨k, hk⟩ := replicationKey_isSome v (hne v hv)
    have hvk : v ∈ page.filter (hasKey k) :=
      List.mem_filter.2 ⟨hv, by simpa [hasKey] using hk⟩
    obtain ⟨x, hx⟩ := pick_none_isSome (page.filter (hasKey k)) (List.ne_nil_of_mem hvk)
    refine ⟨k, x, hk, ?_, (pick_none_max _ x hx).2 v hvk⟩
    rw [hl1 k]
    exact hx
  · intro htie page' hperm
    have hne3 : ∀ v ∈ page', v.Tags ≠ [] := fun v hv => hne v (hperm.mem_iff.1 hv)
    obtain ⟨m3, hm3, hl3⟩ := getReplication_lookup page' [] hne3
    refine ⟨m3, hm3, ?_⟩
    intro k
    rw [← hsame k, hl3 k, hl1 k]
    have hp : (page'.filter (hasKey k)).Perm (page.filter (hasKey k)) := hperm.filter _
    show (page'.filter (hasKey k)).foldl pick none = (page.filter (hasKey k)).foldl pick none
    by_cases hL : page.filter (hasKey k) = []
    · have hL' : page'.filter (hasKey k) = [] := by
        rw [hL] at hp
        exact hp.eq_nil
      rw [hL, hL']
    · have hL' : page'.filter (hasKey k) ≠ [] := by
        intro e
        rw [e] at hp
        exact hL (hp.symm.eq_nil)
      obtain ⟨x, hx⟩ := pick_none_isSome _ hL
      obtain ⟨x', hx'⟩ := pick_none_isSome _ hL'
      rw [hx, hx']
      obtain ⟨hxm, hxmax⟩ := pick_none_max _ x hx
      obtain ⟨hxm', hxmax'⟩ := pick_none_max _ x' hx'
      have h1 : x'.Id ≤ x.Id := hxmax x' (hp.mem_iff.1 hxm')
      have h2 : x.Id ≤ x'.Id := hxmax' x (hp.mem_iff.2 hxm)
      have hk1 : replicationKey x = some k := by
        simpa [hasKey] using (List.mem_filter.1 hxm).2
      have hk2 : replicationKey x' = some k := by
        simpa [hasKey] using (List.mem_filter.1 (hp.mem_iff.1 hxm')).2
      have := htie x' (List.mem_filter.1 (hp.mem_iff.1 hxm')).1 x (List.mem_filter.1 hxm).1
        (by rw [hk1, hk2]) (by omega)
      rw [this]

/-- Witness of the amended C12 on a page of three records, two of them with
the key `a:v1`. -/
theorem getReplication_page_reduced_witness :
    (∀ v ∈ [sampleStatus 3 "running" "library/a" "v1",
        sampleStatus 7 "finished" "library/a" "v1",
        sampleStatus 5 "error" "library/b" "v2"], v.Tags ≠ []) ∧
    reducePage [sampleStatus 3 "running" "library/a" "v1",
        sampleStatus 7 "finished" "library/a" "v1",
        sampleStatus 5 "error" "library/b" "v2"] =
      [sampleStatus 7 "finished" "library/a" "v1", sampleStatus 5 "error" "library/b" "v2"] ∧
    ∃ m1 m2,
      getReplication [] [sampleStatus 3 "running" "library/a" "v1",
        sampleStatus 7 "finished" "library/a" "v1",
        sampleStatus 5 "error" "library/b" "v2"] = some m1 ∧
      getReplication [] (reducePage [sampleStatus 3 "running" "library/a" "v1",
        sampleStatus 7 "finished" "library/a" "v1",
        sampleStatus 5 "error" "library/b" "v2"]) = some m2 ∧
      getReplication m1 [sampleStatus 3 "running" "library/a" "v1",
        sampleStatus 7 "finished" "library/a" "v1",
        sampleStatus 5 "error" "library/b" "v2"] = some m1 ∧
      sameMap m1 m2 ∧
      (TieFree [sampleStatus 3 "running" "library/a" "v1",
          sampleStatus 7 "finished" "library/a" "v1",
          sampleStatus 5 "error" "library/b" "v2"] →
        ∀ page' : List ReplicationStatus,
          page'.Perm [sampleStatus 3 "running" "library/a" "v1",
            sampleStatus 7 "finished" "library/a" "v1",
            sampleStatus 5 "error" "library/b" "v2"] →
          ∃ m3, getReplication [] page' = some m3 ∧ sameMap m3 m2) :=
  ⟨by decide, by decide,
    getReplication_page_reduced _ (by decide)⟩

/-! ## `getServiceTag` -/

theorem scanExclude_eq (name : Str) (l : List Str) :
    scanExclude name l = decide (name ∈ l) := by
  induction l with
  | nil => simp [scanExclude]
  | cons ex rest ih =>
    by_cases h : name = ex
    · simp [scanExclude, h]
    · simp [scanExclude, h, ih]

theorem tagEntry_eq (excludeSvc : Str) (repliMap : GoMap ReplicationStatus)
    (acc : List Str) (val : ServiceTag) :
    tagEntry excludeSvc repliMap acc val =
      if val.ServiceName ∈ exclusionList excludeSvc then acc
      else acc ++ [entryOf repliMap val] := by
  unfold tagEntry exclusionList entryOf
  rw [scanExclude_eq]
  by_cases he : excludeSvc = []
  · subst he
    simp only [List.length_nil, gt_iff_lt, lt_self_iff_false, false_and, if_false, if_true,
      List.not_mem_nil]
    congr 2
    split
    · split <;> simp_all
    · rfl
  · have hlen : excludeSvc.length > 0 := List.length_pos.2 he
    simp only [hlen, true_and, decide_eq_true_eq, he, if_false]
    split
    · rfl
    · congr 2
      split
      · split <;> simp_all
      · rfl

theorem tagEntry_foldl (excludeSvc : Str) (repliMap : GoMap ReplicationStatus)
    (allTags : List ServiceTag) :
    ∀ acc : List Str, allTags.foldl (tagEntry excludeSvc repliMap) acc =
      acc ++ (allTags.filter fun r => !decide (r.ServiceName ∈ exclusionList excludeSvc)).map
        (entryOf repliMap) := by
  induction allTags with
  | nil => intro acc; simp
  | cons r rest ih =>
    intro acc
    rw [List.foldl_cons, ih, tagEntry_eq]
    by_cases h : r.ServiceName ∈ exclusionList excludeSvc
    · simp [h, List.filter_cons]
    · simp [h, List.filter_cons]

/-- C13, refuted as stated: `writeServiceTagUat` on the service list
`" svcB"` leaves a row with the empty service name; with the empty exclusion
string, whose split on `"|"` has the empty string as its one element, the
claim leaves that row out and gives `All,svcB:v1`; the code does not split an
empty exclusion string and returns `All,:v1,svcB:v1`. -/
theorem empty_exclusion_keeps_empty_name :
    writeServiceTagUat 9 [] " svcB".toList "v1".toList =
      [ { Id := 1, ServiceName := [], Tag := "v1".toList, Uat := 1, ProdBeta := 0,
          ProdAlpha := 0, UpdatedAt := 9 },
        { Id := 2, ServiceName := "svcB".toList, Tag := "v1".toList, Uat := 1, ProdBeta := 0,
          ProdAlpha := 0, UpdatedAt := 9 } ] ∧
    ([] : Str) ∈ strSplit '|' ([] : Str) ∧
    strJoin sepComma
        (labelAll ::
          ((queryTags envAlpha (writeServiceTagUat 9 [] " svcB".toList "v1".toList)).filter
            fun r => !decide (r.ServiceName ∈ strSplit '|' ([] : Str))).map (entryOf [])) =
      "All,svcB:v1".toList ∧
    getServiceTag envAlpha (writeServiceTagUat 9 [] " svcB".toList "v1".toList) [] [] =
      "All,:v1,svcB:v1".toList := by
  decide

/-- C13, amended: for every list of tag records (the rows returned by the
query), every exclusion string and every status map, the output is the
comma-join of `"All"` followed, in the order of the rows, by one entry for
each record that is not excluded; a record is excluded when the exclusion
string is not empty and the service name of the record is one of its pieces
between `"|"` (with the empty exclusion string no record is excluded); the
entry is `service:tag:status` when the map holds a record for `service:tag`
with a status other than `"finished"` and `service:tag` otherwise; the output
is `"All"` when every record is excluded; and `getServiceTag` is that output
on the rows of the query. -/
theorem getServiceTag_output (excludeSvc : Str) (repliMap : GoMap ReplicationStatus) :
    (∀ allTags : List ServiceTag,
      listTags allTags excludeSvc repliMap =
        strJoin sepComma
          (labelAll ::
            (allTags.filter fun r =>
              !decide (r.ServiceName ∈ exclusionList excludeSvc)).map (entryOf repliMap))) ∧
    (∀ allTags : List ServiceTag,
      (∀ r ∈ allTags, r.ServiceName ∈ exclusionList excludeSvc) →
      listTags allTags excludeSvc repliMap = labelAll) ∧
    (∀ (env : Str) (store : List ServiceTag),
      getServiceTag env store excludeSvc repliMap =
        strJoin sepComma
          (labelAll ::
            ((queryTags env store).filter fun r =>
              !decide (r.ServiceName ∈ exclusionList excludeSvc)).map (entryOf repliMap))) := by
  have h1 : ∀ allTags : List ServiceTag,
      listTags allTags excludeSvc repliMap =
        strJoin sepComma
          (labelAll ::
            (allTags.filter fun r =>
              !decide (r.ServiceName ∈ exclusionList excludeSvc)).map (entryOf repliMap)) := by
    intro allTags
    unfold listTags
    rw [tagEntry_foldl]
    rfl
  refine ⟨h1, ?_, fun env store => h1 _⟩
  intro allTags hall
  rw [h1]
  have : (allTags.filter fun r => !decide (r.ServiceName ∈ exclusionList excludeSvc)) = [] := by
    rw [List.filter_eq_nil_iff]
    intro r hr
    simp [hall r hr]
  rw [this]
  rfl

/-- Witness of the amended C13 on the sample table: `svcA` and `svcB` are
excluded, `svcC` is not among the rows of the query, and `svcD` is listed
with the status of its replication. -/
theorem getServiceTag_output_witness :
    getServiceTag envAlpha sampleTags "svcA|svcB".toList
        [("svcD:v3".toList, sampleStatus 9 "running" "library/svcD" "v3")] =
      "All,svcD:v3:running".toList ∧
    (∀ r ∈ [sampleTag 1 "svcA" "v1" 1 0 0, sampleTag 2 "svcB" "v1" 1 0 0],
      r.ServiceName ∈ exclusionList "svcA|svcB".toList) ∧
    listTags [sampleTag 1 "svcA" "v1" 1 0 0, sampleTag 2 "svcB" "v1" 1 0 0] "svcA|svcB".toList
        [] = labelAll :=
  ⟨by decide, by decide,
    (getServiceTag_output "svcA|svcB".toList []).2.1
      [sampleTag 1 "svcA" "v1" 1 0 0, sampleTag 2 "svcB" "v1" 1 0 0] (by decide)⟩

/-! ## `writeServiceTag` -/

theorem tagGet_name_tag (store : List ServiceTag) (svc tag : Str) (hs : svc ≠ [])
    (ht : tag ≠ []) :
    tagGet store
        { Id := 0, ServiceName := svc, Tag := tag, Uat := 0, ProdBeta := 0, ProdAlpha := 0,
          UpdatedAt := 0 } = tagRecordOf store svc tag := by
  unfold tagGet tagRecordOf
  congr 1
  funext r
  simp [tagMatches, hs, ht]

theorem tag_eq_of_id_eq {st : List ServiceTag} (hid : (st.map ServiceTag.Id).Nodup)
    {r r' : ServiceTag} (hr : r ∈ st) (hr' : r' ∈ st) (h : r.Id = r'.Id) : r = r' :=
  List.inj_on_of_nodup_map hid hr hr' h

theorem strSplit_three (sep : Char) (a b c : Str) (ha : sep ∉ a) (hb : sep ∉ b)
    (hc : sep ∉ c) : strSplit sep (a ++ sep :: (b ++ sep :: c)) = [a, b, c] := by
  rw [strSplit_append_sep sep a _ ha, strSplit_append_sep sep b _ hb, strSplit_nosep sep c hc]

/-- C15, refuted as stated: for the input `alpha:svcA:` no row has the
service name `svcA` and the empty tag, and yet the table changes: the read
is by service name only and the row of `svcA` with tag `v1` is promoted. -/
theorem empty_tag_promotes :
    tagRecordOf sampleTags "svcA".toList [] = none ∧
    writeServiceTag 9 sampleTags "alpha:svcA:".toList ≠ some sampleTags ∧
    (writeServiceTag 9 sampleTags "alpha:svcA:".toList).map (fun st => st.head?) =
      some (some { sampleTag 1 "svcA" "v1" 1 0 1 with UpdatedAt := 9 }) := by
  decide

/-- C15, amended: let the table have a primary key (`hid`), let `env` be
`"alpha"` or `"beta"`, and let the service name and the tag be non-empty and
without `":"`. If a row with that service name and that tag exists, then
after `writeServiceTag` on `env:service:tag` the first such row has its flag
for `env` equal to 1 and a new time stamp, its service name, tag, `uat` flag
and other flag being as before, and every other row is unchanged; if no row
has both the service name and the tag, the table is unchanged. -/
theorem writeServiceTag_effect (now : Nat) (store : List ServiceTag) (env svc tag : Str)
    (hid : (store.map ServiceTag.Id).Nodup) (henv : env = envAlpha ∨ env = envBeta)
    (hs : svc ≠ []) (ht : tag ≠ []) (hcs : ':' ∉ svc) (hct : ':' ∉ tag) :
    (∀ row, tagRecordOf store svc tag = some row →
      writeServiceTag now store (env ++ ':' :: (svc ++ ':' :: tag)) =
        some (store.map fun r => if r = row then promote now env row else r)) ∧
    (tagRecordOf store svc tag = none →
      writeServiceTag now store (env ++ ':' :: (svc ++ ':' :: tag)) = some store) := by
  have hce : ':' ∉ env := by
    rcases henv with rfl | rfl <;> decide
  have hsplit := strSplit_three ':' env svc tag hce hcs hct
  constructor
  · intro row hrow
    have hmem : row ∈ store := List.mem_of_find?_eq_some hrow
    have hprop := List.find?_some hrow
    simp only [Bool.and_eq_true, decide_eq_true_eq] at hprop
    unfold writeServiceTag
    simp only [hsplit, tagGet_name_tag store svc tag hs ht, hrow]
    congr 1
    unfold tagUpdate
    apply List.map_congr_left
    intro r hr
    have hname : row.ServiceName ≠ [] := by rw [hprop.1]; exact hs
    have htag : row.Tag ≠ [] := by rw [hprop.2]; exact ht
    rcases henv with rfl | rfl
    · have hne : envAlpha ≠ envBeta := by decide
      simp only [if_true, promote]
      by_cases hrr : r = row
      · subst hrr
        simp only [if_true, hname, htag, if_false]
        by_cases hu : r.Uat = 0 <;> by_cases hb : r.ProdBeta = 0 <;> simp [hu, hb]
      · have : ¬ r.Id = row.Id := fun e => hrr (tag_eq_of_id_eq hid hr hmem e)
        simp [hrr, this]
    · have hne : ¬ envBeta = envAlpha := by decide
      simp only [hne, if_false, if_true, promote]
      by_cases hrr : r = row
      · subst hrr
        simp only [if_true, hname, htag, if_false]
        by_cases hu : r.Uat = 0 <;> by_cases hb : r.ProdAlpha = 0 <;> simp [hu, hb]
      · have : ¬ r.Id = row.Id := fun e => hrr (tag_eq_of_id_eq hid hr hmem e)
        simp [hrr, this]
  · intro hnone
    unfold writeServiceTag
    simp only [hsplit, tagGet_name_tag store svc tag hs ht, hnone]

/-- Witness of the amended C15: `beta:svcB:v1` on the sample table. -/
theorem writeServiceTag_effect_witness :
    (sampleTags.map ServiceTag.Id).Nodup ∧
    tagRecordOf sampleTags "svcB".toList "v1".toList = some (sampleTag 2 "svcB" "v1" 1 0 0) ∧
    writeServiceTag 9 sampleTags (envBeta ++ ':' :: ("svcB".toList ++ ':' :: "v1".toList)) =
      some (sampleTags.map fun r =>
        if r = sampleTag 2 "svcB" "v1" 1 0 0 then promote 9 envBeta (sampleTag 2 "svcB" "v1" 1 0 0)
        else r) :=
  ⟨by decide, by decide,
    (writeServiceTag_effect 9 sampleTags envBeta "svcB".toList "v1".toList (by decide)
      (Or.inr rfl) (by decide) (by decide) (by decide) (by decide)).1
      (sampleTag 2 "svcB" "v1" 1 0 0) (by decide)⟩

/-! ## Lemmas on the rows of a table -/

theorem firstOf_some {α : Type} (nameOf : α → Str) {st : List α} {n : Str} {r : α}
    (h : firstOf nameOf st n = some r) : r ∈ st ∧ nameOf r = n := by
  unfold firstOf at h
  refine ⟨List.mem_of_find?_eq_some h, ?_⟩
  have := List.find?_some h
  simpa using this

theorem firstOf_none {α : Type} (nameOf : α → Str) {st : List α} {n : Str} :
    firstOf nameOf st n = none ↔ ∀ r ∈ st, nameOf r ≠ n := by
  unfold firstOf
  simp [List.find?_eq_none]

theorem firstOf_map {α : Type} (nameOf : α → Str) (f : α → α) (st : List α) (n : Str)
    (hf : ∀ x ∈ st, nameOf (f x) = nameOf x) :
    firstOf nameOf (st.map f) n = (firstOf nameOf st n).map f := by
  induction st with
  | nil => rfl
  | cons a st ih =>
    have ha := hf a (List.mem_cons_self _ _)
    have ih' := ih (fun x hx => hf x (List.mem_cons_of_mem _ hx))
    unfold firstOf at ih' ⊢
    by_cases hn : nameOf a = n
    · simp [List.find?, ha, hn]
    · simp only [List.map_cons, List.find?, ha, hn, decide_False]
      exact ih'

theorem firstOf_append {α : Type} (nameOf : α → Str) (st : List α) (x : α) (n : Str) :
    firstOf nameOf (st ++ [x]) n =
      match firstOf nameOf st n with
      | some r => some r
      | none => if nameOf x = n then some x else none := by
  unfold firstOf
  rw [List.find?_append]
  cases h : List.find? (fun r => decide (nameOf r = n)) st with
  | some r => simp
  | none =>
    by_cases hx : nameOf x = n <;> simp [List.find?, hx]

theorem map_at_id {α : Type} [DecidableEq α] (idOf : α → Int) (g : α → α) (st : List α)
    (r0 : α) (hid : (st.map idOf).Nodup) (hr0 : r0 ∈ st) :
    (st.map fun x => if idOf x = idOf r0 then g x else x) =
      st.map fun x => if x = r0 then g r0 else x := by
  apply List.map_congr_left
  intro x hx
  by_cases hx0 : x = r0
  · subst hx0
    simp
  · have : ¬ idOf x = idOf r0 := fun e => hx0 (List.inj_on_of_nodup_map hid hx hr0 e)
    simp [hx0, this]

theorem replace_ids {α : Type} [DecidableEq α] (idOf : α → Int) (st : List α) (r0 r1 : α)
    (h : idOf r1 = idOf r0) :
    (st.map fun x => if x = r0 then r1 else x).map idOf = st.map idOf := by
  rw [List.map_map]
  apply List.map_congr_left
  intro x _
  simp only [Function.comp]
  split
  · rename_i hx
    rw [h, hx]
  · rfl

theorem replace_first {α : Type} [DecidableEq α] (nameOf : α → Str) (st : List α) (r0 r1 : α)
    (h : nameOf r1 = nameOf r0) (n : Str) :
    firstOf nameOf (st.map fun x => if x = r0 then r1 else x) n =
      (firstOf nameOf st n).map fun x => if x = r0 then r1 else x := by
  apply firstOf_map
  intro x _
  split
  · rename_i hx
    rw [h, hx]
  · rfl

theorem replace_row {α : Type} [DecidableEq α] (st : List α) (r0 r1 : α) (k : Nat) (r : α)
    (h : st[k]? = some r) :
    (st.map fun x => if x = r0 then r1 else x)[k]? = some (if r = r0 then r1 else r) := by
  rw [List.getElem?_map, h]
  rfl

theorem append_row {α : Type} (st : List α) (x : α) (k : Nat) (r : α) (h : st[k]? = some r) :
    (st ++ [x])[k]? = some r := by
  have hk : k < st.length := by
    obtain ⟨hk, _⟩ := List.getElem?_eq_some.1 h
    exact hk
  rw [List.getElem?_append_left hk, h]

theorem append_ids_nodup {α : Type} (idOf : α → Int) (st : List α) (x : α)
    (hid : (st.map idOf).Nodup) (hx : ∀ r ∈ st, idOf r < idOf x) :
    ((st ++ [x]).map idOf).Nodup := by
  simp only [List.map_append, List.map_cons, List.map_nil]
  rw [List.nodup_append]
  refine ⟨hid, by simp, ?_⟩
  rw [List.disjoint_singleton]
  intro hmem
  obtain ⟨r, hr, hre⟩ := List.mem_map.1 hmem
  have := hx r hr
  omega

/-! ## `writeServiceTagUat`: lemmas and claim -/

theorem tagGet_name (store : List ServiceTag) (svc : Str) (hs : svc ≠ []) :
    tagGet store
        { Id := 0, ServiceName := svc, Tag := [], Uat := 0, ProdBeta := 0, ProdAlpha := 0,
          UpdatedAt := 0 } = firstOf ServiceTag.ServiceName store svc := by
  unfold tagGet firstOf
  congr 1
  funext r
  simp [tagMatches, hs]

theorem lt_tagNextId (st : List ServiceTag) (r : ServiceTag) (h : r ∈ st) :
    r.Id < tagNextId st := by
  unfold tagNextId
  induction st with
  | nil => simp at h
  | cons a st ih =>
    simp only [List.map_cons, List.foldr_cons]
    rcases List.mem_cons.1 h with rfl | h
    · have := le_max_left r.Id ((st.map ServiceTag.Id).foldr max 0)
      omega
    · have h1 := ih h
      have := le_max_right a.Id ((st.map ServiceTag.Id).foldr max 0)
      omega

theorem uatStep_facts (now : Nat) (imageTag : Str) (st : List ServiceTag) (svc : Str)
    (hid : (st.map ServiceTag.Id).Nodup) (hs : svc ≠ []) :
    ((uatStep now imageTag st svc).map ServiceTag.Id).Nodup ∧
    (∃ r, firstOf ServiceTag.ServiceName (uatStep now imageTag st svc) svc = some r ∧
      r.Tag = imageTag ∧ r.Uat = 1 ∧ r.ProdBeta = 0 ∧ r.ProdAlpha = 0) ∧
    (∀ n, n ≠ svc → firstOf ServiceTag.ServiceName (uatStep now imageTag st svc) n =
      firstOf ServiceTag.ServiceName st n) ∧
    (∀ (k : Nat) (r : ServiceTag), st[k]? = some r → r.ServiceName ≠ svc →
      (uatStep now imageTag st svc)[k]? = some r) := by
  unfold uatStep
  rw [tagGet_name st svc hs]
  cases hrec : firstOf ServiceTag.ServiceName st svc with
  | some r0 =>
    obtain ⟨hmem, hname⟩ := firstOf_some ServiceTag.ServiceName hrec
    have hstep : tagUpdateCols now st r0.Id
        { r0 with Tag := imageTag, Uat := 1, ProdBeta := 0, ProdAlpha := 0 } =
        st.map fun x => if x = r0 then
          { r0 with Tag := imageTag, Uat := 1, ProdBeta := 0, ProdAlpha := 0,
                    UpdatedAt := now } else x := by
      unfold tagUpdateCols
      exact map_at_id ServiceTag.Id
        (fun r => { r with Tag := imageTag, Uat := 1, ProdBeta := 0, ProdAlpha := 0,
                           UpdatedAt := now }) st r0 hid hmem
    have key : ∃ r1 : ServiceTag, r1.Id = r0.Id ∧ r1.ServiceName = r0.ServiceName ∧
        r1.Tag = imageTag ∧ r1.Uat = 1 ∧ r1.ProdBeta = 0 ∧ r1.ProdAlpha = 0 ∧
        tagUpdateCols now st r0.Id
          { r0 with Tag := imageTag, Uat := 1, ProdBeta := 0, ProdAlpha := 0 } =
          st.map fun x => if x = r0 then r1 else x :=
      ⟨{ r0 with Tag := imageTag, Uat := 1, ProdBeta := 0, ProdAlpha := 0, UpdatedAt := now },
        rfl, rfl, rfl, rfl, rfl, rfl, hstep⟩
    obtain ⟨r1, e1, e2, e3, e4, e5, e6, hstep1⟩ := key
    simp only
    rw [hstep1]
    refine ⟨?_, ?_, ?_, ?_⟩
    · rw [replace_ids ServiceTag.Id st r0 r1 e1]
      exact hid
    · rw [replace_first ServiceTag.ServiceName st r0 r1 e2, hrec]
      exact ⟨r1, by simp, e3, e4, e5, e6⟩
    · intro n hn
      rw [replace_first ServiceTag.ServiceName st r0 r1 e2]
      cases hrec2 : firstOf ServiceTag.ServiceName st n with
      | none => rfl
      | some r2 =>
        have hne : ¬ r2 = r0 := by
          intro e
          apply hn
          rw [← (firstOf_some ServiceTag.ServiceName hrec2).2, e, hname]
        simp [hne]
    · intro k r hk hne
      rw [replace_row st r0 r1 k r hk]
      have : ¬ r = r0 := fun e => hne (e ▸ hname)
      simp [this]
  | none =>
    simp only [tagInsert]
    refine ⟨?_, ?_, ?_, ?_⟩
    · exact append_ids_nodup ServiceTag.Id st _ hid (fun r hr => lt_tagNextId st r hr)
    · rw [firstOf_append, hrec]
      exact ⟨{ Id := tagNextId st, ServiceName := svc, Tag := imageTag, Uat := 1,
               ProdBeta := 0, ProdAlpha := 0, UpdatedAt := now }, by simp, rfl, rfl, rfl, rfl⟩
    · intro n hn
      rw [firstOf_append]
      cases hrec2 : firstOf ServiceTag.ServiceName st n with
      | some r2 => rfl
      | none =>
        have : ¬ svc = n := fun e => hn e.symm
        simp [this]
    · intro k r hk _
      exact append_row st _ k r hk

theorem uatLoop_facts (now : Nat) (imageTag : Str) (names : List Str) :
    ∀ st : List ServiceTag, (st.map ServiceTag.Id).Nodup → (∀ n ∈ names, n ≠ []) →
      ((names.foldl (uatStep now imageTag) st).map ServiceTag.Id).Nodup ∧
      (∀ n ∈ names, ∃ r,
        firstOf ServiceTag.ServiceName (names.foldl (uatStep now imageTag) st) n = some r ∧
        r.Tag = imageTag ∧ r.Uat = 1 ∧ r.ProdBeta = 0 ∧ r.ProdAlpha = 0) ∧
      (∀ n, n ∉ names →
        firstOf ServiceTag.ServiceName (names.foldl (uatStep now imageTag) st) n =
          firstOf ServiceTag.ServiceName st n) ∧
      (∀ (k : Nat) (r : ServiceTag), st[k]? = some r → r.ServiceName ∉ names →
        (names.foldl (uatStep now imageTag) st)[k]? = some r) := by
  induction names with
  | nil =>
    intro st hid _
    exact ⟨hid, by simp, fun _ _ => rfl, fun _ _ h _ => h⟩
  | cons a rest ih =>
    intro st hid hne
    obtain ⟨s1, s2, s3, s4⟩ :=
      uatStep_facts now imageTag st a hid (hne a (List.mem_cons_self _ _))
    obtain ⟨i1, i2, i3, i4⟩ :=
      ih (uatStep now imageTag st a) s1 (fun n hn => hne n (List.mem_cons_of_mem _ hn))
    simp only [List.foldl_cons]
    refine ⟨i1, ?_, ?_, ?_⟩
    · intro n hn
      by_cases hr : n ∈ rest
      · exact i2 n hr
      · rcases List.mem_cons.1 hn with rfl | hn
        · rw [i3 n hr]
          exact s2
        · exact absurd hn hr
    · intro n hn
      simp only [List.mem_cons, not_or] at hn
      rw [i3 n hn.2, s3 n hn.1]
    · intro k r hk hn
      simp only [List.mem_cons, not_or] at hn
      exact i4 k r (s4 k r hk hn.1) hn.2

/-- C14, refuted as stated: the list `"svcB "` ends with a space, so its
second element is the empty name; the read for it has no condition and
returns the first row of the table, the one of `svcA`, which is not in the
list and gets the new tag; and no row for the empty name is written. -/
theorem trailing_space_overwrites :
    strSplit ' ' "svcB ".toList = ["svcB".toList, []] ∧
    sampleTags[0]? = some (sampleTag 1 "svcA" "v1" 1 0 0) ∧
    (writeServiceTagUat 9 sampleTags "svcB ".toList "v9".toList)[0]? =
      some { sampleTag 1 "svcA" "v9" 1 0 0 with UpdatedAt := 9 } ∧
    firstOf ServiceTag.ServiceName
      (writeServiceTagUat 9 sampleTags "svcB ".toList "v9".toList) [] = none := by
  decide

/-- C14, amended: let the table have a primary key (`hid`) and let every
element of the space-separated list be a non-empty name (no leading,
trailing or double space). After `writeServiceTagUat` with tag `T`, writes
succeeding, the table holds for each listed service a row with `tag = T`,
`uat = 1`, `prod_beta = 0` and `prod_alpha = 0`, whatever it held before;
and every row of a service that is not in the list is unchanged. -/
theorem writeServiceTagUat_effect (now : Nat) (store : List ServiceTag)
    (harborSvcList imageTag : Str) (hid : (store.map ServiceTag.Id).Nodup)
    (hne : ∀ svc ∈ strSplit ' ' harborSvcList, svc ≠ []) :
    (∀ svc ∈ strSplit ' ' harborSvcList, ∃ r,
      firstOf ServiceTag.ServiceName
        (writeServiceTagUat now store harborSvcList imageTag) svc = some r ∧
      r.Tag = imageTag ∧ r.Uat = 1 ∧ r.ProdBeta = 0 ∧ r.ProdAlpha = 0) ∧
    (∀ (k : Nat) (r : ServiceTag), store[k]? = some r →
      r.ServiceName ∉ strSplit ' ' harborSvcList →
      (writeServiceTagUat now store harborSvcList imageTag)[k]? = some r) := by
  obtain ⟨_, h2, _, h4⟩ := uatLoop_facts now imageTag (strSplit ' ' harborSvcList) store hid hne
  exact ⟨h2, h4⟩

/-- Witness of the amended C14: `svcC` is promoted to alpha and has tag `v2`
before; after the run it has tag `v9` and no promotion, `svcE` is inserted,
and the row of `svcA` is as before. -/
theorem writeServiceTagUat_effect_witness :
    (sampleTags.map ServiceTag.Id).Nodup ∧
    (∀ svc ∈ strSplit ' ' "svcC svcE".toList, svc ≠ []) ∧
    writeServiceTagUat 9 sampleTags "svcC svcE".toList "v9".toList =
      [ sampleTag 1 "svcA" "v1" 1 0 0, sampleTag 2 "svcB" "v1" 1 0 0,
        { sampleTag 3 "svcC" "v9" 1 0 0 with UpdatedAt := 9 }, sampleTag 4 "svcD" "v3" 1 0 0,
        { sampleTag 5 "svcE" "v9" 1 0 0 with UpdatedAt := 9 } ] ∧
    (writeServiceTagUat 9 sampleTags "svcC svcE".toList "v9".toList)[0]? =
      some (sampleTag 1 "svcA" "v1" 1 0 0) :=
  ⟨by decide, by decide, by decide,
    (writeServiceTagUat_effect 9 sampleTags "svcC svcE".toList "v9".toList (by decide)
      (by decide)).2 0 (sampleTag 1 "svcA" "v1" 1 0 0) (by decide) (by decide)⟩

/-! ## `writeDeployStatus`: lemmas and claim -/

theorem recordOf_eq_firstOf (st : List ServiceRevision) (n : Str) :
    recordOf st n = firstOf ServiceRevision.ServiceName st n := rfl

theorem engineGet_name (store : List ServiceRevision) (svc : Str) (hs : svc ≠ []) :
    engineGet store
        { Id := 0, ServiceName := svc, RevId := [], CommitId := [], Deployed := 0 } =
      recordOf store svc := by
  unfold engineGet recordOf
  congr 1
  funext r
  simp [revMatches, hs]

theorem engineUpdate_own (st : List ServiceRevision) (r0 r1 : ServiceRevision)
    (hid : (st.map ServiceRevision.Id).Nodup) (hr0 : r0 ∈ st)
    (h1 : r1.Id = r0.Id)
    (hn : r1.ServiceName = r0.ServiceName) (hc : r1.CommitId = r0.CommitId)
    (hr : r1.RevId ≠ [] ∨ r1.RevId = r0.RevId) (hd : r1.Deployed ≠ 0) :
    engineUpdate st r0.Id r1 = st.map fun x => if x = r0 then r1 else x := by
  unfold engineUpdate
  rw [map_at_id ServiceRevision.Id
    (fun r => { Id := r.Id
                ServiceName := if r1.ServiceName = [] then r.ServiceName else r1.ServiceName
                RevId := if r1.RevId = [] then r.RevId else r1.RevId
                CommitId := if r1.CommitId = [] then r.CommitId else r1.CommitId
                Deployed := if r1.Deployed = 0 then r.Deployed else r1.Deployed })
    st r0 hid hr0]
  apply List.map_congr_left
  intro x _
  by_cases hx : x = r0
  · simp only [hx, if_true, hd, if_false]
    cases r1 with
    | mk i n rv c d =>
      simp only at h1 hn hc hr hd ⊢
      subst h1 hn hc
      congr 1
      · split <;> simp_all
      · rcases hr with hr | hr
        · simp [hr]
        · simp [hr]
      · split <;> simp_all
  · simp [hx]

theorem deployStep_facts (st : List ServiceRevision) (out : List Str) (e : Str)
    (hid : (st.map ServiceRevision.Id).Nodup) (hne : deployName e ≠ some []) :
    ((deployStep (st, out) e).1.map ServiceRevision.Id = st.map ServiceRevision.Id) ∧
    ((deployStep (st, out) e).2 = out ++ (deployCommit st e).toList) ∧
    (∀ n, recordOf (deployStep (st, out) e).1 n =
      (recordOf st n).map fun r =>
        if deployName e = some n then { r with Deployed := 1 } else r) ∧
    (∀ (k : Nat) (r : ServiceRevision), st[k]? = some r →
      (∀ n, deployName e = some n → (recordOf st n).map ServiceRevision.Id ≠ some r.Id) →
      (deployStep (st, out) e).1[k]? = some r) := by
  by_cases hidx : strIndex e markPom = -1
  · have hdn : deployName e = none := by simp [deployName, hidx]
    have hstep : deployStep (st, out) e = (st, out) := by simp [deployStep, hidx]
    have hdc : deployCommit st e = none := by simp [deployCommit, hdn]
    rw [hstep, hdc]
    refine ⟨rfl, by simp, ?_, fun k r hk _ => hk⟩
    intro n
    cases recordOf st n <;> simp [hdn]
  · have hdn : deployName e = some (e.take (strIndex e markPom).toNat) := by
      simp [deployName, hidx]
    have hnn : e.take (strIndex e markPom).toNat ≠ [] := by
      intro h
      apply hne
      rw [hdn, h]
    cases hrec : recordOf st (e.take (strIndex e markPom).toNat) with
    | none =>
      have hstep : deployStep (st, out) e = (st, out) := by
        simp only [deployStep, ne_eq, hidx, not_false_eq_true, if_true,
          engineGet_name st _ hnn, hrec]
      have hdc : deployCommit st e = none := by simp [deployCommit, hdn, hrec]
      rw [hstep, hdc]
      refine ⟨rfl, by simp, ?_, fun k r hk _ => hk⟩
      intro n
      cases hrec2 : recordOf st n with
      | none => rfl
      | some r2 =>
        have : ¬ e.take (strIndex e markPom).toNat = n := by
          intro h
          rw [h] at hrec
          rw [hrec] at hrec2
          exact absurd hrec2 (by simp)
        simp [hdn, this]
    | some r0 =>
      obtain ⟨hmem, hname⟩ := recordOf_some hrec
      have hup := engineUpdate_own st r0 { r0 with Deployed := 1 } hid hmem rfl rfl rfl
        (Or.inr rfl) (by simp)
      have hstep : deployStep (st, out) e =
          (st.map fun x => if x = r0 then { r0 with Deployed := 1 } else x,
            out ++ [r0.CommitId]) := by
        simp only [deployStep, ne_eq, hidx, not_false_eq_true, if_true,
          engineGet_name st _ hnn, hrec]
        rw [hup]
      have hdc : deployCommit st e = some r0.CommitId := by
        simp [deployCommit, hdn, hrec]
      rw [hstep, hdc]
      refine ⟨replace_ids ServiceRevision.Id st r0 { r0 with Deployed := 1 } rfl, by simp,
        ?_, ?_⟩
      · intro n
        simp only
        rw [recordOf_eq_firstOf, replace_first ServiceRevision.ServiceName st r0
          { r0 with Deployed := 1 } rfl, ← recordOf_eq_firstOf]
        cases hrec2 : recordOf st n with
        | none => rfl
        | some r2 =>
          simp only [Option.map_some', Option.some.injEq]
          by_cases hn : e.take (strIndex e markPom).toNat = n
          · rw [hn] at hrec
            rw [hrec] at hrec2
            simp only [Option.some.injEq] at hrec2
            subst hrec2
            simp [hdn, hn]
          · have hne2 : ¬ r2 = r0 := by
              intro h
              apply hn
              rw [← hname, ← h, (recordOf_some hrec2).2]
            simp [hdn, hn, hne2]
      · intro k r hk hno
        simp only
        rw [replace_row st r0 { r0 with Deployed := 1 } k r hk]
        have : ¬ r = r0 := by
          intro h
          apply hno _ hdn
          rw [hrec, h]
          rfl
        simp [this]

theorem deployCommit_congr (st st1 : List ServiceRevision) (e : Str)
    (h : ∀ n, (recordOf st1 n).map ServiceRevision.CommitId =
      (recordOf st n).map ServiceRevision.CommitId) :
    deployCommit st1 e = deployCommit st e := by
  unfold deployCommit
  cases deployName e with
  | none => rfl
  | some n => exact h n

theorem deployLoop_facts (entries : List Str) :
    ∀ (st : List ServiceRevision) (out : List Str), (st.map ServiceRevision.Id).Nodup →
      (∀ e ∈ entries, deployName e ≠ some []) →
      ((entries.foldl deployStep (st, out)).1.map ServiceRevision.Id =
        st.map ServiceRevision.Id) ∧
      ((entries.foldl deployStep (st, out)).2 = out ++ entries.filterMap (deployCommit st)) ∧
      (∀ n r0, some n ∈ entries.map deployName → recordOf st n = some r0 →
        recordOf (entries.foldl deployStep (st, out)).1 n = some { r0 with Deployed := 1 }) ∧
      (∀ n, some n ∉ entries.map deployName →
        recordOf (entries.foldl deployStep (st, out)).1 n = recordOf st n) ∧
      (∀ (k : Nat) (r : ServiceRevision), st[k]? = some r →
        (∀ n, some n ∈ entries.map deployName →
          (recordOf st n).map ServiceRevision.Id ≠ some r.Id) →
        (entries.foldl deployStep (st, out)).1[k]? = some r) := by
  induction entries with
  | nil =>
    intro st out _ _
    exact ⟨rfl, by simp, by simp, fun _ _ => rfl, fun _ _ h _ => h⟩
  | cons e rest ih =>
    intro st out hid hne
    obtain ⟨s1, s2, s3, s4⟩ :=
      deployStep_facts st out e hid (hne e (List.mem_cons_self _ _))
    have hid1 : ((deployStep (st, out) e).1.map ServiceRevision.Id).Nodup := by
      rw [s1]
      exact hid
    obtain ⟨i1, i2, i3, i4, i5⟩ := ih (deployStep (st, out) e).1 (deployStep (st, out) e).2
      hid1 (fun x hx => hne x (List.mem_cons_of_mem _ hx))
    have hcommit : ∀ n, (recordOf (deployStep (st, out) e).1 n).map ServiceRevision.CommitId =
        (recordOf st n).map ServiceRevision.CommitId := by
      intro n
      rw [s3 n]
      cases recordOf st n with
      | none => rfl
      | some r => simp only [Option.map_some']; split <;> rfl
    have hids : ∀ n, (recordOf (deployStep (st, out) e).1 n).map ServiceRevision.Id =
        (recordOf st n).map ServiceRevision.Id := by
      intro n
      rw [s3 n]
      cases recordOf st n with
      | none => rfl
      | some r => simp only [Option.map_some']; split <;> rfl
    simp only [List.foldl_cons]
    refine ⟨i1.trans s1, ?_, ?_, ?_, ?_⟩
    · rw [i2, s2, List.append_assoc]
      congr 1
      rw [List.filterMap_cons]
      have hfm : rest.filterMap (deployCommit (deployStep (st, out) e).1) =
          rest.filterMap (deployCommit st) := by
        apply List.filterMap_congr
        intro x _
        exact deployCommit_congr st _ x hcommit
      rw [hfm]
      cases deployCommit st e <;> rfl
    · intro n r0 hn hrec
      have hstep := s3 n
      rw [hrec] at hstep
      simp only [Option.map_some'] at hstep
      by_cases hr : some n ∈ rest.map deployName
      · have := i3 n _ hr hstep
        rw [this]
        split <;> rfl
      · rw [i4 n hr, hstep]
        simp only [List.map_cons, List.mem_cons] at hn
        rcases hn with hn | hn
        · simp [hn.symm]
        · exact absurd hn hr
    · intro n hn
      simp only [List.map_cons, List.mem_cons, not_or] at hn
      rw [i4 n hn.2, s3 n]
      have : ¬ deployName e = some n := fun h => hn.1 h.symm
      cases recordOf st n with
      | none => rfl
      | some r => simp [this]
    · intro k r hk hno
      apply i5 k r
      · apply s4 k r hk
        intro n hn
        exact hno n (by simp [hn])
      · intro n hn
        rw [hids n]
        exact hno n (by simp [hn])

/-- C16, refuted as stated: the entry `/pom.xml` holds `"/pom.xml"` and the
text before it, the empty service name, has no record; the read for it has
no condition and returns the first row of the table, so the row of `b` is
set to deployed and its commit id is returned. -/
theorem empty_name_deploys :
    deployName "/pom.xml".toList = some [] ∧
    recordOf sampleStoreB [] = none ∧
    writeDeployStatus sampleStoreB "/pom.xml".toList =
      ([ { Id := 2, ServiceName := "b".toList, RevId := "r2".toList, CommitId := "c2".toList,
           Deployed := 1 } ], "c2".toList) := by
  decide

/-- C16, amended: let the table have a primary key (`hid`) and let no entry
of the comma-separated list start with its first `"/pom.xml"` (the service
names are non-empty). Then `writeDeployStatus` returns the `"|"`-join, in
input order, of the commit ids of the records of the entries that hold
`"/pom.xml"` and whose service name has a record; each such record ends with
`deployed = 1` and everything else as before; every row that is not the
record of the service of an entry is unchanged; and no row is added. -/
theorem writeDeployStatus_effect (store : List ServiceRevision) (deployList : Str)
    (hid : (store.map ServiceRevision.Id).Nodup)
    (hne : ∀ e ∈ strSplit ',' deployList, deployName e ≠ some []) :
    (writeDeployStatus store deployList).2 =
      strJoin sepPipe ((strSplit ',' deployList).filterMap (deployCommit store)) ∧
    (∀ e ∈ strSplit ',' deployList, ∀ n r0, deployName e = some n →
      recordOf store n = some r0 →
      recordOf (writeDeployStatus store deployList).1 n = some { r0 with Deployed := 1 }) ∧
    (∀ (k : Nat) (r : ServiceRevision), store[k]? = some r →
      (∀ e ∈ strSplit ',' deployList, ∀ n, deployName e = some n →
        recordOf store n ≠ some r) →
      (writeDeployStatus store deployList).1[k]? = some r) ∧
    (writeDeployStatus store deployList).1.length = store.length := by
  obtain ⟨h1, h2, h3, _, h5⟩ := deployLoop_facts (strSplit ',' deployList) store [] hid hne
  unfold writeDeployStatus
  simp only
  refine ⟨by rw [h2]; rfl, ?_, ?_, ?_⟩
  · intro e he n r0 hn hrec
    exact h3 n r0 (List.mem_map.2 ⟨e, he, hn⟩) hrec
  · intro k r hk hno
    apply h5 k r hk
    intro n hn hidn
    obtain ⟨e, he, hen⟩ := List.mem_map.1 hn
    cases hrec : recordOf store n with
    | none => simp [hrec] at hidn
    | some r2 =>
      simp only [hrec, Option.map_some', Option.some.injEq] at hidn
      have := eq_of_id_eq hid (recordOf_some hrec).1 (List.getElem?_mem hk) hidn
      exact hno e he n hen (by rw [hrec, this])
  · have := congrArg List.length h1
    simpa using this

/-- Witness of the amended C16 on the sample table: `b` has a record and is
set to deployed, `x` has none, and `c/Dockerfile` holds no `"/pom.xml"`. -/
theorem writeDeployStatus_effect_witness :
    (sampleStore.map ServiceRevision.Id).Nodup ∧
    (∀ e ∈ strSplit ',' "b/pom.xml,x/pom.xml,c/Dockerfile".toList, deployName e ≠ some []) ∧
    writeDeployStatus sampleStore "b/pom.xml,x/pom.xml,c/Dockerfile".toList =
      ([ { Id := 1, ServiceName := "a".toList, RevId := "r1".toList, CommitId := "c1".toList,
           Deployed := 1 },
         { Id := 2, ServiceName := "b".toList, RevId := "r2".toList, CommitId := "c2".toList,
           Deployed := 1 },
         { Id := 5, ServiceName := "c".toList, RevId := "r3".toList, CommitId := "c3".toList,
           Deployed := 1 } ], "c2".toList) ∧
    (writeDeployStatus sampleStore "b/pom.xml,x/pom.xml,c/Dockerfile".toList).2 =
      strJoin sepPipe ((strSplit ',' "b/pom.xml,x/pom.xml,c/Dockerfile".toList).filterMap
        (deployCommit sampleStore)) :=
  ⟨by decide, by decide, by decide,
    (writeDeployStatus_effect sampleStore "b/pom.xml,x/pom.xml,c/Dockerfile".toList
      (by decide) (by decide)).1⟩

/-! ## `initSvcEntry`: lemmas and claim -/

theorem initStep_facts (st : List ServiceRevision) (svc h : Str) (t : List Str)
    (hid : (st.map ServiceRevision.Id).Nodup) (hs : svc ≠ []) (hh : h ≠ []) :
    ((initStep st (svc, h :: t)).map ServiceRevision.Id).Nodup ∧
    (∃ r, recordOf (initStep st (svc, h :: t)) svc = some r ∧ r.RevId = h ∧ r.Deployed = 1) ∧
    (∀ n, n ≠ svc → recordOf (initStep st (svc, h :: t)) n = recordOf st n) ∧
    (∀ (k : Nat) (r : ServiceRevision), st[k]? = some r → r.ServiceName ≠ svc →
      (initStep st (svc, h :: t))[k]? = some r) := by
  cases hrec : recordOf st svc with
  | some r0 =>
    obtain ⟨hmem, hname⟩ := recordOf_some hrec
    have hup := engineUpdate_own st r0 { r0 with RevId := h, Deployed := 1 } hid hmem rfl rfl
      rfl (Or.inl hh) (by simp)
    have hstep : initStep st (svc, h :: t) =
        st.map fun x => if x = r0 then { r0 with RevId := h, Deployed := 1 } else x := by
      simp only [initStep, List.length_cons, gt_iff_lt, Nat.zero_lt_succ, if_true,
        engineGet_name st svc hs, hrec, List.head?_cons, Option.getD_some]
      rw [hup]
    rw [hstep]
    refine ⟨?_, ?_, ?_, ?_⟩
    · rw [replace_ids ServiceRevision.Id st r0 { r0 with RevId := h, Deployed := 1 } rfl]
      exact hid
    · rw [recordOf_eq_firstOf, replace_first ServiceRevision.ServiceName st r0
        { r0 with RevId := h, Deployed := 1 } rfl, ← recordOf_eq_firstOf, hrec]
      exact ⟨{ r0 with RevId := h, Deployed := 1 }, by simp, rfl, rfl⟩
    · intro n hn
      rw [recordOf_eq_firstOf, replace_first ServiceRevision.ServiceName st r0
        { r0 with RevId := h, Deployed := 1 } rfl, ← recordOf_eq_firstOf]
      cases hrec2 : recordOf st n with
      | none => rfl
      | some r2 =>
        have hne : ¬ r2 = r0 := by
          intro e
          apply hn
          rw [← (recordOf_some hrec2).2, e, hname]
        simp [hne]
    · intro k r hk hne
      rw [replace_row st r0 { r0 with RevId := h, Deployed := 1 } k r hk]
      have : ¬ r = r0 := fun e => hne (e ▸ hname)
      simp [this]
  | none =>
    have hstep : initStep st (svc, h :: t) =
        st ++ [{ Id := nextId st, ServiceName := svc, RevId := h, CommitId := [],
                 Deployed := 1 }] := by
      simp only [initStep, List.length_cons, gt_iff_lt, Nat.zero_lt_succ, if_true,
        engineGet_name st svc hs, hrec, List.head?_cons, Option.getD_some, applyWrite]
    rw [hstep]
    refine ⟨?_, ?_, ?_, ?_⟩
    · exact append_ids_nodup ServiceRevision.Id st _ hid (fun r hr => lt_nextId st r hr)
    · rw [recordOf_eq_firstOf, firstOf_append, ← recordOf_eq_firstOf, hrec]
      exact ⟨{ Id := nextId st, ServiceName := svc, RevId := h, CommitId := [],
               Deployed := 1 }, by simp, rfl, rfl⟩
    · intro n hn
      rw [recordOf_eq_firstOf, firstOf_append, ← recordOf_eq_firstOf]
      cases hrec2 : recordOf st n with
      | some r2 => rfl
      | none =>
        have : ¬ svc = n := fun e => hn e.symm
        simp [this]
    · intro k r hk _
      exact append_row st _ k r hk

theorem initLoop_facts (m : GoMap (List Str)) :
    ∀ st : List ServiceRevision, (st.map ServiceRevision.Id).Nodup →
      (m.map Prod.fst).Nodup →
      (∀ e ∈ m, e.2 ≠ [] → e.1 ≠ [] ∧ e.2.head? ≠ some []) →
      ((m.foldl initStep st).map ServiceRevision.Id).Nodup ∧
      (∀ svc h t, (svc, h :: t) ∈ m →
        ∃ r, recordOf (m.foldl initStep st) svc = some r ∧ r.RevId = h ∧ r.Deployed = 1) ∧
      (∀ n, (∀ e ∈ m, e.1 = n → e.2 = []) →
        recordOf (m.foldl initStep st) n = recordOf st n) ∧
      (∀ (k : Nat) (r : ServiceRevision), st[k]? = some r →
        (∀ e ∈ m, e.1 = r.ServiceName → e.2 = []) →
        (m.foldl initStep st)[k]? = some r) := by
  induction m with
  | nil =>
    intro st hid _ _
    exact ⟨hid, by simp, fun _ _ => rfl, fun _ _ h _ => h⟩
  | cons e rest ih =>
    intro st hid hk hne
    obtain ⟨svc, revs⟩ := e
    simp only [List.map_cons, List.nodup_cons] at hk
    have hne' : ∀ e ∈ rest, e.2 ≠ [] → e.1 ≠ [] ∧ e.2.head? ≠ some [] :=
      fun e he => hne e (List.mem_cons_of_mem _ he)
    simp only [List.foldl_cons]
    cases revs with
    | nil =>
      have hstep : initStep st (svc, []) = st := by simp [initStep]
      rw [hstep]
      obtain ⟨i1, i2, i3, i4⟩ := ih st hid hk.2 hne'
      refine ⟨i1, ?_, ?_, ?_⟩
      · intro svc2 h t hmem
        rcases List.mem_cons.1 hmem with he | hmem
        · simp at he
        · exact i2 svc2 h t hmem
      · intro n hn
        exact i3 n (fun e he => hn e (List.mem_cons_of_mem _ he))
      · intro k r hkr hn
        exact i4 k r hkr (fun e he => hn e (List.mem_cons_of_mem _ he))
    | cons h t =>
      obtain ⟨hs, hh⟩ := hne (svc, h :: t) (List.mem_cons_self _ _) (by simp)
      have hh' : h ≠ [] := by simpa using hh
      obtain ⟨s1, s2, s3, s4⟩ := initStep_facts st svc h t hid hs hh'
      obtain ⟨i1, i2, i3, i4⟩ := ih (initStep st (svc, h :: t)) s1 hk.2 hne'
      have hrest : ∀ e ∈ rest, e.1 = svc → e.2 = [] := by
        intro e he hes
        exact absurd (List.mem_map.2 ⟨e, he, hes⟩) hk.1
      refine ⟨i1, ?_, ?_, ?_⟩
      · intro svc2 h2 t2 hmem
        rcases List.mem_cons.1 hmem with he | hmem
        · simp only [Prod.mk.injEq, List.cons.injEq] at he
          obtain ⟨rfl, rfl, rfl⟩ := he
          rw [i3 svc2 hrest]
          exact s2
        · exact i2 svc2 h2 t2 hmem
      · intro n hn
        have hns : n ≠ svc := by
          intro e
          have := hn (svc, h :: t) (List.mem_cons_self _ _) e.symm
          simp at this
        rw [i3 n (fun e he => hn e (List.mem_cons_of_mem _ he)), s3 n hns]
      · intro k r hkr hn
        have hns : r.ServiceName ≠ svc := by
          intro e
          have := hn (svc, h :: t) (List.mem_cons_self _ _) e.symm
          simp at this
        exact i4 k r (s4 k r hkr hns) (fun e he => hn e (List.mem_cons_of_mem _ he))

/-- C17, refuted as stated: service `a` has the sequence whose head is the
empty change id (a body line read before any `Change-Id: ` line) and a
record at revision `r1`; the update of line 328 writes the non-zero fields
of its bean only, so `rev_id` stays `r1` and is not the head of the
sequence, while `deployed` becomes 1. -/
theorem empty_head_not_written :
    initSvcEntry sampleStoreA [("a".toList, [[]])] =
      [ { Id := 1, ServiceName := "a".toList, RevId := "r1".toList, CommitId := "c1".toList,
          Deployed := 1 } ] ∧
    (recordOf (initSvcEntry sampleStoreA [("a".toList, [[]])]) "a".toList).map
      ServiceRevision.RevId ≠ some [] := by
  decide

/-- C17, amended: let the table have a primary key (`hid`), and let every
service with a non-empty sequence have a non-empty name and a non-empty
change id at the head of its sequence. After `initSvcEntry`, writes
succeeding, every service with a non-empty sequence has a record whose
`rev_id` is the head of the sequence and whose `deployed` flag is 1, whether
it existed before or was inserted; a service with an empty sequence or
without entry gets no record, and the rows of such services are unchanged. -/
theorem initSvcEntry_effect (store : List ServiceRevision) (svcMap : GoMap (List Str))
    (hk : (svcMap.map Prod.fst).Nodup) (hid : (store.map ServiceRevision.Id).Nodup)
    (hne : ∀ e ∈ svcMap, e.2 ≠ [] → e.1 ≠ [] ∧ e.2.head? ≠ some []) :
    (∀ svc h t, mapGet [] svcMap svc = h :: t →
      ∃ r, recordOf (initSvcEntry store svcMap) svc = some r ∧ r.RevId = h ∧
        r.Deployed = 1) ∧
    (∀ svc, mapGet [] svcMap svc = [] →
      recordOf (initSvcEntry store svcMap) svc = recordOf store svc) ∧
    (∀ (k : Nat) (r : ServiceRevision), store[k]? = some r →
      mapGet [] svcMap r.ServiceName = [] → (initSvcEntry store svcMap)[k]? = some r) := by
  obtain ⟨_, h2, h3, h4⟩ := initLoop_facts svcMap store hid hk hne
  have hemp : ∀ n, mapGet [] svcMap n = [] → ∀ e ∈ svcMap, e.1 = n → e.2 = [] := by
    intro n hn e he hen
    obtain ⟨a, v⟩ := e
    simp only at hen
    subst hen
    rw [← mapGet_of_mem [] svcMap a v hk he]
    exact hn
  refine ⟨?_, ?_, ?_⟩
  · intro svc h t hm
    exact h2 svc h t (mapGet_mem svcMap svc h t hm)
  · intro svc hm
    exact h3 svc (hemp svc hm)
  · intro k r hkr hm
    exact h4 k r hkr (hemp _ hm)

/-- Witness of the amended C17 on the sample data: `a` is moved from `r1`
to `r9`, `d` is inserted, `e` has an empty sequence and gets no record. -/
theorem initSvcEntry_effect_witness :
    (sampleIndex.map Prod.fst).Nodup ∧ (sampleStore.map ServiceRevision.Id).Nodup ∧
    (∀ e ∈ sampleIndex, e.2 ≠ [] → e.1 ≠ [] ∧ e.2.head? ≠ some []) ∧
    initSvcEntry sampleStore sampleIndex =
      [ { Id := 1, ServiceName := "a".toList, RevId := "r9".toList, CommitId := "c1".toList,
          Deployed := 1 },
        { Id := 2, ServiceName := "b".toList, RevId := "r2".toList, CommitId := "c2".toList,
          Deployed := 1 },
        { Id := 5, ServiceName := "c".toList, RevId := "r3".toList, CommitId := "c3".toList,
          Deployed := 1 },
        { Id := 6, ServiceName := "d".toList, RevId := "r4".toList, CommitId := [],
          Deployed := 1 } ] ∧
    recordOf (initSvcEntry sampleStore sampleIndex) "e".toList =
      recordOf sampleStore "e".toList :=
  ⟨by decide, by decide, by decide, by decide,
    (initSvcEntry_effect sampleStore sampleIndex (by decide) (by decide) (by decide)).2.1
      "e".toList (by decide)⟩

/-! ## Reconciliation, deployment, reconciliation: lemmas and claim -/

theorem strSplit_join (l : List Str) (h : ∀ x ∈ l, ',' ∉ x) (hl : l ≠ []) :
    strSplit ',' (strJoin sepComma l) = l := by
  induction l with
  | nil => exact absurd rfl hl
  | cons a l ih =>
    cases l with
    | nil =>
      simp only [strJoin]
      exact strSplit_nosep ',' a (h a (List.mem_cons_self _ _))
    | cons b t =>
      have hj : strJoin sepComma (a :: b :: t) = a ++ ',' :: strJoin sepComma (b :: t) := by
        simp [strJoin, sepComma]
      rw [hj, strSplit_append_sep ',' a _ (h a (List.mem_cons_self _ _)),
        ih (fun x hx => h x (List.mem_cons_of_mem _ hx)) (by simp)]

theorem prefix_getElem? (a L : Str) (h : a <+: L) (i : Nat) (hi : i < a.length) :
    L[i]? = a[i]? := by
  obtain ⟨t, rfl⟩ := h
  exact List.getElem?_append_left hi

theorem markPom_no_overlap (s : Str) (hs : s ≠ []) (hlen : s.length < 8)
    (h : markPom <+: s ++ markPom) : False := by
  have h1 := prefix_getElem? markPom (s ++ markPom) h s.length (by simpa [markPom] using hlen)
  rw [List.getElem?_append_right (le_refl _)] at h1
  simp only [Nat.sub_self] at h1
  have hpos : 0 < s.length := List.length_pos.2 hs
  generalize s.length = n at h1 hlen hpos
  interval_cases n <;> simp [markPom] at h1

theorem strIndex_pom (svc : Str) (h : ¬ markPom <:+: svc) :
    strIndex (svc ++ markPom) markPom = (svc.length : Int) := by
  have := strIndex_at svc markPom [] (by
    intro j hj hpre
    rw [List.append_nil, List.drop_append_of_le_length (le_of_lt hj)] at hpre
    have hne : svc.drop j ≠ [] := by
      intro e
      have := congrArg List.length e
      simp only [List.length_drop, List.length_nil] at this
      omega
    by_cases hlen : (svc.drop j).length < 8
    · exact markPom_no_overlap (svc.drop j) hne hlen hpre
    · apply h
      have hp : markPom <+: svc.drop j :=
        List.prefix_of_prefix_length_le hpre (List.prefix_append _ _)
          (by simp only [markPom] at hlen ⊢; simp at hlen ⊢; omega)
      exact List.IsInfix.trans hp.isInfix (List.drop_suffix j svc).isInfix)
  rw [List.append_nil] at this
  exact this

theorem deployName_pom (svc : Str) (h : ¬ markPom <:+: svc) :
    deployName (svc ++ markPom) = some svc := by
  have hidx := strIndex_pom svc h
  have hne : ¬ ((svc.length : Int) = -1) := by omega
  simp [deployName, hidx, hne]

theorem applyWrites_nodup (ops : List StoreOp) :
    ∀ st : List ServiceRevision, WritesFit st ops →
      ((applyWrites st ops).map ServiceRevision.Id).Nodup := by
  induction ops with
  | nil => intro st h; exact h.1
  | cons op ops ih =>
    intro st h
    simp only [applyWrites, List.foldl_cons]
    exact ih (applyWrite st op) (writesFit_step st op ops h)

theorem storeAfterResolve_nodup (store : List ServiceRevision) (cmap : GoMap Str)
    (m : GoMap (List Str)) (hk : (m.map Prod.fst).Nodup)
    (hid : (store.map ServiceRevision.Id).Nodup) :
    ((storeAfterResolve store m cmap).map ServiceRevision.Id).Nodup := by
  have := applyWrites_nodup _ store (resolve_writesFit store cmap m hk hid)
  simpa [storeAfterResolve, resolveSvc_writes] using this

theorem entryEmit_cases (old : List ServiceRevision) (svc h : Str) (t : List Str) :
    (entryEmit old (svc, h :: t) = [svc ++ markPom]) ∨
    (entryEmit old (svc, h :: t) = [] ∧
      ∃ r0, recordOf old svc = some r0 ∧ r0.RevId = h ∧ r0.Deployed ≠ 0) := by
  unfold entryEmit
  simp only
  cases hrec : recordOf old svc with
  | none => left; rfl
  | some r0 =>
    simp only
    by_cases hc : h ≠ r0.RevId ∨ r0.Deployed = 0
    · left
      rw [if_pos hc]
      rfl
    · right
      rw [if_neg hc]
      simp only [not_or, ne_eq, not_not] at hc
      exact ⟨rfl, r0, rfl, hc.1.symm, hc.2⟩

theorem entryEmit_nil_of (old : List ServiceRevision) (svc h : Str) (t : List Str)
    (r : ServiceRevision) (hrec : recordOf old svc = some r) (hrev : r.RevId = h)
    (hd : r.Deployed ≠ 0) : entryEmit old (svc, h :: t) = [] := by
  simp [entryEmit, hrec, hrev, hd]

/-- The facts on the names of the deploy list that is joined from a rebuild
list and split again. -/
theorem deploy_entries (store : List ServiceRevision) (m : GoMap (List Str))
    (hnames : ∀ svc ∈ m.map Prod.fst, svc ≠ [] ∧ ',' ∉ svc ∧ ¬ markPom <:+: svc) :
    (∀ e ∈ strSplit ',' (strJoin sepComma ((m.map (entryEmit store)).flatten)),
      deployName e ≠ some []) ∧
    (∀ svc, svc ∈ m.map Prod.fst → svc ++ markPom ∈ (m.map (entryEmit store)).flatten →
      some svc ∈ (strSplit ',' (strJoin sepComma ((m.map (entryEmit store)).flatten))).map
        deployName) := by
  have hform : ∀ x ∈ (m.map (entryEmit store)).flatten,
      ∃ svc, x = svc ++ markPom ∧ svc ∈ m.map Prod.fst :=
    fun x hx => emit_mem store m x hx
  by_cases hl : (m.map (entryEmit store)).flatten = []
  · rw [hl]
    constructor
    · intro e he
      have : e = [] := by simpa [strJoin, strSplit] using he
      subst this
      decide
    · intro svc _ hmem
      simp at hmem
  · have hsplit : strSplit ',' (strJoin sepComma ((m.map (entryEmit store)).flatten)) =
        (m.map (entryEmit store)).flatten := by
      apply strSplit_join _ _ hl
      intro x hx
      obtain ⟨svc, rfl, hsvc⟩ := hform x hx
      have := (hnames svc hsvc).2.1
      simp only [List.mem_append, not_or]
      exact ⟨this, by decide⟩
    rw [hsplit]
    constructor
    · intro e he
      obtain ⟨svc, rfl, hsvc⟩ := hform e he
      rw [deployName_pom svc (hnames svc hsvc).2.2]
      simpa using (hnames svc hsvc).1
    · intro svc hsvc hmem
      exact List.mem_map.2 ⟨_, hmem, deployName_pom svc (hnames svc hsvc).2.2⟩

theorem after_deploy_record (store : List ServiceRevision) (cmap : GoMap Str)
    (m : GoMap (List Str)) (hk : (m.map Prod.fst).Nodup)
    (hid : (store.map ServiceRevision.Id).Nodup)
    (hnames : ∀ svc ∈ m.map Prod.fst, svc ≠ [] ∧ ',' ∉ svc ∧ ¬ markPom <:+: svc)
    (svc h : Str) (t : List Str) (hmem : (svc, h :: t) ∈ m) :
    ∃ r, recordOf (storeAfterDeploy store m cmap) svc = some r ∧ r.RevId = h ∧
      r.Deployed ≠ 0 ∧ (entryEmit store (svc, h :: t) = [svc ++ markPom] → r.Deployed = 1) := by
  have hid1 := storeAfterResolve_nodup store cmap m hk hid
  obtain ⟨hne, hlisted⟩ := deploy_entries store m hnames
  have hsvc : svc ∈ m.map Prod.fst := List.mem_map.2 ⟨_, hmem, rfl⟩
  obtain ⟨_, _, d3, d4, _⟩ := deployLoop_facts
    (strSplit ',' (strJoin sepComma ((m.map (entryEmit store)).flatten)))
    (storeAfterResolve store m cmap) [] hid1 hne
  obtain ⟨r1, hr1, hrev1⟩ := after_head store cmap m hk hid svc h t hmem
  have hstore : storeAfterDeploy store m cmap =
      ((strSplit ',' (strJoin sepComma ((m.map (entryEmit store)).flatten))).foldl deployStep
        (storeAfterResolve store m cmap, [])).1 := by
    simp only [storeAfterDeploy, writeDeployStatus, resolveSvc_updateList, List.nil_append]
  rw [hstore]
  rcases entryEmit_cases store svc h t with hem | ⟨hem, r0, hr0, hrev0, hd0⟩
  · have hin : svc ++ markPom ∈ (m.map (entryEmit store)).flatten := by
      simp only [List.mem_flatten, List.mem_map]
      exact ⟨_, ⟨(svc, h :: t), hmem, rfl⟩, by rw [hem]; simp⟩
    refine ⟨{ r1 with Deployed := 1 }, d3 svc r1 (hlisted svc hsvc hin) hr1, hrev1,
      by simp, fun _ => rfl⟩
  · have hsame : recordOf (storeAfterResolve store m cmap) svc = some r0 := by
      rw [after_same store cmap m hk hid svc, hr0]
      intro h2 t2 hm2
      rw [mapGet_of_mem [] m svc (h :: t) hk hmem] at hm2
      simp only [List.cons.injEq] at hm2
      exact ⟨r0, hr0, hm2.1 ▸ hrev0⟩
    by_cases hin : some svc ∈
        (strSplit ',' (strJoin sepComma ((m.map (entryEmit store)).flatten))).map deployName
    · refine ⟨{ r0 with Deployed := 1 }, d3 svc r0 hin hsame, hrev0, by simp, fun _ => rfl⟩
    · refine ⟨r0, by rw [d4 svc hin, hsame], hrev0, hd0, ?_⟩
      intro hem2
      rw [hem] at hem2
      exact absurd hem2 (by simp)

/-- C19, refuted as stated: the revision index holds the service with the
empty name, which has neither `","` nor `"/pom.xml"`, and the table holds one
row, for `b`. The first reconciliation inserts a record for the empty name
and lists `/pom.xml`; `writeDeployStatus` reads, for the empty name, the
first row of the table, the one of `b`; the record of the empty name stays
at `deployed = 0` and the second reconciliation lists `/pom.xml` again. -/
theorem empty_name_listed_again :
    (resolveSvc sampleStoreDeployed [([], ["r1".toList])] [] []).updateList =
      ["/pom.xml".toList] ∧
    (resolveSvc (storeAfterDeploy sampleStoreDeployed [([], ["r1".toList])] [])
      [([], ["r1".toList])] [] []).updateList = ["/pom.xml".toList] := by
  decide

/-- C19, amended: let the table have a primary key (`hid`) and let the
service names of the revision index be non-empty and hold neither `","` nor
`"/pom.xml"`. After `resolveSvc`, then `writeDeployStatus` on the
comma-joined rebuild list of that run, a second `resolveSvc` on the same
revision index (its entries visited in any order) lists no service; each
entry `svc + "/pom.xml"` of the first list is mapped back to the service name
`svc`, and the record of every service with a non-empty sequence is then at
the head of the sequence and deployed. -/
theorem resolve_deploy_resolve (store : List ServiceRevision)
    (svcMap svcMap2 : GoMap (List Str)) (changIdCommitIdMap : GoMap Str)
    (hk : (svcMap.map Prod.fst).Nodup) (hperm : svcMap2.Perm svcMap)
    (hid : (store.map ServiceRevision.Id).Nodup)
    (hnames : ∀ svc ∈ svcMap.map Prod.fst, svc ≠ [] ∧ ',' ∉ svc ∧ ¬ markPom <:+: svc) :
    (resolveSvc (storeAfterDeploy store svcMap changIdCommitIdMap) svcMap2
      changIdCommitIdMap []).updateList = [] ∧
    (∀ svc ∈ svcMap.map Prod.fst, deployName (svc ++ markPom) = some svc) ∧
    (∀ svc h t, mapGet [] svcMap svc = h :: t →
      ∃ r, recordOf (storeAfterDeploy store svcMap changIdCommitIdMap) svc = some r ∧
        r.RevId = h ∧ r.Deployed ≠ 0 ∧
        (needsRebuild store svcMap svc = true → r.Deployed = 1)) := by
  refine ⟨?_, ?_, ?_⟩
  · rw [resolveSvc_updateList, List.nil_append, List.flatten_eq_nil_iff]
    intro l hl
    obtain ⟨e, he, rfl⟩ := List.mem_map.1 hl
    obtain ⟨svc, revs⟩ := e
    cases revs with
    | nil => simp [entryEmit]
    | cons h t =>
      obtain ⟨r, hr, hrev, hd, _⟩ := after_deploy_record store changIdCommitIdMap svcMap hk hid
        hnames svc h t (hperm.mem_iff.1 he)
      exact entryEmit_nil_of _ svc h t r hr hrev hd
  · intro svc hsvc
    exact deployName_pom svc (hnames svc hsvc).2.2
  · intro svc h t hm
    have hmem := mapGet_mem svcMap svc h t hm
    obtain ⟨r, hr, hrev, hd, hone⟩ := after_deploy_record store changIdCommitIdMap svcMap hk
      hid hnames svc h t hmem
    refine ⟨r, hr, hrev, hd, ?_⟩
    intro hneed
    apply hone
    rcases entryEmit_cases store svc h t with hem | ⟨_, r0, hr0, hrev0, hd0⟩
    · exact hem
    · simp [needsRebuild, hm, hr0, hrev0, hd0] at hneed

/-- Witness of the amended C19 on the sample data, the second
reconciliation visiting the services in reverse order. -/
theorem resolve_deploy_resolve_witness :
    (sampleIndex.map Prod.fst).Nodup ∧ sampleIndex.reverse.Perm sampleIndex ∧
    (sampleStore.map ServiceRevision.Id).Nodup ∧
    (∀ svc ∈ sampleIndex.map Prod.fst, svc ≠ [] ∧ ',' ∉ svc ∧ ¬ markPom <:+: svc) ∧
    strJoin sepComma (resolveSvc sampleStore sampleIndex sampleCommits []).updateList =
      "a/pom.xml,b/pom.xml,d/pom.xml".toList ∧
    (resolveSvc (storeAfterDeploy sampleStore sampleIndex sampleCommits) sampleIndex.reverse
      sampleCommits []).updateList = [] :=
  ⟨by decide, List.reverse_perm _, by decide, by decide, by decide,
    (resolve_deploy_resolve sampleStore sampleIndex sampleIndex.reverse sampleCommits
      (by decide) (List.reverse_perm _) (by decide) (by decide)).1⟩

end GitDiffParser
